import Mathlib

/-!
Verification development for the QMK-style JSON pretty-printers of
`json_encoders.py`: the base `QMKJSONEncoder`, its `InfoJSONEncoder` and
`KeymapJSONEncoder` subclasses, and the float-normalizing `KLEJSONEncoder`.

The Python code is shallowly embedded: the document tree is the mutual
inductive `Value`/`VList`/`VDict`; Python `Decimal` values are carried as an
exact pair (mantissa, decimal scale); Python `float` values are carried as
the exact rational they denote (pair numerator/denominator).  Methods that
return `str` or raise `TypeError` become functions into `Except EncErr _`.
All definitions are executable and kernel-reducible (structural or fueled
recursion only).
-/

namespace QMKV

/-! ## Characters, digits, hexadecimal -/

/-- Decimal digit character for `n < 10`. -/
def digitChar (n : Nat) : Char := Char.ofNat (48 + n)

/-- Big-endian decimal digits of `n`, fuel-driven (fuel `n+1` always suffices);
models CPython's rendering of nonnegative integers. -/
def natDigitsAux : Nat → Nat → List Char → List Char
  | 0, _, acc => acc
  | fuel+1, n, acc =>
    if n < 10 then digitChar n :: acc
    else natDigitsAux fuel (n / 10) (digitChar (n % 10) :: acc)

def natDigits (n : Nat) : List Char := natDigitsAux (n+1) n []

def natRepr (n : Nat) : String := ⟨natDigits n⟩

/-- CPython `repr` of an `int`. -/
def intRepr : Int → String
  | .ofNat n => natRepr n
  | .negSucc n => "-" ++ natRepr (n+1)

/-- Lowercase hexadecimal digit for `n < 16` (as in CPython's `\uXXXX` escapes). -/
def hexChar (n : Nat) : Char := if n < 10 then digitChar n else Char.ofNat (87 + n)

/-- Four lowercase hex digits of `n < 0x10000`. -/
def hex4 (n : Nat) : List Char :=
  [hexChar (n / 4096 % 16), hexChar (n / 256 % 16), hexChar (n / 16 % 16), hexChar (n % 16)]

/-! ## Python string order and the stable sort

`sorted(...)` in the source compares the rank strings with Python's `<`,
which is lexicographic on code points; ties keep the original order
(Python's sort is stable).  `ssort` is a stable insertion sort. -/

/-- Python string `<`, on char lists (lexicographic by code point). -/
def lexLt : List Char → List Char → Bool
  | [], [] => false
  | [], _ :: _ => true
  | _ :: _, [] => false
  | a :: as, b :: bs =>
    if a.toNat < b.toNat then true
    else if b.toNat < a.toNat then false
    else lexLt as bs

/-- Python string `<=`, on char lists. -/
def lexLe (a b : List Char) : Bool := !lexLt b a

def strLt (a b : String) : Bool := lexLt a.data b.data

def strLe (a b : String) : Bool := lexLe a.data b.data

/-- Insert `x` in front of the first element `y` with `le x y`; together with
`ssort` this is a stable insertion sort (equal-rank elements keep their
original relative order, like Python's `sorted`). -/
def insB (le : α → α → Bool) (x : α) : List α → List α
  | [] => [x]
  | y :: ys => if le x y then x :: y :: ys else y :: insB le x ys

/-- Stable sort modelling Python `sorted` with a key function folded into `le`. -/
def ssort (le : α → α → Bool) : List α → List α
  | [] => []
  | x :: xs => insB le x (ssort le xs)

/-! ## Exact rational pairs

`Q` is an exact rational `num / den` (all constructed values have `den ≠ 0`).
Used for the exact value of a Python `Decimal` or `float`. -/

structure Q where
  num : Int
  den : Nat
  deriving DecidableEq

/-- Numeric equality of two rational pairs (cross multiplication). -/
def Q.eqv (a b : Q) : Bool := a.num * (b.den : Int) == b.num * (a.den : Int)

/-- `Decimal.__eq__(int(Decimal))`: the value is a whole number. -/
def Q.isWhole (q : Q) : Bool := q.num.emod (q.den : Int) == 0

/-- Python `int()` truncation toward zero. -/
def Q.trunc (q : Q) : Int := q.num.tdiv (q.den : Int)

/-- `|q| < 2^e` for an integer exponent `e`. -/
def Q.absLtPow2 (q : Q) : Int → Bool
  | .ofNat k => q.num.natAbs < 2 ^ k * q.den
  | .negSucc k => q.num.natAbs * 2 ^ (k+1) < q.den

/-- Smallest `e ≥ -1074` with `|q| < 2^e`, by fueled upward search. -/
def findExpAux : Nat → Int → Q → Int
  | 0, e, _ => e
  | fuel+1, e, q => if q.absLtPow2 e then e else findExpAux fuel (e+1) q

def findExp (q : Q) : Int := findExpAux 2200 (-1074) q

/-- Round `num/den` (with `den ≠ 0`) to the nearest integer, ties to even. -/
def roundHalfEven (num : Int) (den : Nat) : Int :=
  let n := num.fdiv (den : Int)
  let r2 := 2 * (num - n * (den : Int))
  if r2 < (den : Int) then n
  else if (den : Int) < r2 then n + 1
  else if n.emod 2 == 0 then n else n + 1

/-- Modelled from the Python runtime: `float(obj)` conversion of an exact
rational to the nearest IEEE binary64 value (round to nearest, ties to even),
returned as the exact rational it denotes.  Subnormal underflow and overflow
to infinity are outside the modelled range (no claim exercises them). -/
def roundB64 (q : Q) : Q :=
  if q.num == 0 then ⟨0, 1⟩
  else
    let e := findExp q
    let sign : Int := if q.num < 0 then -1 else 1
    match (53 - e : Int) with
    | .ofNat k =>
      let m := roundHalfEven (q.num.natAbs * 2 ^ k) q.den
      ⟨sign * m, 2 ^ k⟩
    | .negSucc k =>
      let m := roundHalfEven q.num.natAbs (q.den * 2 ^ (k+1))
      ⟨sign * m * 2 ^ (k+1), 1⟩

/-! ## CPython textual rendering of numbers -/

/-- Smallest `k ≤ fuel` with `den ∣ num * 10^k`, if any. -/
def findDecScale : Nat → Nat → Nat → Option Nat
  | _, _, 0 => none
  | num, den, fuel+1 =>
    if num % den == 0 then some 0
    else match findDecScale (num * 10) den fuel with
      | some k => some (k+1)
      | none => none

/-- Digits of `t` with a decimal point `k` places from the right
(zero-padded on the left when needed). -/
def pointed (t k : Nat) : String :=
  let ds := natDigits t
  let ds := if ds.length ≤ k then List.replicate (k + 1 - ds.length) '0' ++ ds else ds
  ⟨ds.take (ds.length - k) ++ '.' :: ds.drop (ds.length - k)⟩

/-- Modelled from the Python runtime: `repr(float)` — the shortest decimal
string that round-trips.  Faithful for floats whose exact value has a short
finite decimal expansion rendered in fixed-point notation (all floats the
claims exercise); other floats fall outside the modelled scope. -/
def pyFloatRepr (q : Q) : String :=
  let sign := if q.num < 0 then "-" else ""
  let n := q.num.natAbs
  if n % q.den == 0 then sign ++ natRepr (n / q.den) ++ ".0"
  else match findDecScale n q.den 60 with
    | some k => sign ++ pointed (n * 10 ^ k / q.den) k
    | none => sign ++ "0x1p?"

/-- Python `str(Decimal)` for a decimal with mantissa `m` and scale `e`
(value `m / 10^e`, digits kept verbatim, trailing zeros preserved). -/
def decRepr (m : Int) (e : Nat) : String :=
  let sign := if m < 0 then "-" else ""
  if e == 0 then sign ++ natRepr m.natAbs else sign ++ pointed m.natAbs e

/-! ## JSON string escaping (stdlib `json.encoder.encode_basestring_ascii`) -/

/-- Modelled from the Python stdlib: per-character escaping of
`encode_basestring_ascii` (the default `ensure_ascii=True` used by the
encoders): named escapes, `\u00xx` for other control characters, `\uxxxx`
(with surrogate pairs) for all non-ASCII. -/
def escChar (c : Char) : List Char :=
  if c = '"' then ['\\', '"']
  else if c = '\\' then ['\\', '\\']
  else if c = '\n' then ['\\', 'n']
  else if c = '\r' then ['\\', 'r']
  else if c = '\t' then ['\\', 't']
  else if c.toNat = 8 then ['\\', 'b']
  else if c.toNat = 12 then ['\\', 'f']
  else if c.toNat < 32 || 126 < c.toNat then
    if c.toNat < 65536 then '\\' :: 'u' :: hex4 c.toNat
    else
      let v := c.toNat - 65536
      ('\\' :: 'u' :: hex4 (55296 + v / 1024)) ++ ('\\' :: 'u' :: hex4 (56320 + v % 1024))
  else [c]

/-- `json.dumps` of a plain string: quoted, ASCII-escaped. -/
def jsonQuote (s : String) : String := ⟨'"' :: (s.data.map escChar).flatten ++ ['"']⟩

/-! ## The document tree

Python values handled by the encoders: `None`, `bool`, `str`, `int`,
`Decimal` (exact mantissa/scale pair, value `m / 10^e`), `float` (the exact
rational the binary64 value denotes), `list`/`tuple` (both `vlist`), `dict`.
Mutual inductives (rather than a nested `List`) so that all traversals are
plain structural mutual recursion, which the kernel evaluates. -/

mutual
inductive Value where
  | vnull : Value
  | vbool (b : Bool) : Value
  | vstr (s : String) : Value
  | vint (n : Int) : Value
  | vdec (m : Int) (e : Nat) : Value
  | vfloat (num : Int) (den : Nat) : Value
  | vlist (xs : VList) : Value
  | vdict (kvs : VDict) : Value
  deriving DecidableEq
inductive VList where
  | nil : VList
  | cons (v : Value) (tl : VList) : VList
  deriving DecidableEq
inductive VDict where
  | nil : VDict
  | cons (k : String) (v : Value) (tl : VDict) : VDict
  deriving DecidableEq
end

def vlistOf : List Value → VList
  | [] => .nil
  | v :: tl => .cons v (vlistOf tl)

def vdictOf : List (String × Value) → VDict
  | [] => .nil
  | (k, v) :: tl => .cons k v (vdictOf tl)

/-- The value Python's `encode` returns: a `str` for containers and ordinary
scalars, but a bare `int`/`float` object for `Decimal` input
(`encode_decimal` returns numbers, not text). -/
inductive PyRet where
  | pstr (s : String) : PyRet
  | pint (n : Int) : PyRet
  | pfloat (q : Q) : PyRet
  deriving DecidableEq

/-- The only exception kind the embedded code can raise:`TypeError`
(string concatenation/join applied to an `int`/`float`, or the stdlib
fallback for unsupported types). -/
inductive EncErr where
  | typeError : EncErr
  deriving DecidableEq

/-- f-string interpolation `f"{x}"`, i.e. Python `str()` of an encode result. -/
def PyRet.fstr : PyRet → String
  | .pstr s => s
  | .pint n => intRepr n
  | .pfloat q => pyFloatRepr q

/-- Python `str` concatenation with an encode result: raises `TypeError`
unless the result is a `str`. -/
def PyRet.asStr : PyRet → Except EncErr String
  | .pstr s => .ok s
  | _ => .error .typeError

/-- `sep.join(items)`: raises `TypeError` at the first non-`str` item. -/
def pyJoin (sep : String) : List PyRet → Except EncErr String
  | [] => .ok ""
  | [r] => r.asStr
  | r :: rs => do
    let s ← r.asStr
    let tl ← pyJoin sep rs
    .ok (s ++ sep ++ tl)

/-! ### Python `str()` / `repr()` of raw values

Needed for `f'"{key}"'` in `KeymapJSONEncoder.encode_list`.  `repr` of a
string is modelled as plain single quotes (faithful for strings without
quotes or escapes; only list/dict elements inside a keymap layer reach it,
and no claim exercises those). -/

mutual
def pyStrV : Value → String
  | .vnull => "None"
  | .vbool b => if b then "True" else "False"
  | .vstr s => s
  | .vint n => intRepr n
  | .vdec m e => decRepr m e
  | .vfloat num den => pyFloatRepr ⟨num, den⟩
  | .vlist xs => "[" ++ pyReprL xs ++ "]"
  | .vdict kvs => "\x7b" ++ pyReprD kvs ++ "\x7d"
def pyReprV : Value → String
  | .vnull => "None"
  | .vbool b => if b then "True" else "False"
  | .vstr s => "'" ++ s ++ "'"
  | .vint n => intRepr n
  | .vdec m e => "Decimal('" ++ decRepr m e ++ "')"
  | .vfloat num den => pyFloatRepr ⟨num, den⟩
  | .vlist xs => "[" ++ pyReprL xs ++ "]"
  | .vdict kvs => "\x7b" ++ pyReprD kvs ++ "\x7d"
def pyReprL : VList → String
  | .nil => ""
  | .cons v .nil => pyReprV v
  | .cons v tl => pyReprV v ++ ", " ++ pyReprL tl
def pyReprD : VDict → String
  | .nil => ""
  | .cons k v .nil => "'" ++ k ++ "': " ++ pyReprV v
  | .cons k v tl => "'" ++ k ++ "': " ++ pyReprV v ++ ", " ++ pyReprD tl
end

/-! ## `QMKJSONEncoder` base pieces (json_encoders.py lines 9-68) -/

/-- `container_types = (list, tuple, dict)` membership. -/
def is_container : Value → Bool
  | .vlist _ => true
  | .vdict _ => true
  | _ => false

/-- `primitives_only` on a list-like argument: no element is a container. -/
def primitives_only_list : VList → Bool
  | .nil => true
  | .cons v tl => !is_container v && primitives_only_list tl

/-- `primitives_only` on a dict argument (`obj = obj.values()` branch):
no value is a container.  Present in the source but never called by the
encoders — `encode_dict` compaction is decided by depth instead. -/
def primitives_only_dict : VDict → Bool
  | .nil => true
  | .cons _ v tl => !is_container v && primitives_only_dict tl

/-- Default `indent` width: `__init__` replaces any falsy `indent` by 4;
all encoder definitions below use this default. -/
def indentWidth : Nat := 4

/-- `indent_str` property: `indentation_char * (indentation_level * indent)`. -/
def indent_str (level : Nat) : String := ⟨List.replicate (level * indentWidth) ' '⟩

/-- Python `string * n` repetition (for `self.indent_str * k`). -/
def strRepeat (s : String) : Nat → String
  | 0 => ""
  | n+1 => s ++ strRepeat s n

/-- `encode_decimal`: a whole `Decimal` becomes the Python `int` it equals
(truncation), any other becomes `float(obj)` — the nearest binary64. -/
def encode_decimal (m : Int) (e : Nat) : PyRet :=
  if (Q.mk m (10 ^ e)).isWhole then .pint ((Q.mk m (10 ^ e)).trunc)
  else .pfloat (roundB64 ⟨m, 10 ^ e⟩)

/-- `super().encode(obj)` — the stdlib `json.JSONEncoder` rendering of a
scalar (`ensure_ascii=True` defaults).  Containers and `Decimal` never reach
it in `encode` (they are dispatched first); their equations are inert. -/
def std_scalar : Value → String
  | .vstr s => jsonQuote s
  | .vbool b => if b then "true" else "false"
  | .vnull => "null"
  | .vint n => intRepr n
  | .vfloat num den => pyFloatRepr ⟨num, den⟩
  | .vdec m e => decRepr m e
  | .vlist _ => ""
  | .vdict _ => ""

/-! ## `InfoJSONEncoder` (json_encoders.py lines 71-140)

The source sorts `obj.items()` and then renders each pair; an entry's
rendering depends only on the entry and the indentation level, never on its
position, so the embedding renders entries in place (structurally) and sorts
the rendered pairs by the same key — the same output and the same single
error kind. -/

/-- `InfoJSONEncoder.sort_dict` (key ranked at the current, already
incremented, indentation level). -/
def Info.sort_dict (level : Nat) (key : String) : String :=
  if level = 1 then
    if key = "manufacturer" then "10keyboard_name"
    else if key = "keyboard_name" then "11keyboard_name"
    else if key = "maintainer" then "12maintainer"
    else if key = "processor" then "13processor"
    else if key = "bootloader" then "14bootloader"
    else if key = "usb" then "15usb"
    else if key = "features" then "16bootloader"
    else if key = "community_layouts" then "97community_layouts"
    else if key = "layout_aliases" then "98layout_aliases"
    else if key = "layouts" then "99layouts"
    else "50" ++ key
  else if level = 2 then
    if key = "vid" then "10vid"
    else if key = "pid" then "11pid"
    else if key = "device_ver" then "12device_ver"
    else key
  else key

/-- `sorted(obj.items(), key=self.sort_dict)` — stable, ranks compared with
Python string `<`. -/
def sortPairs (rank : String → String) (ents : List (String × α)) : List (String × α) :=
  ssort (fun a b => lexLe (rank a.1).data (rank b.1).data) ents

/-- Assemble the `primitives_only` (inline) branch of `encode_list` from the
encoded elements. -/
def listInline (rs : List PyRet) : Except EncErr String := do
  let body ← pyJoin ", " rs
  .ok ("[" ++ body ++ "]")

/-- The expanded-list comprehension `[self.indent_str + self.encode(e) ...]`:
left to right, `TypeError` at the first non-`str` encode result. -/
def buildLines (ind : String) : List PyRet → Except EncErr (List String)
  | [] => .ok []
  | r :: rs => do
    let s ← r.asStr
    let rest ← buildLines ind rs
    .ok ((ind ++ s) :: rest)

/-- Assemble the expanded branch of `encode_list` (elements already encoded
at level `l + 1`). -/
def listExpanded (l : Nat) (rs : List PyRet) : Except EncErr String := do
  let lines ← buildLines (indent_str (l + 1)) rs
  .ok ("[\n" ++ String.intercalate ",\n" lines ++ "\n" ++ indent_str l ++ "]")

/-- Assemble `InfoJSONEncoder.encode_dict`'s `indentation_level == 4` branch
(layout entries on a single line, plain `sorted(obj.items())`). -/
def dictInline4 (ents : List (String × PyRet)) : String :=
  "\x7b " ++
    String.intercalate ", " ((sortPairs id ents).map
      (fun kv => jsonQuote kv.1 ++ ": " ++ kv.2.fstr)) ++
    " \x7d"

/-- Assemble the expanded `encode_dict` form: one `"key": value` line per
entry at level `l + 1`, entries sorted by `rank`, closing brace at level `l`. -/
def dictExpanded (rank : String → String) (l : Nat) (ents : List (String × PyRet)) : String :=
  "\x7b\n" ++
    String.intercalate ",\n" ((sortPairs rank ents).map
      (fun kv => indent_str (l + 1) ++ jsonQuote kv.1 ++ ": " ++ kv.2.fstr)) ++
    "\n" ++ indent_str l ++ "\x7d"

mutual
def Info.encode (l : Nat) : Value → Except EncErr PyRet
  | .vdec m e => .ok (encode_decimal m e)
  | .vlist xs =>
    if primitives_only_list xs then do
      .ok (.pstr (← listInline (← Info.encode_elems l xs)))
    else do
      .ok (.pstr (← listExpanded l (← Info.encode_elems (l + 1) xs)))
  | .vdict .nil => .ok (.pstr "\x7b\x7d")
  | .vdict (.cons k v tl) =>
    if l = 4 then do
      let r ← Info.encode l v
      let rs ← Info.encode_entries l tl
      .ok (.pstr (dictInline4 ((k, r) :: rs)))
    else do
      let r ← Info.encode (l + 1) v
      let rs ← Info.encode_entries (l + 1) tl
      .ok (.pstr (dictExpanded (Info.sort_dict (l + 1)) l ((k, r) :: rs)))
  | v => .ok (.pstr (std_scalar v))
def Info.encode_elems (l : Nat) : VList → Except EncErr (List PyRet)
  | .nil => .ok []
  | .cons v tl => do
    let r ← Info.encode l v
    let rs ← Info.encode_elems l tl
    .ok (r :: rs)
def Info.encode_entries (l : Nat) : VDict → Except EncErr (List (String × PyRet))
  | .nil => .ok []
  | .cons k v tl => do
    let r ← Info.encode l v
    let rs ← Info.encode_entries l tl
    .ok ((k, r) :: rs)
end

/-- `QMKJSONEncoder.encode_list` as used by `InfoJSONEncoder` (the base
implementation), as a standalone wrapper around the mutual recursion. -/
def Info.encode_list (l : Nat) (xs : VList) : Except EncErr String :=
  if primitives_only_list xs then do
    listInline (← Info.encode_elems l xs)
  else do
    listExpanded l (← Info.encode_elems (l + 1) xs)

/-- `InfoJSONEncoder.encode_dict` as a standalone wrapper. -/
def Info.encode_dict (l : Nat) (kvs : VDict) : Except EncErr String :=
  match kvs with
  | .nil => .ok "\x7b\x7d"
  | .cons k v tl =>
    if l = 4 then do
      let r ← Info.encode l v
      let rs ← Info.encode_entries l tl
      .ok (dictInline4 ((k, r) :: rs))
    else do
      let r ← Info.encode (l + 1) v
      let rs ← Info.encode_entries (l + 1) tl
      .ok (dictExpanded (Info.sort_dict (l + 1)) l ((k, r) :: rs))

/-! ## `KeymapJSONEncoder` (json_encoders.py lines 143-218) -/

/-- `KeymapJSONEncoder.sort_dict`. -/
def Keymap.sort_dict (level : Nat) (key : String) : String :=
  if level = 1 then
    if key = "version" then "00version"
    else if key = "author" then "01author"
    else if key = "notes" then "02notes"
    else if key = "layers" then "98layers"
    else if key = "documentation" then "99documentation"
    else "50" ++ key
  else key

/-- Assemble the keycode-row branch of `KeymapJSONEncoder.encode_list`
(`indentation_level == 2`): each row is prefixed by
`self.indent_str * (level + 1)`; the closing bracket by
`self.indent_str * level`; the opening bracket by one `indent_str`. -/
def rowsAssemble (l : Nat) (rows : List (List String)) : String :=
  indent_str l ++ "[\n" ++
    String.intercalate "\n" (rows.map
      (fun row => strRepeat (indent_str l) (l + 1) ++ String.intercalate ", " row)) ++
    "\n" ++ strRepeat (indent_str l) l ++ "]"

mutual
def Keymap.encode (l : Nat) : Value → Except EncErr PyRet
  | .vdec m e => .ok (encode_decimal m e)
  | .vlist xs =>
    if l = 2 then do
      .ok (.pstr (rowsAssemble l (← Keymap.split_rows l xs)))
    else if primitives_only_list xs then do
      .ok (.pstr (← listInline (← Keymap.encode_elems l xs)))
    else do
      .ok (.pstr (← listExpanded l (← Keymap.encode_elems (l + 1) xs)))
  | .vdict .nil => .ok (.pstr "\x7b\x7d")
  | .vdict (.cons k v tl) => do
    let r ← Keymap.encode (l + 1) v
    let rs ← Keymap.encode_entries (l + 1) tl
    .ok (.pstr (dictExpanded (Keymap.sort_dict (l + 1)) l ((k, r) :: rs)))
  | v => .ok (.pstr (std_scalar v))
/-- The row accumulation of `encode_list`'s `indentation_level == 2` branch:
`'JSON_NEWLINE'` closes the current row, a dict element is rendered by
`self.encode` (at the same level — no increment in this branch), every other
element is rendered `f'"{key}"'`. -/
def Keymap.split_rows (l : Nat) : VList → Except EncErr (List (List String))
  | .nil => .ok [[]]
  | .cons v tl =>
    if v = .vstr "JSON_NEWLINE" then do
      let rs ← Keymap.split_rows l tl
      .ok ([] :: rs)
    else
      match v with
      | .vdict .nil => do
        let rs ← Keymap.split_rows l tl
        match rs with
        | row :: rows => .ok (("\x7b\x7d" :: row) :: rows)
        | [] => .ok [["\x7b\x7d"]]
      | .vdict (.cons k w wtl) => do
        let r ← Keymap.encode (l + 1) w
        let ents ← Keymap.encode_entries (l + 1) wtl
        let s := dictExpanded (Keymap.sort_dict (l + 1)) l ((k, r) :: ents)
        let rs ← Keymap.split_rows l tl
        match rs with
        | row :: rows => .ok ((s :: row) :: rows)
        | [] => .ok [[s]]
      | w => do
        let rs ← Keymap.split_rows l tl
        match rs with
        | row :: rows => .ok ((("\"" ++ pyStrV w ++ "\"") :: row) :: rows)
        | [] => .ok [["\"" ++ pyStrV w ++ "\""]]
def Keymap.encode_elems (l : Nat) : VList → Except EncErr (List PyRet)
  | .nil => .ok []
  | .cons v tl => do
    let r ← Keymap.encode l v
    let rs ← Keymap.encode_elems l tl
    .ok (r :: rs)
def Keymap.encode_entries (l : Nat) : VDict → Except EncErr (List (String × PyRet))
  | .nil => .ok []
  | .cons k v tl => do
    let r ← Keymap.encode l v
    let rs ← Keymap.encode_entries l tl
    .ok ((k, r) :: rs)
end

/-- `KeymapJSONEncoder.encode_list` as a standalone wrapper. -/
def Keymap.encode_list (l : Nat) (xs : VList) : Except EncErr String :=
  if l = 2 then do
    .ok (rowsAssemble l (← Keymap.split_rows l xs))
  else if primitives_only_list xs then do
    listInline (← Keymap.encode_elems l xs)
  else do
    listExpanded l (← Keymap.encode_elems (l + 1) xs)

/-- `KeymapJSONEncoder.encode_dict` as a standalone wrapper. -/
def Keymap.encode_dict (l : Nat) (kvs : VDict) : Except EncErr String :=
  match kvs with
  | .nil => .ok "\x7b\x7d"
  | .cons k v tl => do
    let r ← Keymap.encode (l + 1) v
    let rs ← Keymap.encode_entries (l + 1) tl
    .ok (dictExpanded (Keymap.sort_dict (l + 1)) l ((k, r) :: rs))

/-! ## Stateful encoders

The Python code mutates `self.indentation_level` (`+= 1` before a
container's children, `-= 1` after).  The `encodeS` family threads that
counter explicitly, reading `indent_str` at exactly the program points the
source reads `self.indent_str` and returning the final counter value; an
exception propagates without restoring the counter, as in Python. -/

mutual
def Info.encodeS : Value → Nat → Except EncErr (PyRet × Nat)
  | .vdec m e, l => .ok (encode_decimal m e, l)
  | .vlist xs, l =>
    if primitives_only_list xs then do
      let (rs, l') ← Info.encode_elemsS xs l
      let body ← pyJoin ", " rs
      .ok (.pstr ("[" ++ body ++ "]"), l')
    else do
      let (lines, l') ← Info.encode_linesS xs (l + 1)
      .ok (.pstr ("[\n" ++ String.intercalate ",\n" lines ++ "\n" ++
        indent_str (l' - 1) ++ "]"), l' - 1)
  | .vdict .nil, l => .ok (.pstr "\x7b\x7d", l)
  | .vdict (.cons k v tl), l =>
    if l = 4 then do
      let (ents, l') ← Info.encode_items4S (.cons k v tl) l
      .ok (.pstr ("\x7b " ++
        String.intercalate ", " ((sortPairs id ents).map (·.2)) ++ " \x7d"), l')
    else do
      let (ents, l') ← Info.encode_entriesS (.cons k v tl) (l + 1)
      .ok (.pstr ("\x7b\n" ++
        String.intercalate ",\n" ((sortPairs (Info.sort_dict (l + 1)) ents).map (·.2)) ++
        "\n" ++ indent_str (l' - 1) ++ "\x7d"), l' - 1)
  | v, l => .ok (.pstr (std_scalar v), l)
def Info.encode_elemsS : VList → Nat → Except EncErr (List PyRet × Nat)
  | .nil, l => .ok ([], l)
  | .cons v tl, l => do
    let (r, l₁) ← Info.encodeS v l
    let (rs, l₂) ← Info.encode_elemsS tl l₁
    .ok (r :: rs, l₂)
def Info.encode_linesS : VList → Nat → Except EncErr (List String × Nat)
  | .nil, l => .ok ([], l)
  | .cons v tl, l => do
    let pre := indent_str l
    let (r, l₁) ← Info.encodeS v l
    let s ← r.asStr
    let (rest, l₂) ← Info.encode_linesS tl l₁
    .ok ((pre ++ s) :: rest, l₂)
def Info.encode_entriesS : VDict → Nat → Except EncErr (List (String × String) × Nat)
  | .nil, l => .ok ([], l)
  | .cons k v tl, l => do
    let pre := indent_str l
    let (r, l₁) ← Info.encodeS v l
    let (rest, l₂) ← Info.encode_entriesS tl l₁
    .ok ((k, pre ++ jsonQuote k ++ ": " ++ r.fstr) :: rest, l₂)
def Info.encode_items4S : VDict → Nat → Except EncErr (List (String × String) × Nat)
  | .nil, l => .ok ([], l)
  | .cons k v tl, l => do
    let (r, l₁) ← Info.encodeS v l
    let (rest, l₂) ← Info.encode_items4S tl l₁
    .ok ((k, jsonQuote k ++ ": " ++ r.fstr) :: rest, l₂)
end

mutual
def Keymap.encodeS : Value → Nat → Except EncErr (PyRet × Nat)
  | .vdec m e, l => .ok (encode_decimal m e, l)
  | .vlist xs, l =>
    if l = 2 then do
      let (rows, l') ← Keymap.split_rowsS xs l
      .ok (.pstr (indent_str l' ++ "[\n" ++
        String.intercalate "\n" (rows.map
          (fun row => strRepeat (indent_str l') (l + 1) ++ String.intercalate ", " row)) ++
        "\n" ++ strRepeat (indent_str l') l' ++ "]"), l')
    else if primitives_only_list xs then do
      let (rs, l') ← Keymap.encode_elemsS xs l
      let body ← pyJoin ", " rs
      .ok (.pstr ("[" ++ body ++ "]"), l')
    else do
      let (lines, l') ← Keymap.encode_linesS xs (l + 1)
      .ok (.pstr ("[\n" ++ String.intercalate ",\n" lines ++ "\n" ++
        indent_str (l' - 1) ++ "]"), l' - 1)
  | .vdict .nil, l => .ok (.pstr "\x7b\x7d", l)
  | .vdict (.cons k v tl), l => do
    let (ents, l') ← Keymap.encode_entriesS (.cons k v tl) (l + 1)
    .ok (.pstr ("\x7b\n" ++
      String.intercalate ",\n" ((sortPairs (Keymap.sort_dict (l + 1)) ents).map (·.2)) ++
      "\n" ++ indent_str (l' - 1) ++ "\x7d"), l' - 1)
  | v, l => .ok (.pstr (std_scalar v), l)
def Keymap.split_rowsS : VList → Nat → Except EncErr (List (List String) × Nat)
  | .nil, l => .ok ([[]], l)
  | .cons v tl, l =>
    if v = .vstr "JSON_NEWLINE" then do
      let (rs, l') ← Keymap.split_rowsS tl l
      .ok ([] :: rs, l')
    else
      match v with
      | .vdict .nil => do
        let (rs, l') ← Keymap.split_rowsS tl l
        match rs with
        | row :: rows => .ok (("\x7b\x7d" :: row) :: rows, l')
        | [] => .ok ([["\x7b\x7d"]], l')
      | .vdict (.cons k w wtl) => do
        let (ents, l₁) ← Keymap.encode_entriesS (.cons k w wtl) (l + 1)
        let s := "\x7b\n" ++
          String.intercalate ",\n" ((sortPairs (Keymap.sort_dict (l + 1)) ents).map (·.2)) ++
          "\n" ++ indent_str (l₁ - 1) ++ "\x7d"
        let (rs, l₂) ← Keymap.split_rowsS tl (l₁ - 1)
        match rs with
        | row :: rows => .ok ((s :: row) :: rows, l₂)
        | [] => .ok ([[s]], l₂)
      | w => do
        let (rs, l') ← Keymap.split_rowsS tl l
        match rs with
        | row :: rows => .ok ((("\"" ++ pyStrV w ++ "\"") :: row) :: rows, l')
        | [] => .ok ([["\"" ++ pyStrV w ++ "\""]], l')
def Keymap.encode_elemsS : VList → Nat → Except EncErr (List PyRet × Nat)
  | .nil, l => .ok ([], l)
  | .cons v tl, l => do
    let (r, l₁) ← Keymap.encodeS v l
    let (rs, l₂) ← Keymap.encode_elemsS tl l₁
    .ok (r :: rs, l₂)
def Keymap.encode_linesS : VList → Nat → Except EncErr (List String × Nat)
  | .nil, l => .ok ([], l)
  | .cons v tl, l => do
    let pre := indent_str l
    let (r, l₁) ← Keymap.encodeS v l
    let s ← r.asStr
    let (rest, l₂) ← Keymap.encode_linesS tl l₁
    .ok ((pre ++ s) :: rest, l₂)
def Keymap.encode_entriesS : VDict → Nat → Except EncErr (List (String × String) × Nat)
  | .nil, l => .ok ([], l)
  | .cons k v tl, l => do
    let pre := indent_str l
    let (r, l₁) ← Keymap.encodeS v l
    let (rest, l₂) ← Keymap.encode_entriesS tl l₁
    .ok ((k, pre ++ jsonQuote k ++ ": " ++ r.fstr) :: rest, l₂)
end

/-! ## `KLEJSONEncoder` (json_encoders.py lines 222-269)

Compact stdlib encoding (`indent=None` defaults: separators `", "`/`": "`,
`sort_keys=False`), differing from stock only in `floatstr` when the pure
Python `_make_iterencode` path runs.  `iterencode` picks the stock C
`c_make_encoder` — which ignores the custom `floatstr` — exactly when
`_one_shot` holds, the C encoder is importable, and `self.indent is None`. -/

mutual
def KLE.enc (customFloat : Bool) : Value → Except EncErr String
  | .vnull => .ok "null"
  | .vbool b => .ok (if b then "true" else "false")
  | .vstr s => .ok (jsonQuote s)
  | .vint n => .ok (intRepr n)
  | .vfloat num den =>
    .ok (if customFloat && (Q.mk num den).isWhole
      then intRepr (Q.mk num den).trunc
      else pyFloatRepr ⟨num, den⟩)
  | .vdec _ _ => .error .typeError
  | .vlist xs => do .ok ("[" ++ (← KLE.encL customFloat xs) ++ "]")
  | .vdict kvs => do .ok ("\x7b" ++ (← KLE.encD customFloat kvs) ++ "\x7d")
def KLE.encL (customFloat : Bool) : VList → Except EncErr String
  | .nil => .ok ""
  | .cons v .nil => KLE.enc customFloat v
  | .cons v tl => do .ok ((← KLE.enc customFloat v) ++ ", " ++ (← KLE.encL customFloat tl))
def KLE.encD (customFloat : Bool) : VDict → Except EncErr String
  | .nil => .ok ""
  | .cons k v .nil => do .ok (jsonQuote k ++ ": " ++ (← KLE.enc customFloat v))
  | .cons k v tl => do
    .ok (jsonQuote k ++ ": " ++ (← KLE.enc customFloat v) ++ ", " ++ (← KLE.encD customFloat tl))
end

/-- `KLEJSONEncoder.iterencode` with the default `indent=None`: the C encoder
(stock float rendering) on the one-shot path when available, else the pure
Python path with the overridden `floatstr`. -/
def KLE.iterencode (c_available one_shot : Bool) (v : Value) : Except EncErr String :=
  if one_shot && c_available then KLE.enc false v else KLE.enc true v

/-- `json.JSONEncoder.encode` — the public entry point — calls
`self.iterencode(o, _one_shot=True)`. -/
def KLE.encode (c_available : Bool) (v : Value) : Except EncErr String :=
  KLE.iterencode c_available true v

/-! ## A standard JSON decoder

The round-trip sentence of the spec is stated against "a standard JSON
parser", which is not part of the repository; the decoder below is
modelled from the spec's words (strict JSON as in RFC 8259 / Python's
`json.loads`): insignificant whitespace between tokens, string escapes
including `\uXXXX` with surrogate-pair recombination (a lone surrogate is
rejected — a Lean `Char` cannot carry one), no leading zeros in numbers,
and a fraction or exponent turning a literal into the nearest binary64
float, exactly as CPython's `float()` conversion does.  The mutual
recursion over values is fuel-driven; `decode` hands it
`2 * length + 2` fuel, which `parseV_size` below shows strictly
dominates the recursion depth of every successful parse. -/

def VList.toList : VList → List Value
  | .nil => []
  | .cons v tl => v :: VList.toList tl

def VDict.toList : VDict → List (String × Value)
  | .nil => []
  | .cons k v tl => (k, v) :: VDict.toList tl

/-- JSON insignificant whitespace. -/
def wsChar (c : Char) : Bool := c = ' ' || c = '\t' || c = '\n' || c = '\r'

def skipWs : List Char → List Char
  | [] => []
  | c :: cs => if wsChar c then skipWs cs else c :: cs

def isHexDig (c : Char) : Bool :=
  c.isDigit || (97 ≤ c.toNat && c.toNat ≤ 102) || (65 ≤ c.toNat && c.toNat ≤ 70)

/-- Value of a hexadecimal digit (either case). -/
def hexDigVal (c : Char) : Nat :=
  if c.toNat ≤ 57 then c.toNat - 48 else if c.toNat ≤ 70 then c.toNat - 55 else c.toNat - 87

/-- Named single-character escapes. -/
def escCode (e : Char) : Option Char :=
  if e = '"' then some '"'
  else if e = '\\' then some '\\'
  else if e = '/' then some '/'
  else if e = 'b' then some (Char.ofNat 8)
  else if e = 'f' then some (Char.ofNat 12)
  else if e = 'n' then some '\n'
  else if e = 'r' then some '\r'
  else if e = 't' then some '\t'
  else none

/-- Four hexadecimal digits, or `none`. -/
def hexQuad (h1 h2 h3 h4 : Char) : Option Nat :=
  if isHexDig h1 = true ∧ isHexDig h2 = true ∧ isHexDig h3 = true ∧ isHexDig h4 = true then
    some (((hexDigVal h1 * 16 + hexDigVal h2) * 16 + hexDigVal h3) * 16 + hexDigVal h4)
  else none

/-- One unit of a JSON string body. -/
inductive StrTok where
  | close : StrTok
  | chr (c : Char) : StrTok
  deriving DecidableEq

/-- Decode one unit of a JSON string body (after the opening quote): the
closing quote, or one decoded character — a plain character (no raw
control characters), a named escape, a `\uXXXX`, or a surrogate pair
recombined into one code point (a lone surrogate is rejected) — together
with the remaining input. -/
def strUnit (cs : List Char) : Option (StrTok × List Char) :=
  match cs with
  | [] => none
  | c :: cs =>
    if c = '"' then some (.close, cs)
    else if c = '\\' then
      match cs with
      | [] => none
      | e :: cs2 =>
        if e = 'u' then
          match cs2 with
          | h1 :: h2 :: h3 :: h4 :: rest =>
            match hexQuad h1 h2 h3 h4 with
            | none => none
            | some n =>
              if 55296 ≤ n ∧ n ≤ 56319 then
                match rest with
                | b1 :: b2 :: g1 :: g2 :: g3 :: g4 :: rest2 =>
                  if b1 = '\\' ∧ b2 = 'u' then
                    match hexQuad g1 g2 g3 g4 with
                    | none => none
                    | some m =>
                      if 56320 ≤ m ∧ m ≤ 57343 then
                        some (.chr (Char.ofNat (65536 + (n - 55296) * 1024 + (m - 56320))),
                          rest2)
                      else none
                  else none
                | _ => none
              else if 56320 ≤ n ∧ n ≤ 57343 then none
              else some (.chr (Char.ofNat n), rest)
          | _ => none
        else
          match escCode e with
          | some ch => some (.chr ch, cs2)
          | none => none
    else if c.toNat < 32 then none
    else some (.chr c, cs)

/-- A JSON string body, fuel-driven; every unit consumes input, so fuel
`length + 1` always suffices. -/
def parseStrN : Nat → List Char → Option (List Char × List Char)
  | 0, _ => none
  | fuel + 1, cs =>
    match strUnit cs with
    | some (.close, rest) => some ([], rest)
    | some (.chr ch, rest) =>
      match parseStrN fuel rest with
      | some p => some (ch :: p.1, p.2)
      | none => none
    | none => none

def parseStr (cs : List Char) : Option (List Char × List Char) :=
  parseStrN (cs.length + 1) cs

/-- Greedily take decimal digits. -/
def takeDigits : List Char → List Char × List Char
  | [] => ([], [])
  | c :: cs =>
    if c.isDigit then
      let p := takeDigits cs
      (c :: p.1, p.2)
    else ([], c :: cs)

/-- Numeric value of a digit string, most significant first, onto an
accumulator. -/
def digitsToNat : List Char → Nat → Nat
  | [], acc => acc
  | c :: cs, acc => digitsToNat cs (acc * 10 + (c.toNat - 48))

/-- The value of a float literal: the exact decimal
`±(ival.frac) · 10^(±ev)` rounded to the nearest binary64, as CPython's
`float()` does when `json.loads` meets a non-integer literal. -/
def mkFloat (neg : Bool) (ival : Nat) (frac : List Char) (epos : Bool) (ev : Nat) : Value :=
  let mant : Nat := digitsToNat frac ival
  let sgn : Int := if neg then -1 else 1
  let q : Q :=
    if epos then ⟨sgn * mant * 10 ^ ev, 10 ^ frac.length⟩
    else ⟨sgn * mant, 10 ^ frac.length * 10 ^ ev⟩
  .vfloat (roundB64 q).num (roundB64 q).den

/-- Exponent part of a number (after `e`/`E`): optional sign, digits. -/
def parseExpDigits (neg : Bool) (ival : Nat) (frac : List Char) (cs : List Char) :
    Option (Value × List Char) :=
  let esign : Bool :=
    match cs with
    | c :: _ => c = '-'
    | [] => false
  let cs2 : List Char :=
    match cs with
    | c :: t => if c = '-' ∨ c = '+' then t else c :: t
    | [] => []
  match (takeDigits cs2).1 with
  | [] => none
  | e0 :: etl => some (mkFloat neg ival frac (!esign) (digitsToNat (e0 :: etl) 0),
      (takeDigits cs2).2)

/-- After the integer (and optional fraction) part: an exponent makes the
literal a float; otherwise an integer literal stays an exact `int`. -/
def parseExpPart (isFloat : Bool) (neg : Bool) (ival : Nat) (frac : List Char) :
    List Char → Option (Value × List Char)
  | c :: t =>
    if c = 'e' ∨ c = 'E' then parseExpDigits neg ival frac t
    else if isFloat then some (mkFloat neg ival frac true 0, c :: t)
    else some (.vint (if neg then -(ival : Int) else (ival : Int)), c :: t)
  | [] =>
    if isFloat then some (mkFloat neg ival frac true 0, [])
    else some (.vint (if neg then -(ival : Int) else (ival : Int)), [])

/-- Optional fraction part. -/
def parseFrac (neg : Bool) (ival : Nat) : List Char → Option (Value × List Char)
  | c :: t =>
    if c = '.' then
      let p := takeDigits t
      match p.1 with
      | [] => none
      | f0 :: ftl => parseExpPart true neg ival (f0 :: ftl) p.2
    else parseExpPart false neg ival [] (c :: t)
  | [] => parseExpPart false neg ival [] []

/-- A JSON number: optional minus, integer part without leading zeros,
optional fraction and exponent. -/
def parseNum : List Char → Option (Value × List Char)
  | [] => none
  | c :: t =>
    let neg : Bool := c = '-'
    let cs1 : List Char := if c = '-' then t else c :: t
    let p1 := takeDigits cs1
    match p1.1 with
    | [] => none
    | d0 :: dtl =>
      if d0 = '0' ∧ dtl ≠ [] then none
      else parseFrac neg (digitsToNat (d0 :: dtl) 0) p1.2

mutual
/-- One JSON value, fuel-driven. -/
def parseV : Nat → List Char → Option (Value × List Char)
  | 0, _ => none
  | fuel + 1, cs =>
    match skipWs cs with
    | [] => none
    | c :: rest =>
      if c = 'n' then
        match rest with
        | 'u' :: 'l' :: 'l' :: r => some (.vnull, r)
        | _ => none
      else if c = 't' then
        match rest with
        | 'r' :: 'u' :: 'e' :: r => some (.vbool true, r)
        | _ => none
      else if c = 'f' then
        match rest with
        | 'a' :: 'l' :: 's' :: 'e' :: r => some (.vbool false, r)
        | _ => none
      else if c = '"' then
        match parseStr rest with
        | some p => some (.vstr ⟨p.1⟩, p.2)
        | none => none
      else if c = '[' then
        match skipWs rest with
        | [] => none
        | d :: r2 =>
          if d = ']' then some (.vlist .nil, r2)
          else
            match parseV fuel (d :: r2) with
            | some (v, r3) =>
              match parseElems fuel r3 with
              | some (vs, r4) => some (.vlist (.cons v vs), r4)
              | none => none
            | none => none
      else if c = '\x7b' then
        match skipWs rest with
        | [] => none
        | d :: r2 =>
          if d = '\x7d' then some (.vdict .nil, r2)
          else if d = '"' then
            match parseStr r2 with
            | some kp =>
              match skipWs kp.2 with
              | ':' :: r3 =>
                match parseV fuel r3 with
                | some (v, r4) =>
                  match parseMembers fuel r4 with
                  | some (kvs, r5) => some (.vdict (.cons ⟨kp.1⟩ v kvs), r5)
                  | none => none
                | none => none
              | _ => none
            | none => none
          else none
      else if c = '-' ∨ c.isDigit = true then parseNum (c :: rest)
      else none
/-- The elements of an array after the first one: `, value`*, then `]`. -/
def parseElems : Nat → List Char → Option (VList × List Char)
  | 0, _ => none
  | fuel + 1, cs =>
    match skipWs cs with
    | [] => none
    | c :: rest =>
      if c = ']' then some (.nil, rest)
      else if c = ',' then
        match parseV fuel rest with
        | some (v, r1) =>
          match parseElems fuel r1 with
          | some (vs, r2) => some (.cons v vs, r2)
          | none => none
        | none => none
      else none
/-- The members of an object after the first one: `, "key": value`*,
then `}`. -/
def parseMembers : Nat → List Char → Option (VDict × List Char)
  | 0, _ => none
  | fuel + 1, cs =>
    match skipWs cs with
    | [] => none
    | c :: rest =>
      if c = '\x7d' then some (.nil, rest)
      else if c = ',' then
        match skipWs rest with
        | '"' :: r1 =>
          match parseStr r1 with
          | some kp =>
            match skipWs kp.2 with
            | ':' :: r2 =>
              match parseV fuel r2 with
              | some (v, r3) =>
                match parseMembers fuel r3 with
                | some (kvs, r4) => some (.cons ⟨kp.1⟩ v kvs, r4)
                | none => none
              | none => none
            | _ => none
          | none => none
        | _ => none
      else none
end

/-- `json.loads`: one value, then only trailing whitespace. -/
def decode (s : String) : Option Value :=
  match parseV (2 * s.length + 2) s.data with
  | some (v, rest) => if skipWs rest = [] then some v else none
  | none => none

/-! ## The round-trip image of a document

`normV` is the per-level image of a document under the Config-Document
Printer followed by the decoder: whole decimals become the integers
`encode_decimal` returns (any other decimal the binary64 `float(obj)`),
and each dict's entries appear in the emitted order — rank-sorted at the
level at which the printer sorts them — with the values normalised at
the level at which the printer encodes them. -/

/-- Entries of a dict, sorted by `rank`, reassembled as a `VDict`. -/
def sortD (rank : String → String) (d : VDict) : VDict :=
  vdictOf (sortPairs rank d.toList)

mutual
def normV : Nat → Value → Value
  | _, .vdec m e =>
    if (Q.mk m (10 ^ e)).isWhole then .vint ((Q.mk m (10 ^ e)).trunc)
    else .vfloat (roundB64 ⟨m, 10 ^ e⟩).num (roundB64 ⟨m, 10 ^ e⟩).den
  | l, .vlist xs => .vlist (normL (if primitives_only_list xs then l else l + 1) xs)
  | l, .vdict kvs =>
    if l = 4 then .vdict (sortD id (normD l kvs))
    else .vdict (sortD (Info.sort_dict (l + 1)) (normD (l + 1) kvs))
  | _, v => v
def normL : Nat → VList → VList
  | _, .nil => .nil
  | l, .cons v tl => .cons (normV l v) (normL l tl)
def normD : Nat → VDict → VDict
  | _, .nil => .nil
  | l, .cons k v tl => .cons k (normV l v) (normD l tl)
end

mutual
/-- The documented lossy transform alone: whole decimals replaced by the
integers they equal (any other decimal by `float(obj)`, following
`encode_decimal`), container structure and dict order untouched. -/
def dnormV : Value → Value
  | .vdec m e =>
    if (Q.mk m (10 ^ e)).isWhole then .vint ((Q.mk m (10 ^ e)).trunc)
    else .vfloat (roundB64 ⟨m, 10 ^ e⟩).num (roundB64 ⟨m, 10 ^ e⟩).den
  | .vlist xs => .vlist (dnormL xs)
  | .vdict kvs => .vdict (dnormD kvs)
  | v => v
def dnormL : VList → VList
  | .nil => .nil
  | .cons v tl => .cons (dnormV v) (dnormL tl)
def dnormD : VDict → VDict
  | .nil => .nil
  | .cons k v tl => .cons k (dnormV v) (dnormD tl)
end

mutual
/-- Canonical form for Python `==` on documents: every dict sorted by its
raw keys.  Since keys in a Python `dict` are unique, two documents are
`==` in Python exactly when their canonical forms are equal. -/
def canonV : Value → Value
  | .vlist xs => .vlist (canonL xs)
  | .vdict kvs => .vdict (sortD id (canonD kvs))
  | v => v
def canonL : VList → VList
  | .nil => .nil
  | .cons v tl => .cons (canonV v) (canonL tl)
def canonD : VDict → VDict
  | .nil => .nil
  | .cons k v tl => .cons k (canonV v) (canonD tl)
end

/-- Key membership in a dict. -/
def keyMemD (k : String) : VDict → Bool
  | .nil => false
  | .cons k2 _ tl => k = k2 || keyMemD k tl

mutual
/-- The document class of the round-trip sentence: finite scalars and
containers only — no floats (their shortest-repr rendering is beyond the
embedding), every `Decimal` whole-valued (`encode_decimal` turns those
into exact integers), and dict keys unique, as in any Python `dict`. -/
def goodV : Value → Bool
  | .vdec m e => (Q.mk m (10 ^ e)).isWhole
  | .vfloat _ _ => false
  | .vlist xs => goodL xs
  | .vdict kvs => goodD kvs
  | _ => true
def goodL : VList → Bool
  | .nil => true
  | .cons v tl => goodV v && goodL tl
def goodD : VDict → Bool
  | .nil => true
  | .cons k v tl => !keyMemD k tl && goodV v && goodD tl
end

mutual
/-- Structural size: an upper bound on the parser fuel a document needs. -/
def sizeV : Value → Nat
  | .vlist xs => sizeL xs + 2
  | .vdict kvs => sizeD kvs + 2
  | _ => 1
def sizeL : VList → Nat
  | .nil => 0
  | .cons v tl => sizeV v + sizeL tl + 1
def sizeD : VDict → Nat
  | .nil => 0
  | .cons _ v tl => sizeV v + sizeD tl + 1
end

/-- A continuation that cannot extend a number literal (everything the
encoders emit after a value qualifies). -/
def stopTok : List Char → Bool
  | [] => true
  | c :: _ => !(c.isDigit || c = '.' || c = 'e' || c = 'E' || c = '+' || c = '-')

/-- The encode result a successful `encode` wrapped (for relating entry
lists to the values they came from). -/
def getOk : Except EncErr PyRet → PyRet
  | .ok r => r
  | .error _ => .pstr ""

/-! ## Foundation lemmas -/

@[simp] theorem ebind_ok (a : α) (f : α → Except EncErr β) :
    (Except.ok a >>= f) = f a := rfl

@[simp] theorem ebind_err (e : EncErr) (f : α → Except EncErr β) :
    ((Except.error e : Except EncErr α) >>= f) = .error e := rfl

/-! ### Python string order -/

theorem lexLt_cons (c : Char) (a b : List Char) :
    lexLt (c :: a) (c :: b) = lexLt a b := by
  simp [lexLt]

theorem lexLt_irrefl : ∀ a : List Char, lexLt a a = false := by
  intro a
  induction a with
  | nil => rfl
  | cons c tl ih => simpa [lexLt] using ih

theorem lexLt_asymm : ∀ a b : List Char, lexLt a b = true → lexLt b a = false := by
  intro a
  induction a with
  | nil => intro b h; cases b <;> simp_all [lexLt]
  | cons c tl ih =>
    intro b h
    cases b with
    | nil => simp [lexLt] at h
    | cons d bl =>
      simp only [lexLt] at h ⊢
      rcases Nat.lt_trichotomy c.toNat d.toNat with hlt | heq | hgt
      · simp [hlt, Nat.not_lt.mpr (Nat.le_of_lt hlt), Nat.lt_asymm hlt]
      · simp [heq, Nat.lt_irrefl] at h ⊢
        exact ih bl h
      · simp [hgt, Nat.not_lt.mpr (Nat.le_of_lt hgt), Nat.lt_asymm hgt] at h


theorem lexLt_trans : ∀ a b c : List Char,
    lexLt a b = true → lexLt b c = true → lexLt a c = true := by
  intro a
  induction a with
  | nil => intro b c h₁ h₂; cases b <;> cases c <;> simp_all [lexLt]
  | cons x tl ih =>
    intro b c h₁ h₂
    cases b with
    | nil => simp [lexLt] at h₁
    | cons y bl =>
      cases c with
      | nil => simp [lexLt] at h₂
      | cons z cl =>
        simp only [lexLt] at h₁ h₂ ⊢
        by_cases hxy : x.toNat < y.toNat <;> by_cases hyz : y.toNat < z.toNat
        · simp [Nat.lt_trans hxy hyz]
        · simp only [hyz, if_false] at h₂
          by_cases hzy : z.toNat < y.toNat
          · simp [hzy] at h₂
          · have : x.toNat < z.toNat := by omega
            simp [this]
        · simp only [hxy, if_false] at h₁
          by_cases hyx : y.toNat < x.toNat
          · simp [hyx] at h₁
          · have : x.toNat < z.toNat := by omega
            simp [this]
        · simp only [hxy, hyz, if_false] at h₁ h₂
          by_cases hyx : y.toNat < x.toNat
          · simp [hyx] at h₁
          · by_cases hzy : z.toNat < y.toNat
            · simp [hzy] at h₂
            · simp only [hyx, hzy, if_false] at h₁ h₂
              have hxz : ¬ x.toNat < z.toNat := by omega
              have hzx : ¬ z.toNat < x.toNat := by omega
              simp only [hxz, hzx, if_false]
              exact ih bl cl h₁ h₂

theorem lexLt_trichotomy (a b : List Char) :
    lexLt a b = true ∨ a = b ∨ lexLt b a = true := by
  induction a generalizing b with
  | nil => cases b <;> simp [lexLt]
  | cons x tl ih =>
    cases b with
    | nil => simp [lexLt]
    | cons y bl =>
      rcases Nat.lt_trichotomy x.toNat y.toNat with h | h | h
      · left; simp [lexLt, h]
      · have hxy : x = y := Char.ext (UInt32.toNat.inj h)
        subst hxy
        rcases ih bl with h' | h' | h'
        · left; simpa [lexLt_cons] using h'
        · right; left; rw [h']
        · right; right; simpa [lexLt_cons] using h'
      · right; right; simp [lexLt, h, Nat.lt_asymm h]

theorem lexLe_total (a b : List Char) : lexLe a b = true ∨ lexLe b a = true := by
  by_cases h : lexLt b a = true
  · right
    simpa [lexLe] using lexLt_asymm _ _ h
  · left
    simp [lexLe, Bool.not_eq_true] at h ⊢
    exact h

theorem lexLe_of_lexLt (a b : List Char) (h : lexLt a b = true) : lexLe a b = true := by
  simpa [lexLe] using lexLt_asymm _ _ h

theorem lexLe_trans (a b c : List Char) (h₁ : lexLe a b = true) (h₂ : lexLe b c = true) :
    lexLe a c = true := by
  simp only [lexLe, Bool.not_eq_true'] at h₁ h₂ ⊢
  by_contra hac
  simp only [Bool.not_eq_false] at hac
  rcases lexLt_trichotomy b c with h | h | h
  · rcases lexLt_trichotomy a b with h' | h' | h'
    · exact absurd (lexLt_trans _ _ _ hac (lexLt_trans _ _ _ h' h)) (by simp [lexLt_irrefl])
    · subst h'; exact absurd (lexLt_trans _ _ _ hac h) (by simp [lexLt_irrefl])
    · simp [h'] at h₁
  · subst h; simp [hac] at h₁
  · simp [h] at h₂

/-! ### Stable sort lemmas -/

theorem insB_perm (le : α → α → Bool) (x : α) :
    ∀ l : List α, List.Perm (insB le x l) (x :: l) := by
  intro l
  induction l with
  | nil => simp [insB]
  | cons y ys ih =>
    simp only [insB]
    by_cases h : le x y = true
    · simp [h]
    · simp only [h, if_false]
      exact ((ih.cons y).trans (List.Perm.swap x y ys))

theorem ssort_perm (le : α → α → Bool) : ∀ l : List α, List.Perm (ssort le l) l := by
  intro l
  induction l with
  | nil => simp [ssort]
  | cons x xs ih => exact (insB_perm le x (ssort le xs)).trans (ih.cons x)

theorem insB_pairwise (le : α → α → Bool)
    (total : ∀ a b, le a b = true ∨ le b a = true)
    (htrans : ∀ a b c, le a b = true → le b c = true → le a c = true)
    (x : α) (l : List α) (h : List.Pairwise (fun a b => le a b = true) l) :
    List.Pairwise (fun a b => le a b = true) (insB le x l) := by
  induction l with
  | nil => simp [insB]
  | cons y ys ih =>
    rcases List.pairwise_cons.mp h with ⟨hy, hys⟩
    simp only [insB]
    by_cases hxy : le x y = true
    · rw [if_pos hxy]
      refine List.pairwise_cons.mpr ⟨?_, h⟩
      intro z hz
      rcases List.mem_cons.mp hz with rfl | hz'
      · exact hxy
      · exact htrans _ _ _ hxy (hy z hz')
    · rw [if_neg hxy]
      refine List.pairwise_cons.mpr ⟨?_, ih hys⟩
      intro z hz
      have hz' := (insB_perm le x ys).mem_iff.mp hz
      rcases List.mem_cons.mp hz' with rfl | hz''
      · rcases total z y with h' | h'
        · exact absurd h' hxy
        · exact h'
      · exact hy z hz''

theorem ssort_pairwise (le : α → α → Bool)
    (total : ∀ a b, le a b = true ∨ le b a = true)
    (htrans : ∀ a b c, le a b = true → le b c = true → le a c = true) :
    ∀ l : List α, List.Pairwise (fun a b => le a b = true) (ssort le l) := by
  intro l
  induction l with
  | nil => simp [ssort]
  | cons x xs ih => exact insB_pairwise le total htrans x (ssort le xs) ih

theorem insB_of_le (le : α → α → Bool) (x : α) (l : List α)
    (h : ∀ y ∈ l, le x y = true) : insB le x l = x :: l := by
  cases l with
  | nil => rfl
  | cons y ys => simp [insB, h y (by simp)]

/-- Sorting an already sorted list is the identity (hence Python's stable
`sorted` is idempotent on encoder output). -/
theorem ssort_fix (le : α → α → Bool) :
    ∀ l : List α, List.Pairwise (fun a b => le a b = true) l → ssort le l = l := by
  intro l
  induction l with
  | nil => intro _; rfl
  | cons x xs ih =>
    intro h
    rcases List.pairwise_cons.mp h with ⟨hx, hxs⟩
    rw [ssort, ih hxs]
    exact insB_of_le le x xs hx

/-- `insB` commutes with a transformation that does not change the sort key. -/
theorem insB_map (le : α → α → Bool) (le' : β → β → Bool) (f : α → β)
    (hf : ∀ a b, le' (f a) (f b) = le a b) (x : α) :
    ∀ l : List α, insB le' (f x) (l.map f) = (insB le x l).map f := by
  intro l
  induction l with
  | nil => rfl
  | cons y ys ih =>
    simp only [List.map_cons, insB, hf]
    by_cases h : le x y = true
    · simp [h]
    · simp [h, ih]

theorem ssort_map (le : α → α → Bool) (le' : β → β → Bool) (f : α → β)
    (hf : ∀ a b, le' (f a) (f b) = le a b) :
    ∀ l : List α, ssort le' (l.map f) = (ssort le l).map f := by
  intro l
  induction l with
  | nil => rfl
  | cons x xs ih => rw [List.map_cons, ssort, ssort, ih, insB_map le le' f hf]

instance exceptDecEq {ε α : Type} [DecidableEq ε] [DecidableEq α] : DecidableEq (Except ε α) :=
  fun x y =>
    match x, y with
    | .ok a, .ok b =>
      if h : a = b then isTrue (by rw [h]) else isFalse (by intro hh; cases hh; exact h rfl)
    | .error e, .error f =>
      if h : e = f then isTrue (by rw [h]) else isFalse (by intro hh; cases hh; exact h rfl)
    | .ok _, .error _ => isFalse (by intro hh; cases hh)
    | .error _, .ok _ => isFalse (by intro hh; cases hh)

/-! ## Constructor arguments used by the claims -/

/-- `QMKJSONEncoder.__init__` lines 19-20: `if not self.indent: self.indent = 4`
(`self.indent` is `None` by default, an integer when the caller passes one;
any falsy value — `None` or `0` — is replaced by 4, any other value is kept). -/
def qmk_init_indent : Option Int → Int
  | none => 4
  | some n => if n = 0 then 4 else n

/-! ## Claim C10 -/

/-- C10 (confirmed): constructing a pretty-printer with indent width 0 or a
falsy indent value such as `None` silently replaces the width by the default
4, so a zero-width indent can never take effect; any non-zero configured
width is kept as given. -/
theorem c10_falsy_indent_default :
    qmk_init_indent none = 4 ∧ qmk_init_indent (some 0) = 4 ∧
    ∀ n : Int, n ≠ 0 → qmk_init_indent (some n) = n := by
  refine ⟨rfl, rfl, ?_⟩
  intro n hn
  simp [qmk_init_indent, hn]

theorem c10_falsy_indent_default_witness :
    qmk_init_indent (some 2) = 2 ∧ qmk_init_indent (some (-3)) = -3 :=
  ⟨c10_falsy_indent_default.2.2 2 (by decide), c10_falsy_indent_default.2.2 (-3) (by decide)⟩

/-! ## Claim C2 -/

/-- C2 (code_bug): the Numeric-Normalizing Printer's claimed normalization —
`2.0` encodes as `2` uniformly, *including under the default one-shot compact
encoding path* — fails on exactly that path: `encode` calls
`iterencode(o, _one_shot=True)`, and with the C `c_make_encoder` available
(standard CPython) and `indent=None` the stock C encoder runs, ignoring the
overridden `floatstr`, so `2.0` is emitted as `"2.0"` at the root, in a
sequence, and in a mapping value.  The pure-Python path (C encoder
unavailable) produces the behavior the claim and the class docstring
describe. -/
theorem c2_kle_one_shot_skips_floatstr :
    KLE.encode true (.vfloat 2 1) = .ok "2.0" ∧
    KLE.encode true (.vlist (vlistOf [.vfloat 2 1])) = .ok "[2.0]" ∧
    KLE.encode true (.vdict (vdictOf [("x", .vfloat 2 1)])) = .ok "\x7b\"x\": 2.0\x7d" ∧
    "2.0" ≠ "2" ∧
    KLE.encode false (.vfloat 2 1) = .ok "2" ∧
    KLE.encode false (.vlist (vlistOf [.vfloat 2 1])) = .ok "[2]" ∧
    KLE.encode false (.vdict (vdictOf [("x", .vfloat 2 1)])) = .ok "\x7b\"x\": 2\x7d" ∧
    KLE.encode false (.vfloat 5 2) = .ok "2.5" ∧
    KLE.encode true (.vfloat 5 2) = .ok "2.5" ∧
    KLE.encode false (.vint 2) = .ok "2" ∧
    KLE.encode true (.vint 2) = .ok "2" := by
  decide

/-! ## Claim C3: counterexample -/

/-- C3 (corrected), counterexample: for the layer sequence
`["KC_A", "KC_B", "JSON_NEWLINE", "KC_C"]` at depth 2 the code does group
`KC_A, KC_B` on one row and `KC_C` on the next, but each row is prefixed by
`self.indent_str * 3` = 24 spaces — not one level deeper than the enclosing
bracket (12 spaces) — and the closing bracket is at `self.indent_str * 2` =
16 spaces, not at the sequence's own indent level (8 spaces); the output is
not the claim-conforming text. -/
theorem c3_row_indent_counterexample :
    Keymap.encode_list 2 (vlistOf [.vstr "KC_A", .vstr "KC_B", .vstr "JSON_NEWLINE", .vstr "KC_C"]) =
      .ok ("        [\n" ++
           "                        \"KC_A\", \"KC_B\"\n" ++
           "                        \"KC_C\"\n" ++
           "                ]") ∧
    ("        [\n" ++
     "                        \"KC_A\", \"KC_B\"\n" ++
     "                        \"KC_C\"\n" ++
     "                ]") ≠
    ("        [\n" ++
     "            \"KC_A\", \"KC_B\"\n" ++
     "            \"KC_C\"\n" ++
     "        ]") := by
  decide

/-! ## Claim C4: counterexample -/

/-- C4 (corrected), counterexample: at depth 2 the Config-Document Printer
ranks an unrecognized key by its raw name, so `"0a"` (rank `"0a"`) sorts
*before* `"vid"` (rank `"10vid"`), contradicting the claimed fixed priority
`vid, pid, device_ver` followed by all other keys. -/
theorem c4_depth2_order_counterexample :
    Info.encode 1 (.vdict (vdictOf [("vid", .vint 1), ("0a", .vint 2)])) =
      .ok (.pstr "\x7b\n        \"0a\": 2,\n        \"vid\": 1\n    \x7d") ∧
    "\x7b\n        \"0a\": 2,\n        \"vid\": 1\n    \x7d" ≠
      "\x7b\n        \"vid\": 1,\n        \"0a\": 2\n    \x7d" := by
  decide

/-! ## Claim C8: counterexample -/

/-- C8 (corrected), counterexample: at depth 2 of the Config-Document
Printer the unrecognized key `"11a"` keeps rank `"11a"`, which falls
strictly between the priority ranks `"10vid"` and `"11pid"` — its rank
interleaves with the `vid`/`pid`/`device_ver` priority tier, contradicting
the claim that no unrecognized key's rank interleaves with that tier. -/
theorem c8_rank_interleave_counterexample :
    Info.sort_dict 2 "11a" = "11a" ∧
    lexLt (Info.sort_dict 2 "vid").data (Info.sort_dict 2 "11a").data = true ∧
    lexLt (Info.sort_dict 2 "11a").data (Info.sort_dict 2 "pid").data = true ∧
    sortPairs (Info.sort_dict 2) [("pid", 1), ("11a", 2), ("vid", 3)] =
      [("vid", 3), ("11a", 2), ("pid", 1)] := by
  decide

/-! ## Claim C5: counterexample -/

/-- C5 (corrected), counterexample: a non-empty mapping whose values are all
scalars does *not* render inline — `InfoJSONEncoder.encode_dict` compacts a
mapping only at indentation level 4; at the root the all-scalar mapping
`\x7b"a": 1\x7d` renders in the expanded multi-line form. -/
theorem c5_scalar_mapping_counterexample :
    Info.encode 0 (.vdict (vdictOf [("a", .vint 1)])) =
      .ok (.pstr "\x7b\n    \"a\": 1\n\x7d") ∧
    '\n' ∈ ("\x7b\n    \"a\": 1\n\x7d").data := by
  decide

/-! ## Rank-function lemmas -/

theorem lexLt_head (c d : Char) (a b : List Char) (h : c.toNat < d.toNat) :
    lexLt (c :: a) (d :: b) = true := by
  simp [lexLt, h]

theorem lexLt_append_left (pre a b : List Char) :
    lexLt (pre ++ a) (pre ++ b) = lexLt a b := by
  induction pre with
  | nil => rfl
  | cons c tl ih => rw [List.cons_append, List.cons_append, lexLt_cons, ih]

/-- The fixed priority keys of `InfoJSONEncoder.sort_dict` at depth 1. -/
def infoPrio1 : List String :=
  ["manufacturer", "keyboard_name", "maintainer", "processor", "bootloader",
   "usb", "features", "community_layouts", "layout_aliases", "layouts"]

/-- The fixed priority keys of `InfoJSONEncoder.sort_dict` at depth 2. -/
def infoPrio2 : List String := ["vid", "pid", "device_ver"]

/-- The fixed priority keys of `KeymapJSONEncoder.sort_dict` at depth 1. -/
def keymapPrio1 : List String := ["version", "author", "notes", "layers", "documentation"]

theorem info_rank1_default (k : String) (hk : k ∉ infoPrio1) :
    Info.sort_dict 1 k = "50" ++ k := by
  simp only [infoPrio1, List.mem_cons, List.mem_singleton, not_or] at hk
  obtain ⟨h₁, h₂, h₃, h₄, h₅, h₆, h₇, h₈, h₉, h₁₀⟩ := hk
  simp [Info.sort_dict, h₁, h₂, h₃, h₄, h₅, h₆, h₇, h₈, h₉, h₁₀]

theorem info_rank2_default (k : String) (hk : k ∉ infoPrio2) :
    Info.sort_dict 2 k = k := by
  simp only [infoPrio2, List.mem_cons, List.mem_singleton, not_or] at hk
  obtain ⟨h₁, h₂, h₃⟩ := hk
  simp [Info.sort_dict, h₁, h₂, h₃]

theorem keymap_rank1_default (k : String) (hk : k ∉ keymapPrio1) :
    Keymap.sort_dict 1 k = "50" ++ k := by
  simp only [keymapPrio1, List.mem_cons, List.mem_singleton, not_or] at hk
  obtain ⟨h₁, h₂, h₃, h₄, h₅⟩ := hk
  simp [Keymap.sort_dict, h₁, h₂, h₃, h₄, h₅]

theorem lexLt_tag16_50 (k : String) :
    lexLt "16bootloader".data ("50" ++ k).data = true := by
  have h : ("50" ++ k).data = '5' :: '0' :: k.data := by
    have : ("50" ++ k).data = "50".data ++ k.data := by simp
    simpa using this
  rw [h]
  show lexLt ('1' :: "6bootloader".data) ('5' :: '0' :: k.data) = true
  exact lexLt_head _ _ _ _ (by decide)

theorem lexLt_50_tag97 (k : String) :
    lexLt ("50" ++ k).data "97community_layouts".data = true := by
  have h : ("50" ++ k).data = '5' :: '0' :: k.data := by
    have : ("50" ++ k).data = "50".data ++ k.data := by simp
    simpa using this
  rw [h]
  show lexLt ('5' :: '0' :: k.data) ('9' :: "7community_layouts".data) = true
  exact lexLt_head _ _ _ _ (by decide)

theorem lexLt_tag02_50 (k : String) :
    lexLt "02notes".data ("50" ++ k).data = true := by
  have h : ("50" ++ k).data = '5' :: '0' :: k.data := by
    have : ("50" ++ k).data = "50".data ++ k.data := by simp
    simpa using this
  rw [h]
  show lexLt ('0' :: "2notes".data) ('5' :: '0' :: k.data) = true
  exact lexLt_head _ _ _ _ (by decide)

theorem lexLt_50_tag98 (k : String) :
    lexLt ("50" ++ k).data "98layers".data = true := by
  have h : ("50" ++ k).data = '5' :: '0' :: k.data := by
    have : ("50" ++ k).data = "50".data ++ k.data := by simp
    simpa using this
  rw [h]
  show lexLt ('5' :: '0' :: k.data) ('9' :: "8layers".data) = true
  exact lexLt_head _ _ _ _ (by decide)

theorem lexLt_50_mono (k₁ k₂ : String) (h : lexLt k₁.data k₂.data = true) :
    lexLt ("50" ++ k₁).data ("50" ++ k₂).data = true := by
  have e₁ : ("50" ++ k₁).data = "50".data ++ k₁.data := by simp
  have e₂ : ("50" ++ k₂).data = "50".data ++ k₂.data := by simp
  rw [e₁, e₂, lexLt_append_left]
  exact h

/-! ## Claim C4: amended theorem -/

/-- C4 (corrected), amended claim: the Config-Document Printer's depth-1
order is the fixed priority `manufacturer, keyboard_name, maintainer,
processor, bootloader, usb, features`, then all other keys alphabetically
(every unrecognized key ranks `"50" ++ key`, strictly between the rank of
`features` and the rank of `community_layouts`), then `community_layouts,
layout_aliases, layouts`; the concrete example renders exactly as claimed.
At depth 2 the priority `vid, pid, device_ver` holds, but an unrecognized
key is ranked by its raw name: it follows the whole priority tier exactly
when its name compares after the rank `"12device_ver"` (as every key
starting with a letter does); keys comparing lower may precede or
interleave the tier (see the counterexample). -/
theorem c4_key_order_amended :
    Info.encode 0 (.vdict (vdictOf
      [("layouts", .vlist (vlistOf [.vint 1])),
       ("manufacturer", .vstr "X"),
       ("usb", .vdict (vdictOf [("pid", .vint 1), ("vid", .vint 2)])),
       ("bootloader", .vstr "b")])) =
      .ok (.pstr ("\x7b\n    \"manufacturer\": \"X\",\n    \"bootloader\": \"b\",\n" ++
        "    \"usb\": \x7b\n        \"vid\": 2,\n        \"pid\": 1\n    \x7d,\n" ++
        "    \"layouts\": [1]\n\x7d")) ∧
    (∀ k : String, k ∉ infoPrio1 →
      Info.sort_dict 1 k = "50" ++ k ∧
      lexLt (Info.sort_dict 1 "features").data (Info.sort_dict 1 k).data = true ∧
      lexLt (Info.sort_dict 1 k).data (Info.sort_dict 1 "community_layouts").data = true) ∧
    (∀ k₁ k₂ : String, k₁ ∉ infoPrio1 → k₂ ∉ infoPrio1 →
      lexLt k₁.data k₂.data = true →
      lexLt (Info.sort_dict 1 k₁).data (Info.sort_dict 1 k₂).data = true) ∧
    (∀ k : String, k ∉ infoPrio2 → Info.sort_dict 2 k = k) ∧
    (∀ k : String, k ∉ infoPrio2 →
      lexLt (Info.sort_dict 2 "device_ver").data k.data = true →
      lexLt (Info.sort_dict 2 "vid").data (Info.sort_dict 2 k).data = true ∧
      lexLt (Info.sort_dict 2 "pid").data (Info.sort_dict 2 k).data = true ∧
      lexLt (Info.sort_dict 2 "device_ver").data (Info.sort_dict 2 k).data = true) := by
  refine ⟨by decide, ?_, ?_, info_rank2_default, ?_⟩
  · intro k hk
    rw [info_rank1_default k hk,
      show Info.sort_dict 1 "features" = "16bootloader" from by decide,
      show Info.sort_dict 1 "community_layouts" = "97community_layouts" from by decide]
    exact ⟨rfl, lexLt_tag16_50 k, lexLt_50_tag97 k⟩
  · intro k₁ k₂ h₁ h₂ hlt
    rw [info_rank1_default k₁ h₁, info_rank1_default k₂ h₂]
    exact lexLt_50_mono k₁ k₂ hlt
  · intro k hk h
    rw [info_rank2_default k hk]
    refine ⟨?_, ?_, h⟩
    · exact lexLt_trans _ _ _ (by decide) h
    · exact lexLt_trans _ _ _ (by decide) h

theorem c4_key_order_amended_witness :
    Info.sort_dict 1 "zeta" = "50zeta" ∧
    lexLt (Info.sort_dict 1 "features").data (Info.sort_dict 1 "zeta").data = true ∧
    lexLt (Info.sort_dict 2 "vid").data (Info.sort_dict 2 "max_power").data = true :=
  ⟨(c4_key_order_amended.2.1 "zeta" (by decide)).1,
   (c4_key_order_amended.2.1 "zeta" (by decide)).2.1,
   (c4_key_order_amended.2.2.2.2 "max_power" (by decide) (by decide)).1⟩

/-! ## Claim C8: amended theorem -/

/-- C8 (corrected), amended claim: for both schema printers the key-ordering
function is a deterministic total function of (key, depth): outside the
depths with priority tiers the rank is the key itself; at depth 1 every
unrecognized key falls into the single default tier `"50" ++ key`, sorted
alphabetically among themselves and strictly between the surrounding
priority tiers (Info: between `features` and `community_layouts`; Keymap:
between `notes` and `layers`).  At depth 2 of the Config-Document Printer,
however, the default rank is the raw key, which *can* interleave with the
`vid`/`pid`/`device_ver` priority ranks (see the counterexample). -/
theorem c8_rank_totality_amended :
    (∀ k : String, k ∉ infoPrio1 → Info.sort_dict 1 k = "50" ++ k) ∧
    (∀ k : String, k ∉ keymapPrio1 →
      Keymap.sort_dict 1 k = "50" ++ k ∧
      lexLt (Keymap.sort_dict 1 "notes").data (Keymap.sort_dict 1 k).data = true ∧
      lexLt (Keymap.sort_dict 1 k).data (Keymap.sort_dict 1 "layers").data = true) ∧
    (∀ (l : Nat) (k : String), l ≠ 1 → l ≠ 2 → Info.sort_dict l k = k) ∧
    (∀ (l : Nat) (k : String), l ≠ 1 → Keymap.sort_dict l k = k) ∧
    (∀ k₁ k₂ : String, k₁ ∉ keymapPrio1 → k₂ ∉ keymapPrio1 →
      lexLt k₁.data k₂.data = true →
      lexLt (Keymap.sort_dict 1 k₁).data (Keymap.sort_dict 1 k₂).data = true) ∧
    (∀ k : String, k ∉ infoPrio2 → Info.sort_dict 2 k = k) := by
  refine ⟨info_rank1_default, ?_, ?_, ?_, ?_, info_rank2_default⟩
  · intro k hk
    rw [keymap_rank1_default k hk,
      show Keymap.sort_dict 1 "notes" = "02notes" from by decide,
      show Keymap.sort_dict 1 "layers" = "98layers" from by decide]
    exact ⟨rfl, lexLt_tag02_50 k, lexLt_50_tag98 k⟩
  · intro l k h₁ h₂
    simp [Info.sort_dict, h₁, h₂]
  · intro l k h₁
    simp [Keymap.sort_dict, h₁]
  · intro k₁ k₂ h₁ h₂ hlt
    rw [keymap_rank1_default k₁ h₁, keymap_rank1_default k₂ h₂]
    exact lexLt_50_mono k₁ k₂ hlt

theorem c8_rank_totality_amended_witness :
    Keymap.sort_dict 1 "macros" = "50macros" ∧
    Info.sort_dict 3 "anything" = "anything" ∧
    Keymap.sort_dict 2 "anything" = "anything" :=
  ⟨(c8_rank_totality_amended.2.1 "macros" (by decide)).1,
   c8_rank_totality_amended.2.2.1 3 "anything" (by decide) (by decide),
   c8_rank_totality_amended.2.2.2.1 2 "anything" (by decide)⟩

/-! ## Claim C3: amended theorem -/

/-- Modelled from the spec's words: scan the layer left to right, appending
scalars to the current row; each sentinel closes the current row and starts
a new one. -/
def splitRowsSpec : List String → List (List String)
  | [] => [[]]
  | k :: tl =>
    if k = "JSON_NEWLINE" then [] :: splitRowsSpec tl
    else
      match splitRowsSpec tl with
      | row :: rows => (k :: row) :: rows
      | [] => [[k]]

theorem splitRowsSpec_ne_nil : ∀ ks : List String, splitRowsSpec ks ≠ [] := by
  intro ks
  induction ks with
  | nil => simp [splitRowsSpec]
  | cons k tl ih =>
    simp only [splitRowsSpec]
    by_cases h : k = "JSON_NEWLINE"
    · simp [h]
    · simp only [h, if_false]
      cases hs : splitRowsSpec tl with
      | nil => simp
      | cons row rows => simp

theorem split_rows_str (ks : List String) :
    Keymap.split_rows 2 (vlistOf (ks.map .vstr)) =
      .ok ((splitRowsSpec ks).map (fun row => row.map (fun k => "\"" ++ k ++ "\""))) := by
  induction ks with
  | nil => rfl
  | cons k tl ih =>
    simp only [List.map_cons, vlistOf, Keymap.split_rows, splitRowsSpec]
    by_cases h : k = "JSON_NEWLINE"
    · subst h
      simp [ih]
    · have hne : (Value.vstr k) ≠ (Value.vstr "JSON_NEWLINE") := by
        intro hc; cases hc; exact h rfl
      rw [if_neg hne, if_neg h]
      cases hs : splitRowsSpec tl with
      | nil => exact absurd hs (splitRowsSpec_ne_nil tl)
      | cons row rows =>
        simp only [ih, hs, List.map_cons, ebind_ok, pyStrV]

/-- C3 (corrected), amended claim: for every layer of string keycodes at
depth 2 the sequence is split into rows at each `"JSON_NEWLINE"` sentinel,
scalars are rendered quoted in order, rows are comma-separated within and
emitted one per physical line; the opening bracket is prefixed by the
depth-2 indent (8 spaces), but each row is indented `self.indent_str * 3`
(24 spaces, not one level deeper than the bracket) and the closing bracket
sits at `self.indent_str * 2` (16 spaces, not the sequence's own level). -/
theorem str_ext (a b : String) (h : a.data = b.data) : a = b := by
  cases a; cases b; exact congrArg String.mk h

theorem c3_row_grouping_amended (ks : List String) :
    Keymap.encode_list 2 (vlistOf (ks.map .vstr)) =
      .ok ("        [\n" ++
        String.intercalate "\n" ((splitRowsSpec ks).map
          (fun row => "                        " ++
            String.intercalate ", " (row.map (fun k => "\"" ++ k ++ "\"")))) ++
        "\n                ]") := by
  rw [Keymap.encode_list]
  rw [if_pos (show (2 : Nat) = 2 from rfl)]
  rw [split_rows_str ks]
  simp only [ebind_ok, rowsAssemble, List.map_map]
  rw [show strRepeat (indent_str 2) (2 + 1) = "                        " from by decide,
    show strRepeat (indent_str 2) 2 = "                " from by decide,
    show indent_str 2 = "        " from by decide]
  simp only [Function.comp_def]
  congr 1
  apply str_ext
  have e₁ : ("        [\n" : String).data = "        ".data ++ "[\n".data := rfl
  have e₂ : ("\n                ]" : String).data = "\n".data ++ "                ".data ++ "]".data := rfl
  simp [e₁, e₂, String.data_append, List.append_assoc]

theorem c3_row_grouping_amended_witness :
    Keymap.encode_list 2 (vlistOf [.vstr "KC_Q", .vstr "JSON_NEWLINE", .vstr "KC_W"]) =
      .ok ("        [\n                        \"KC_Q\"\n" ++
        "                        \"KC_W\"\n                ]") := by
  have h := c3_row_grouping_amended ["KC_Q", "JSON_NEWLINE", "KC_W"]
  simpa [splitRowsSpec, String.intercalate] using h

/-! ## Character-class lemmas: scalar renderings contain no newline -/

/-- The string contains no newline character (renders on a single line). -/
def noNL (s : String) : Prop := ∀ c ∈ s.data, c.toNat ≠ 10

theorem noNL_append (a b : String) (ha : noNL a) (hb : noNL b) : noNL (a ++ b) := by
  intro c hc
  rw [String.data_append] at hc
  rcases List.mem_append.mp hc with h | h
  · exact ha c h
  · exact hb c h

theorem mem_intercalate_go (s : String) (c : Char) :
    ∀ (as : List String) (acc : String), c ∈ (String.intercalate.go acc s as).data →
      c ∈ acc.data ∨ c ∈ s.data ∨ ∃ a ∈ as, c ∈ a.data := by
  intro as
  induction as with
  | nil => intro acc h; exact Or.inl h
  | cons a tl ih =>
    intro acc h
    rcases ih (acc ++ s ++ a) h with h' | h' | h'
    · simp only [String.data_append] at h'
      rcases List.mem_append.mp h' with h'' | h''
      · rcases List.mem_append.mp h'' with h₃ | h₃
        · exact Or.inl h₃
        · exact Or.inr (Or.inl h₃)
      · exact Or.inr (Or.inr ⟨a, by simp, h''⟩)
    · exact Or.inr (Or.inl h')
    · obtain ⟨x, hx, hcx⟩ := h'
      exact Or.inr (Or.inr ⟨x, by simp [hx], hcx⟩)

theorem noNL_intercalate (s : String) (l : List String) (hs : noNL s)
    (hl : ∀ a ∈ l, noNL a) : noNL (String.intercalate s l) := by
  cases l with
  | nil => intro c hc; cases hc
  | cons a tl =>
    intro c hc
    rcases mem_intercalate_go s c tl a hc with h | h | h
    · exact hl a (by simp) c h
    · exact hs c h
    · obtain ⟨x, hx, hcx⟩ := h
      exact hl x (by simp [hx]) c hcx

theorem digitChar_toNat (n : Nat) (h : n < 10) : (digitChar n).toNat = 48 + n := by
  interval_cases n <;> decide

theorem hexChar_toNat_ne10 (n : Nat) (h : n < 16) : (hexChar n).toNat ≠ 10 := by
  interval_cases n <;> decide

theorem natDigitsAux_mem (fuel : Nat) :
    ∀ (n : Nat) (acc : List Char) (c : Char), c ∈ natDigitsAux fuel n acc →
      (48 ≤ c.toNat ∧ c.toNat ≤ 57) ∨ c ∈ acc := by
  induction fuel with
  | zero => intro n acc c h; exact Or.inr h
  | succ fuel ih =>
    intro n acc c h
    rw [natDigitsAux] at h
    by_cases hn : n < 10
    · rw [if_pos hn] at h
      rcases List.mem_cons.mp h with rfl | h'
      · left; rw [digitChar_toNat n hn]; omega
      · exact Or.inr h'
    · rw [if_neg hn] at h
      rcases ih (n / 10) (digitChar (n % 10) :: acc) c h with h' | h'
      · exact Or.inl h'
      · rcases List.mem_cons.mp h' with rfl | h''
        · left; rw [digitChar_toNat _ (Nat.mod_lt n (by omega))]; omega
        · exact Or.inr h''

theorem natRepr_mem (n : Nat) (c : Char) (h : c ∈ (natRepr n).data) :
    48 ≤ c.toNat ∧ c.toNat ≤ 57 := by
  rcases natDigitsAux_mem (n+1) n [] c h with h' | h'
  · exact h'
  · cases h'

theorem noNL_natRepr (n : Nat) : noNL (natRepr n) := by
  intro c hc
  have := natRepr_mem n c hc
  omega

theorem noNL_intRepr (n : Int) : noNL (intRepr n) := by
  cases n with
  | ofNat m => exact noNL_natRepr m
  | negSucc m =>
    refine noNL_append "-" (natRepr (m+1)) ?_ (noNL_natRepr (m+1))
    intro c hc
    rcases List.mem_singleton.mp hc with rfl
    decide

theorem noNL_replicate_zero (k : Nat) : ∀ c ∈ List.replicate k '0', c.toNat ≠ 10 := by
  intro c hc
  rw [List.eq_of_mem_replicate hc]
  decide

theorem noNL_pointed (t k : Nat) : noNL (pointed t k) := by
  intro c hc
  have hdig : ∀ x ∈ natDigits t, x.toNat ≠ 10 := by
    intro x hx
    rcases natDigitsAux_mem (t+1) t [] x hx with h | h
    · omega
    · cases h
  have hpad : ∀ x ∈ (if (natDigits t).length ≤ k then
      List.replicate (k + 1 - (natDigits t).length) '0' ++ natDigits t else natDigits t),
      x.toNat ≠ 10 := by
    split
    · intro x hx
      rcases List.mem_append.mp hx with h | h
      · rw [List.eq_of_mem_replicate h]; decide
      · exact hdig x h
    · exact hdig
  simp only [pointed] at hc
  rcases List.mem_append.mp hc with h | h
  · exact hpad c (List.mem_of_mem_take h)
  · rcases List.mem_cons.mp h with rfl | h'
    · decide
    · exact hpad c (List.mem_of_mem_drop h')

/-- Boolean form of `noNL`, for closing literal cases by `decide`. -/
def noNLb (s : String) : Bool := s.data.all (fun c => c.toNat != 10)

theorem noNL_of_noNLb (s : String) (h : noNLb s = true) : noNL s := by
  intro c hc
  have := List.all_eq_true.mp h c hc
  simpa using this

theorem noNL_pyFloatRepr (q : Q) : noNL (pyFloatRepr q) := by
  have hsign : noNL (if q.num < 0 then "-" else "") := by
    split <;> exact noNL_of_noNLb _ (by decide)
  rw [pyFloatRepr]
  split
  · exact noNL_append _ _ (noNL_append _ _ hsign (noNL_natRepr _))
      (noNL_of_noNLb ".0" (by decide))
  · split
    · exact noNL_append _ _ hsign (noNL_pointed _ _)
    · exact noNL_append _ _ hsign (noNL_of_noNLb "0x1p?" (by decide))

theorem noNL_hex4 (n : Nat) : ∀ c ∈ hex4 n, c.toNat ≠ 10 := by
  intro c hc
  simp only [hex4, List.mem_cons, List.not_mem_nil, or_false] at hc
  rcases hc with rfl | rfl | rfl | rfl <;>
    exact hexChar_toNat_ne10 _ (Nat.mod_lt _ (by omega))

theorem noNL_escChar (c : Char) : ∀ x ∈ escChar c, x.toNat ≠ 10 := by
  intro x hx
  rw [escChar] at hx
  split at hx
  · simp only [List.mem_cons, List.not_mem_nil, or_false] at hx
    rcases hx with rfl | rfl <;> decide
  · split at hx
    · simp only [List.mem_cons, List.not_mem_nil, or_false] at hx
      rcases hx with rfl | rfl <;> decide
    · split at hx
      · simp only [List.mem_cons, List.not_mem_nil, or_false] at hx
        rcases hx with rfl | rfl <;> decide
      · split at hx
        · simp only [List.mem_cons, List.not_mem_nil, or_false] at hx
          rcases hx with rfl | rfl <;> decide
        · split at hx
          · simp only [List.mem_cons, List.not_mem_nil, or_false] at hx
            rcases hx with rfl | rfl <;> decide
          · split at hx
            · simp only [List.mem_cons, List.not_mem_nil, or_false] at hx
              rcases hx with rfl | rfl <;> decide
            · split at hx
              · simp only [List.mem_cons, List.not_mem_nil, or_false] at hx
                rcases hx with rfl | rfl <;> decide
              · split at hx
                · split at hx
                  · simp only [List.mem_cons] at hx
                    rcases hx with rfl | rfl | hx''
                    · decide
                    · decide
                    · exact noNL_hex4 _ x hx''
                  · simp only [List.mem_append, List.mem_cons] at hx
                    rcases hx with (rfl | rfl | h) | (rfl | rfl | h)
                    · decide
                    · decide
                    · exact noNL_hex4 _ x h
                    · decide
                    · decide
                    · exact noNL_hex4 _ x h
                · simp only [List.mem_cons, List.not_mem_nil, or_false] at hx
                  subst hx
                  rename_i hrange
                  simp at hrange
                  omega

theorem noNL_jsonQuote (s : String) : noNL (jsonQuote s) := by
  intro c hc
  rw [jsonQuote] at hc
  rcases List.mem_cons.mp hc with rfl | hc'
  · decide
  · rcases List.mem_append.mp hc' with h | h
    · obtain ⟨l, hl, hcl⟩ := List.mem_flatten.mp h
      obtain ⟨x, _, rfl⟩ := List.mem_map.mp hl
      exact noNL_escChar x c hcl
    · rcases List.mem_singleton.mp h with rfl
      decide

theorem noNL_decRepr (m : Int) (e : Nat) : noNL (decRepr m e) := by
  have hsign : noNL (if m < 0 then "-" else "") := by
    split <;> exact noNL_of_noNLb _ (by decide)
  rw [decRepr]
  split
  · exact noNL_append _ _ hsign (noNL_natRepr _)
  · exact noNL_append _ _ hsign (noNL_pointed _ _)

/-- `is_container v = false` scalars: the stdlib rendering of every
non-container value is newline-free. -/
theorem noNL_std_scalar (v : Value) (h : is_container v = false) : noNL (std_scalar v) := by
  cases v with
  | vstr s => exact noNL_jsonQuote s
  | vbool b => cases b <;> exact noNL_of_noNLb _ (by decide)
  | vnull => exact noNL_of_noNLb _ (by decide)
  | vint n => exact noNL_intRepr n
  | vfloat num den => exact noNL_pyFloatRepr ⟨num, den⟩
  | vdec m e => exact noNL_decRepr m e
  | vlist xs => cases h
  | vdict kvs => cases h

theorem noNL_fstr_encode_decimal (m : Int) (e : Nat) : noNL (encode_decimal m e).fstr := by
  rw [encode_decimal]
  split
  · exact noNL_intRepr _
  · exact noNL_pyFloatRepr _

/-! ## Scalar-element encoding lemmas -/

/-- Spine induction for `VList` (the `induction` tactic cannot use the
mutual recursor directly). -/
theorem VList.indOnL {P : VList → Prop} (hnil : P .nil)
    (hcons : ∀ v tl, P tl → P (.cons v tl)) : ∀ xs, P xs
  | .nil => hnil
  | .cons v tl => hcons v tl (VList.indOnL hnil hcons tl)

/-- Spine induction for `VDict`. -/
theorem VDict.indOnD {P : VDict → Prop} (hnil : P .nil)
    (hcons : ∀ k v tl, P tl → P (.cons k v tl)) : ∀ kvs, P kvs
  | .nil => hnil
  | .cons k v tl => hcons k v tl (VDict.indOnD hnil hcons tl)

def isDec : Value → Bool
  | .vdec _ _ => true
  | _ => false

/-- A simple scalar: neither a container nor a `Decimal` (a `Decimal` in a
sequence raises `TypeError` in the source — see claims C1/C7). -/
def simple (v : Value) : Bool := !is_container v && !isDec v

def allSimpleL : VList → Bool
  | .nil => true
  | .cons v tl => simple v && allSimpleL tl

/-- What `self.encode` returns for any non-container value. -/
def scalarRet : Value → PyRet
  | .vdec m e => encode_decimal m e
  | v => .pstr (std_scalar v)

def dictScalarEntries (kvs : VDict) : List (String × PyRet) :=
  (VDict.toList kvs).map (fun kv => (kv.1, scalarRet kv.2))

theorem info_encode_noncontainer (l : Nat) (v : Value) (hc : is_container v = false) :
    Info.encode l v = .ok (scalarRet v) := by
  cases v <;> first | rfl | cases hc

theorem simple_not_container (v : Value) (h : simple v = true) : is_container v = false := by
  cases v <;> first | rfl | cases h

theorem allSimpleL_primitives (xs : VList) : allSimpleL xs = true →
    primitives_only_list xs = true := by
  induction xs using VList.indOnL with
  | hnil => intro _; rfl
  | hcons v tl ih =>
    intro h
    simp only [allSimpleL, Bool.and_eq_true] at h
    obtain ⟨h₁, h₂⟩ := h
    simp only [primitives_only_list, Bool.and_eq_true]
    exact ⟨by simp [simple_not_container v h₁], ih h₂⟩

theorem info_elems_simple (l : Nat) (xs : VList) : allSimpleL xs = true →
    Info.encode_elems l xs = .ok ((VList.toList xs).map (fun v => .pstr (std_scalar v))) := by
  induction xs using VList.indOnL with
  | hnil => intro _; rfl
  | hcons v tl ih =>
    intro h
    simp only [allSimpleL, Bool.and_eq_true] at h
    obtain ⟨h₁, h₂⟩ := h
    have hv : Info.encode l v = .ok (.pstr (std_scalar v)) := by
      have := info_encode_noncontainer l v (simple_not_container v h₁)
      rw [this]
      cases v <;> first | rfl | cases h₁
    rw [Info.encode_elems, hv, ih h₂]
    rfl

theorem intercalate_go_append (s : String) :
    ∀ (xs : List String) (p q : String),
      String.intercalate.go (p ++ q) s xs = p ++ String.intercalate.go q s xs := by
  intro xs
  induction xs with
  | nil => intro p q; rfl
  | cons y ys ih =>
    intro p q
    show String.intercalate.go (p ++ q ++ s ++ y) s ys = _
    rw [String.append_assoc, String.append_assoc, ih p (q ++ (s ++ y))]
    conv_rhs =>
      rw [show String.intercalate.go q s (y :: ys) =
        String.intercalate.go (q ++ s ++ y) s ys from rfl,
        String.append_assoc q s y]

theorem intercalate_cons (s a : String) (l : List String) (hl : l ≠ []) :
    String.intercalate s (a :: l) = a ++ s ++ String.intercalate s l := by
  cases l with
  | nil => exact absurd rfl hl
  | cons x xs =>
    show String.intercalate.go (a ++ s ++ x) s xs = _
    have : a ++ s ++ x = (a ++ s) ++ x := rfl
    rw [this, intercalate_go_append s xs (a ++ s) x]
    rfl

theorem pyJoin_pstr (sep : String) :
    ∀ ss : List String, pyJoin sep (ss.map .pstr) = .ok (String.intercalate sep ss) := by
  intro ss
  induction ss with
  | nil => rfl
  | cons a tl ih =>
    cases tl with
    | nil => rfl
    | cons b tl' =>
      show pyJoin sep (.pstr a :: .pstr b :: tl'.map .pstr) = _
      rw [pyJoin, PyRet.asStr, ebind_ok,
        show PyRet.pstr b :: tl'.map PyRet.pstr = (b :: tl').map PyRet.pstr from rfl,
        ih, ebind_ok, intercalate_cons sep a (b :: tl') (by simp)]
      simp

theorem buildLines_pstr (ind : String) :
    ∀ ss : List String,
      buildLines ind (ss.map PyRet.pstr) = .ok (ss.map (fun s => ind ++ s)) := by
  intro ss
  induction ss with
  | nil => rfl
  | cons a tl ih =>
    rw [List.map_cons, buildLines, PyRet.asStr, ebind_ok, ih, ebind_ok, List.map_cons]

theorem noNL_scalarRet_fstr (v : Value) (hc : is_container v = false) :
    noNL (scalarRet v).fstr := by
  cases v with
  | vdec m e => exact noNL_fstr_encode_decimal m e
  | vlist xs => cases hc
  | vdict kvs => cases hc
  | vnull => exact noNL_std_scalar .vnull rfl
  | vbool b => exact noNL_std_scalar (.vbool b) rfl
  | vstr s => exact noNL_std_scalar (.vstr s) rfl
  | vint n => exact noNL_std_scalar (.vint n) rfl
  | vfloat num den => exact noNL_std_scalar (.vfloat num den) rfl

theorem info_entries_scalar (l : Nat) (kvs : VDict) : primitives_only_dict kvs = true →
    Info.encode_entries l kvs = .ok (dictScalarEntries kvs) := by
  induction kvs using VDict.indOnD with
  | hnil => intro _; rfl
  | hcons k v tl ih =>
    intro h
    simp only [primitives_only_dict, Bool.and_eq_true] at h
    obtain ⟨h₁, h₂⟩ := h
    have hv : Info.encode l v = .ok (scalarRet v) :=
      info_encode_noncontainer l v (by simpa using h₁)
    rw [Info.encode_entries, hv, ebind_ok, ih h₂, ebind_ok]
    rfl

theorem allSimpleL_mem (xs : VList) : allSimpleL xs = true →
    ∀ v ∈ VList.toList xs, simple v = true := by
  induction xs using VList.indOnL with
  | hnil => intro _ v hv; cases hv
  | hcons w tl ih =>
    intro h
    simp only [allSimpleL, Bool.and_eq_true] at h
    obtain ⟨h₁, h₂⟩ := h
    intro v hv
    rcases List.mem_cons.mp hv with rfl | hv'
    · exact h₁
    · exact ih h₂ v hv'

theorem primitives_only_dict_mem (kvs : VDict) : primitives_only_dict kvs = true →
    ∀ kv ∈ VDict.toList kvs, is_container kv.2 = false := by
  induction kvs using VDict.indOnD with
  | hnil => intro _ kv hkv; cases hkv
  | hcons k v tl ih =>
    intro h
    simp only [primitives_only_dict, Bool.and_eq_true] at h
    obtain ⟨h₁, h₂⟩ := h
    intro kv hkv
    rcases List.mem_cons.mp hkv with rfl | hkv'
    · simpa using h₁
    · exact ih h₂ kv hkv'

theorem append_container_not_primitive (vs : List Value) (c : Value)
    (hc : is_container c = true) :
    primitives_only_list (vlistOf (vs ++ [c])) = false := by
  induction vs with
  | nil => simp [vlistOf, primitives_only_list, hc]
  | cons v tl ih => simp [vlistOf, primitives_only_list, ih]

theorem info_elems_append (l : Nat) (vs : List Value) (c : Value) (sc : String)
    (hs : ∀ v ∈ vs, simple v = true) (henc : Info.encode l c = .ok (.pstr sc)) :
    Info.encode_elems l (vlistOf (vs ++ [c])) =
      .ok (vs.map (fun v => .pstr (std_scalar v)) ++ [.pstr sc]) := by
  induction vs with
  | nil =>
    show Info.encode_elems l (.cons c .nil) = _
    rw [Info.encode_elems, henc, ebind_ok]
    rfl
  | cons v tl ih =>
    have h₁ : simple v = true := hs v (by simp)
    have hv : Info.encode l v = .ok (.pstr (std_scalar v)) := by
      have := info_encode_noncontainer l v (simple_not_container v h₁)
      rw [this]
      cases v <;> first | rfl | cases h₁
    show Info.encode_elems l (.cons v (vlistOf (tl ++ [c]))) = _
    rw [Info.encode_elems, hv, ebind_ok, ih (fun w hw => hs w (by simp [hw])), ebind_ok]
    rfl

theorem mem_data_append_l (c : Char) (a b : String) (h : c ∈ a.data) :
    c ∈ (a ++ b).data := by
  rw [String.data_append]
  exact List.mem_append.mpr (Or.inl h)

theorem noNL_entry_line (k : String) (r : PyRet) (hr : noNL r.fstr) :
    noNL (jsonQuote k ++ ": " ++ r.fstr) :=
  noNL_append _ _ (noNL_append _ _ (noNL_jsonQuote k) (noNL_of_noNLb ": " (by decide))) hr

theorem noNL_dictInline4_scalar (ents : List (String × PyRet))
    (h : ∀ kv ∈ ents, noNL kv.2.fstr) : noNL (dictInline4 ents) := by
  refine noNL_append _ _ (noNL_append _ _ (noNL_of_noNLb "\x7b " (by decide)) ?_)
    (noNL_of_noNLb " \x7d" (by decide))
  refine noNL_intercalate _ _ (noNL_of_noNLb ", " (by decide)) ?_
  intro a ha
  obtain ⟨kv, hkv, rfl⟩ := List.mem_map.mp ha
  have hkv' : kv ∈ ents := (ssort_perm _ ents).mem_iff.mp hkv
  exact noNL_entry_line kv.1 kv.2 (h kv hkv')

/-! ## Claim C5: amended theorem -/

/-- C5 (corrected), amended claim: the scalars-imply-inline rule governs
*sequences*, not mappings: a non-empty sequence of simple scalars renders
inline on one line, and appending one container element switches it to the
expanded multi-line form.  A mapping's form is decided by depth alone:
non-empty mappings render expanded (multi-line) at every indentation level
except 4, where they render on a single line — regardless of whether their
values are scalars. -/
theorem c5_compaction_amended :
    (∀ (l : Nat) (xs : VList), allSimpleL xs = true →
      Info.encode l (.vlist xs) =
        .ok (.pstr ("[" ++ String.intercalate ", " ((VList.toList xs).map std_scalar) ++ "]")) ∧
      noNL ("[" ++ String.intercalate ", " ((VList.toList xs).map std_scalar) ++ "]")) ∧
    (∀ (l : Nat) (vs : List Value) (c : Value) (sc : String),
      (∀ v ∈ vs, simple v = true) → is_container c = true →
      Info.encode (l + 1) c = .ok (.pstr sc) →
      Info.encode l (.vlist (vlistOf (vs ++ [c]))) =
        .ok (.pstr ("[\n" ++ String.intercalate ",\n"
          ((vs.map (fun v => indent_str (l + 1) ++ std_scalar v)) ++
            [indent_str (l + 1) ++ sc]) ++
          "\n" ++ indent_str l ++ "]")) ∧
      '\n' ∈ ("[\n" ++ String.intercalate ",\n"
          ((vs.map (fun v => indent_str (l + 1) ++ std_scalar v)) ++
            [indent_str (l + 1) ++ sc]) ++
          "\n" ++ indent_str l ++ "]").data) ∧
    (∀ kvs : VDict, primitives_only_dict kvs = true → kvs ≠ .nil →
      Info.encode 4 (.vdict kvs) = .ok (.pstr (dictInline4 (dictScalarEntries kvs))) ∧
      noNL (dictInline4 (dictScalarEntries kvs))) ∧
    (∀ (l : Nat) (kvs : VDict), kvs ≠ .nil → l ≠ 4 →
      primitives_only_dict kvs = true →
      Info.encode l (.vdict kvs) =
        .ok (.pstr (dictExpanded (Info.sort_dict (l + 1)) l (dictScalarEntries kvs))) ∧
      '\n' ∈ (dictExpanded (Info.sort_dict (l + 1)) l (dictScalarEntries kvs)).data) := by
  refine ⟨?_, ?_, ?_, ?_⟩
  · intro l xs hs
    constructor
    · rw [show Info.encode l (.vlist xs) = (if primitives_only_list xs then do
          Except.ok (.pstr (← listInline (← Info.encode_elems l xs)))
        else do
          Except.ok (.pstr (← listExpanded l (← Info.encode_elems (l + 1) xs)))) from rfl]
      rw [if_pos (allSimpleL_primitives xs hs), info_elems_simple l xs hs, ebind_ok,
        listInline]
      rw [show (VList.toList xs).map (fun v => PyRet.pstr (std_scalar v)) =
        ((VList.toList xs).map std_scalar).map PyRet.pstr from by rw [List.map_map]; rfl]
      rw [pyJoin_pstr, ebind_ok]
      rfl
    · refine noNL_append _ _ (noNL_append _ _ (noNL_of_noNLb "[" (by decide)) ?_)
        (noNL_of_noNLb "]" (by decide))
      refine noNL_intercalate _ _ (noNL_of_noNLb ", " (by decide)) ?_
      intro a ha
      obtain ⟨v, hv, rfl⟩ := List.mem_map.mp ha
      exact noNL_std_scalar v (simple_not_container v (allSimpleL_mem xs hs v hv))
  · intro l vs c sc hs hc henc
    constructor
    · rw [show Info.encode l (.vlist (vlistOf (vs ++ [c]))) =
          (if primitives_only_list (vlistOf (vs ++ [c])) then do
            Except.ok (.pstr (← listInline (← Info.encode_elems l (vlistOf (vs ++ [c])))))
          else do
            Except.ok (.pstr
              (← listExpanded l (← Info.encode_elems (l + 1) (vlistOf (vs ++ [c])))))) from rfl]
      rw [if_neg (by rw [append_container_not_primitive vs c hc]; exact Bool.false_ne_true),
        info_elems_append (l + 1) vs c sc hs henc, ebind_ok, listExpanded]
      rw [show vs.map (fun v => PyRet.pstr (std_scalar v)) ++ [PyRet.pstr sc] =
        ((vs.map std_scalar) ++ [sc]).map PyRet.pstr from by
          rw [List.map_append, List.map_map]; rfl]
      rw [buildLines_pstr, ebind_ok, List.map_append, List.map_map]
      rfl
    · repeat apply mem_data_append_l
      decide
  · intro kvs hp hne
    cases kvs with
    | nil => exact absurd rfl hne
    | cons k v tl =>
      have hp0 := hp
      simp only [primitives_only_dict, Bool.and_eq_true] at hp
      obtain ⟨h₁, h₂⟩ := hp
      constructor
      · rw [show Info.encode 4 (.vdict (.cons k v tl)) = (if (4 : Nat) = 4 then do
            let r ← Info.encode 4 v
            let rs ← Info.encode_entries 4 tl
            Except.ok (.pstr (dictInline4 ((k, r) :: rs)))
          else do
            let r ← Info.encode (4 + 1) v
            let rs ← Info.encode_entries (4 + 1) tl
            Except.ok (.pstr (dictExpanded (Info.sort_dict (4 + 1)) 4 ((k, r) :: rs)))) from rfl]
        rw [if_pos rfl, info_encode_noncontainer 4 v (by simpa using h₁), ebind_ok,
          info_entries_scalar 4 tl h₂, ebind_ok]
        rfl
      · refine noNL_dictInline4_scalar _ ?_
        intro kv hkv
        obtain ⟨kw, hkw, rfl⟩ := List.mem_map.mp hkv
        exact noNL_scalarRet_fstr kw.2
          (primitives_only_dict_mem (.cons k v tl) hp0 kw hkw)
  · intro l kvs hne hl4 hp
    cases kvs with
    | nil => exact absurd rfl hne
    | cons k v tl =>
      simp only [primitives_only_dict, Bool.and_eq_true] at hp
      obtain ⟨h₁, h₂⟩ := hp
      constructor
      · rw [show Info.encode l (.vdict (.cons k v tl)) = (if l = 4 then do
            let r ← Info.encode l v
            let rs ← Info.encode_entries l tl
            Except.ok (.pstr (dictInline4 ((k, r) :: rs)))
          else do
            let r ← Info.encode (l + 1) v
            let rs ← Info.encode_entries (l + 1) tl
            Except.ok (.pstr (dictExpanded (Info.sort_dict (l + 1)) l ((k, r) :: rs)))) from rfl]
        rw [if_neg hl4, info_encode_noncontainer (l + 1) v (by simpa using h₁), ebind_ok,
          info_entries_scalar (l + 1) tl h₂, ebind_ok]
        rfl
      · rw [dictExpanded]
        repeat apply mem_data_append_l
        decide

theorem c5_compaction_amended_witness :
    Info.encode 0 (.vlist (vlistOf [.vint 1, .vstr "a"])) = .ok (.pstr "[1, \"a\"]") ∧
    Info.encode 0 (.vlist (vlistOf [.vint 1, .vlist .nil])) =
      .ok (.pstr "[\n    1,\n    []\n]") ∧
    Info.encode 4 (.vdict (vdictOf [("a", .vint 1)])) = .ok (.pstr "\x7b \"a\": 1 \x7d") ∧
    Info.encode 0 (.vdict (vdictOf [("b", .vint 1)])) = .ok (.pstr "\x7b\n    \"b\": 1\n\x7d") := by
  refine ⟨?_, ?_, ?_, ?_⟩
  · exact ((c5_compaction_amended.1 0 (vlistOf [.vint 1, .vstr "a"]) (by decide)).1).trans
      (by decide)
  · exact ((c5_compaction_amended.2.1 0 [.vint 1] (.vlist .nil) "[]"
      (by decide) (by decide) (by decide)).1).trans (by decide)
  · exact ((c5_compaction_amended.2.2.1 (vdictOf [("a", .vint 1)])
      (by decide) (by decide)).1).trans (by decide)
  · exact ((c5_compaction_amended.2.2.2 0 (vdictOf [("b", .vint 1)])
      (by decide) (by decide) (by decide)).1).trans (by decide)

/-! ## Claim C7: amended theorem -/

/-- C7 (corrected), amended claim: a whole `Decimal` is turned into the
Python `int` it equals; embedded in a mapping it renders as a bare integer
literal containing no `.` and no exponent marker.  Every other (non-whole)
`Decimal` is first converted by `float(obj)` to the nearest binary64 value
— losing arbitrary precision (see the counterexample) — and renders as that
float's `repr`.  (At the root, `encode` returns the number object itself
rather than text.) -/
theorem c7_decimal_rendering_amended :
    (∀ (m : Int) (e : Nat), (Q.mk m (10 ^ e)).isWhole = true →
      encode_decimal m e = .pint (Q.mk m (10 ^ e)).trunc ∧
      Info.encode 0 (.vdict (.cons "k" (.vdec m e) .nil)) =
        .ok (.pstr ("\x7b\n    \"k\": " ++ intRepr (Q.mk m (10 ^ e)).trunc ++ "\n\x7d")) ∧
      (∀ c ∈ (intRepr (Q.mk m (10 ^ e)).trunc).data, c ≠ '.' ∧ c ≠ 'e' ∧ c ≠ 'E')) ∧
    (∀ (m : Int) (e : Nat), (Q.mk m (10 ^ e)).isWhole = false →
      encode_decimal m e = .pfloat (roundB64 ⟨m, 10 ^ e⟩) ∧
      Info.encode 0 (.vdict (.cons "k" (.vdec m e) .nil)) =
        .ok (.pstr ("\x7b\n    \"k\": " ++ pyFloatRepr (roundB64 ⟨m, 10 ^ e⟩) ++ "\n\x7d"))) := by
  have hdict : ∀ (m : Int) (e : Nat),
      Info.encode 0 (.vdict (.cons "k" (.vdec m e) .nil)) =
        .ok (.pstr ("\x7b\n    \"k\": " ++ (encode_decimal m e).fstr ++ "\n\x7d")) := by
    intro m e
    rw [show Info.encode 0 (.vdict (.cons "k" (.vdec m e) .nil)) = (if (0 : Nat) = 4 then do
        let r ← Info.encode 0 (.vdec m e)
        let rs ← Info.encode_entries 0 .nil
        Except.ok (.pstr (dictInline4 (("k", r) :: rs)))
      else do
        let r ← Info.encode (0 + 1) (.vdec m e)
        let rs ← Info.encode_entries (0 + 1) .nil
        Except.ok (.pstr (dictExpanded (Info.sort_dict (0 + 1)) 0 (("k", r) :: rs)))) from rfl]
    rw [if_neg (by decide)]
    rw [show Info.encode (0 + 1) (.vdec m e) = .ok (encode_decimal m e) from rfl, ebind_ok]
    rw [show Info.encode_entries (0 + 1) VDict.nil = .ok [] from rfl, ebind_ok]
    rw [dictExpanded]
    rw [show sortPairs (Info.sort_dict (0 + 1)) [("k", encode_decimal m e)] =
      [("k", encode_decimal m e)] from rfl]
    rw [List.map_singleton]
    rw [show String.intercalate ",\n"
        [indent_str (0 + 1) ++ jsonQuote "k" ++ ": " ++ (encode_decimal m e).fstr] =
      indent_str (0 + 1) ++ jsonQuote "k" ++ ": " ++ (encode_decimal m e).fstr from rfl]
    congr 2
    apply str_ext
    simp only [String.data_append]
    rw [show (indent_str (0 + 1)).data = [' ', ' ', ' ', ' '] from by decide,
      show (jsonQuote "k").data = ['\"', 'k', '\"'] from by decide,
      show (indent_str 0).data = ([] : List Char) from by decide]
    simp
  refine ⟨?_, ?_⟩
  · intro m e h
    have he : encode_decimal m e = .pint (Q.mk m (10 ^ e)).trunc := by
      rw [encode_decimal, if_pos h]
    refine ⟨he, ?_, ?_⟩
    · have := hdict m e
      rw [he] at this
      exact this
    · intro c hc
      cases ht : (Q.mk m (10 ^ e)).trunc with
      | ofNat n =>
        rw [ht] at hc
        have hb := natRepr_mem n c hc
        refine ⟨?_, ?_, ?_⟩ <;> (intro hEq; rw [hEq] at hb; exact absurd hb (by decide))
      | negSucc n =>
        rw [ht] at hc
        rw [show intRepr (Int.negSucc n) = "-" ++ natRepr (n + 1) from rfl,
          String.data_append] at hc
        rcases List.mem_append.mp hc with h' | h'
        · rw [show ("-" : String).data = ['-'] from rfl] at h'
          rcases List.mem_singleton.mp h' with rfl
          refine ⟨by decide, by decide, by decide⟩
        · have hb := natRepr_mem (n + 1) c h'
          refine ⟨?_, ?_, ?_⟩ <;> (intro hEq; rw [hEq] at hb; exact absurd hb (by decide))
  · intro m e h
    have he : encode_decimal m e = .pfloat (roundB64 ⟨m, 10 ^ e⟩) := by
      rw [encode_decimal, if_neg (by rw [h]; exact Bool.false_ne_true)]
    refine ⟨he, ?_⟩
    have := hdict m e
    rw [he] at this
    exact this

set_option maxRecDepth 400000 in
theorem c7_decimal_rendering_amended_witness :
    Info.encode 0 (.vdict (.cons "k" (.vdec 20 1) .nil)) =
      .ok (.pstr "\x7b\n    \"k\": 2\n\x7d") ∧
    Info.encode 0 (.vdict (.cons "k" (.vdec 25 1) .nil)) =
      .ok (.pstr "\x7b\n    \"k\": 2.5\n\x7d") := by
  constructor
  · exact ((c7_decimal_rendering_amended.1 20 1 (by decide)).2.1).trans (by decide)
  · exact ((c7_decimal_rendering_amended.2 25 1 (by decide)).2).trans (by decide)

/-! ## Mutual induction over the document tree -/

mutual
theorem mutualIndV {P : Value → Prop} {Q : VList → Prop} {R : VDict → Prop}
    (hnull : P .vnull) (hbool : ∀ b, P (.vbool b)) (hstr : ∀ s, P (.vstr s))
    (hint : ∀ n, P (.vint n)) (hdec : ∀ m e, P (.vdec m e))
    (hfloat : ∀ num den, P (.vfloat num den))
    (hlist : ∀ xs, Q xs → P (.vlist xs)) (hdict : ∀ kvs, R kvs → P (.vdict kvs))
    (hnl : Q .nil) (hcl : ∀ v tl, P v → Q tl → Q (.cons v tl))
    (hnd : R .nil) (hcd : ∀ k v tl, P v → R tl → R (.cons k v tl)) : ∀ v, P v
  | .vnull => hnull
  | .vbool b => hbool b
  | .vstr s => hstr s
  | .vint n => hint n
  | .vdec m e => hdec m e
  | .vfloat num den => hfloat num den
  | .vlist xs => hlist xs
      (mutualIndL hnull hbool hstr hint hdec hfloat hlist hdict hnl hcl hnd hcd xs)
  | .vdict kvs => hdict kvs
      (mutualIndD hnull hbool hstr hint hdec hfloat hlist hdict hnl hcl hnd hcd kvs)
theorem mutualIndL {P : Value → Prop} {Q : VList → Prop} {R : VDict → Prop}
    (hnull : P .vnull) (hbool : ∀ b, P (.vbool b)) (hstr : ∀ s, P (.vstr s))
    (hint : ∀ n, P (.vint n)) (hdec : ∀ m e, P (.vdec m e))
    (hfloat : ∀ num den, P (.vfloat num den))
    (hlist : ∀ xs, Q xs → P (.vlist xs)) (hdict : ∀ kvs, R kvs → P (.vdict kvs))
    (hnl : Q .nil) (hcl : ∀ v tl, P v → Q tl → Q (.cons v tl))
    (hnd : R .nil) (hcd : ∀ k v tl, P v → R tl → R (.cons k v tl)) : ∀ xs, Q xs
  | .nil => hnl
  | .cons v tl =>
    hcl v tl (mutualIndV hnull hbool hstr hint hdec hfloat hlist hdict hnl hcl hnd hcd v)
      (mutualIndL hnull hbool hstr hint hdec hfloat hlist hdict hnl hcl hnd hcd tl)
theorem mutualIndD {P : Value → Prop} {Q : VList → Prop} {R : VDict → Prop}
    (hnull : P .vnull) (hbool : ∀ b, P (.vbool b)) (hstr : ∀ s, P (.vstr s))
    (hint : ∀ n, P (.vint n)) (hdec : ∀ m e, P (.vdec m e))
    (hfloat : ∀ num den, P (.vfloat num den))
    (hlist : ∀ xs, Q xs → P (.vlist xs)) (hdict : ∀ kvs, R kvs → P (.vdict kvs))
    (hnl : Q .nil) (hcl : ∀ v tl, P v → Q tl → Q (.cons v tl))
    (hnd : R .nil) (hcd : ∀ k v tl, P v → R tl → R (.cons k v tl)) : ∀ kvs, R kvs
  | .nil => hnd
  | .cons k v tl =>
    hcd k v tl (mutualIndV hnull hbool hstr hint hdec hfloat hlist hdict hnl hcl hnd hcd v)
      (mutualIndD hnull hbool hstr hint hdec hfloat hlist hdict hnl hcl hnd hcd tl)
end

/-! ## Claim C9: the indentation counter is balanced -/

@[simp] theorem emap_ok (a : α) (f : α → β) :
    (Except.ok a : Except EncErr α).map f = .ok (f a) := rfl

@[simp] theorem emap_err (e : EncErr) (f : α → β) :
    (Except.error e : Except EncErr α).map f = .error e := rfl

/-- Sorting commutes with a value-only transformation of the entries. -/
theorem sortPairs_map_snd (rank : String → String) (g : String × PyRet → String)
    (ents : List (String × PyRet)) :
    sortPairs rank (ents.map (fun kv => (kv.1, g kv))) =
      (sortPairs rank ents).map (fun kv => (kv.1, g kv)) := by
  exact ssort_map _ _ _ (fun a b => rfl) ents

/-- `InfoJSONEncoder.encode` on a non-empty dict below the layout depth,
expressed through `encode_entries` of the whole dict. -/
theorem info_encode_dict_cons (l : Nat) (k : String) (v : Value) (tl : VDict)
    (hl4 : l ≠ 4) :
    Info.encode l (.vdict (.cons k v tl)) =
      (Info.encode_entries (l + 1) (.cons k v tl)).map
        (fun ents => .pstr (dictExpanded (Info.sort_dict (l + 1)) l ents)) := by
  simp only [Info.encode, Info.encode_entries, if_neg hl4]
  cases h1 : Info.encode (l + 1) v with
  | error e => rfl
  | ok r =>
    simp only [ebind_ok]
    cases h2 : Info.encode_entries (l + 1) tl with
    | error e => rfl
    | ok ents => simp

/-- `InfoJSONEncoder.encode` on a non-empty dict at the layout depth. -/
theorem info_encode_dict_cons4 (k : String) (v : Value) (tl : VDict) :
    Info.encode 4 (.vdict (.cons k v tl)) =
      (Info.encode_entries 4 (.cons k v tl)).map (fun ents => .pstr (dictInline4 ents)) := by
  simp only [Info.encode, Info.encode_entries, if_pos rfl]
  cases h1 : Info.encode 4 v with
  | error e => rfl
  | ok r =>
    simp only [ebind_ok]
    cases h2 : Info.encode_entries 4 tl with
    | error e => rfl
    | ok ents => simp

/-- The stateful Info encoder equals the pure one and restores the
indentation counter: the heart of claim C9 for `InfoJSONEncoder`. -/
theorem info_encodeS_eq : ∀ (v : Value) (l : Nat),
    Info.encodeS v l = (Info.encode l v).map (fun r => (r, l)) := by
  have H := mutualIndV
    (P := fun v => ∀ l, Info.encodeS v l = (Info.encode l v).map (fun r => (r, l)))
    (Q := fun xs =>
      (∀ l, Info.encode_elemsS xs l = (Info.encode_elems l xs).map (fun rs => (rs, l))) ∧
      (∀ l, Info.encode_linesS xs l =
        ((Info.encode_elems l xs) >>= fun rs => buildLines (indent_str l) rs).map
          (fun lines => (lines, l))))
    (R := fun kvs =>
      (∀ l, Info.encode_entriesS kvs l = (Info.encode_entries l kvs).map (fun ents =>
        (ents.map (fun kv => (kv.1, indent_str l ++ jsonQuote kv.1 ++ ": " ++ kv.2.fstr)), l))) ∧
      (∀ l, Info.encode_items4S kvs l = (Info.encode_entries l kvs).map (fun ents =>
        (ents.map (fun kv => (kv.1, jsonQuote kv.1 ++ ": " ++ kv.2.fstr)), l))))
    (fun _ => rfl) (fun _ _ => rfl) (fun _ _ => rfl) (fun _ _ => rfl) (fun _ _ _ => rfl)
    (fun _ _ _ => rfl)
    ?hlist ?hdict ?hnl ?hcl ?hnd ?hcd
  · exact H
  case hlist =>
    intro xs hL l
    by_cases hprim : primitives_only_list xs
    · simp only [Info.encodeS, Info.encode, if_pos hprim, hL.1 l]
      cases h1 : Info.encode_elems l xs with
      | error e => rfl
      | ok rs =>
        simp only [emap_ok, ebind_ok]
        cases h2 : pyJoin ", " rs with
        | error e => simp [listInline, h2]
        | ok body => simp [listInline, h2]
    · simp only [Info.encodeS, Info.encode, if_neg hprim, hL.2 (l + 1)]
      cases h1 : Info.encode_elems (l + 1) xs with
      | error e => rfl
      | ok rs =>
        simp only [emap_ok, ebind_ok]
        cases h2 : buildLines (indent_str (l + 1)) rs with
        | error e =>
          simp only [listExpanded, h2]
          rfl
        | ok lines =>
          simp only [listExpanded, h2]
          simp
  case hdict =>
    intro kvs hD l
    cases kvs with
    | nil => rfl
    | cons k v tl =>
      by_cases hl4 : l = 4
      · subst hl4
        rw [info_encode_dict_cons4 k v tl]
        simp only [Info.encodeS, if_pos rfl, hD.2 4]
        cases h1 : Info.encode_entries 4 (.cons k v tl) with
        | error e => rfl
        | ok ents =>
          simp only [emap_ok, ebind_ok]
          rw [sortPairs_map_snd id (fun kv => jsonQuote kv.1 ++ ": " ++ kv.2.fstr) ents,
            List.map_map]
          rfl
      · rw [info_encode_dict_cons l k v tl hl4]
        simp only [Info.encodeS, if_neg hl4, hD.1 (l + 1)]
        cases h1 : Info.encode_entries (l + 1) (.cons k v tl) with
        | error e => rfl
        | ok ents =>
          simp only [emap_ok, ebind_ok]
          rw [sortPairs_map_snd (Info.sort_dict (l + 1))
            (fun kv => indent_str (l + 1) ++ jsonQuote kv.1 ++ ": " ++ kv.2.fstr) ents,
            List.map_map]
          simp [dictExpanded, Function.comp_def]
  case hnl => exact ⟨fun _ => rfl, fun _ => rfl⟩
  case hcl =>
    intro v tl hV hL
    constructor
    · intro l
      simp only [Info.encode_elemsS, Info.encode_elems, hV l]
      cases h1 : Info.encode l v with
      | error e => rfl
      | ok r =>
        simp only [emap_ok, ebind_ok, hL.1 l]
        cases h2 : Info.encode_elems l tl with
        | error e => rfl
        | ok rs => simp
    · intro l
      simp only [Info.encode_linesS, Info.encode_elems, hV l]
      cases h1 : Info.encode l v with
      | error e => rfl
      | ok r =>
        simp only [emap_ok, ebind_ok, hL.2 l]
        cases h2 : r.asStr with
        | error e =>
          cases h3 : Info.encode_elems l tl with
          | error e2 => cases e; cases e2; simp [buildLines, h2]
          | ok rs => simp [buildLines, h2]
        | ok s =>
          cases h3 : Info.encode_elems l tl with
          | error e => simp [buildLines, h2]
          | ok rs =>
            simp only [emap_ok, ebind_ok, buildLines, h2]
            cases h4 : buildLines (indent_str l) rs with
            | error e => rfl
            | ok lines => simp
  case hnd => exact ⟨fun _ => rfl, fun _ => rfl⟩
  case hcd =>
    intro k v tl hV hD
    constructor
    · intro l
      simp only [Info.encode_entriesS, Info.encode_entries, hV l]
      cases h1 : Info.encode l v with
      | error e => rfl
      | ok r =>
        simp only [emap_ok, ebind_ok, hD.1 l]
        cases h2 : Info.encode_entries l tl with
        | error e => rfl
        | ok ents => simp
    · intro l
      simp only [Info.encode_items4S, Info.encode_entries, hV l]
      cases h1 : Info.encode l v with
      | error e => rfl
      | ok r =>
        simp only [emap_ok, ebind_ok, hD.2 l]
        cases h2 : Info.encode_entries l tl with
        | error e => rfl
        | ok ents => simp

/-- `KeymapJSONEncoder.encode` on a non-empty dict, through `encode_entries`
of the whole dict. -/
theorem keymap_encode_dict_cons (l : Nat) (k : String) (v : Value) (tl : VDict) :
    Keymap.encode l (.vdict (.cons k v tl)) =
      (Keymap.encode_entries (l + 1) (.cons k v tl)).map
        (fun ents => .pstr (dictExpanded (Keymap.sort_dict (l + 1)) l ents)) := by
  simp only [Keymap.encode, Keymap.encode_entries]
  cases h1 : Keymap.encode (l + 1) v with
  | error e => rfl
  | ok r =>
    simp only [ebind_ok]
    cases h2 : Keymap.encode_entries (l + 1) tl with
    | error e => rfl
    | ok ents => simp

/-- The per-value line rendering of `encode_entriesS` at level `l`. -/
def entryLine (l : Nat) (kv : String × PyRet) : String × String :=
  (kv.1, indent_str l ++ jsonQuote kv.1 ++ ": " ++ kv.2.fstr)

/-- The stateful Keymap encoder equals the pure one and restores the
indentation counter: the heart of claim C9 for `KeymapJSONEncoder`. -/
theorem keymap_encodeS_eq : ∀ (v : Value) (l : Nat),
    Keymap.encodeS v l = (Keymap.encode l v).map (fun r => (r, l)) := by
  have H := mutualIndV
    (P := fun v =>
      (∀ l, Keymap.encodeS v l = (Keymap.encode l v).map (fun r => (r, l))) ∧
      (∀ kvs, v = .vdict kvs →
        ∀ l, Keymap.encode_entriesS kvs l = (Keymap.encode_entries l kvs).map
          (fun ents => (ents.map (entryLine l), l))))
    (Q := fun xs =>
      (∀ l, Keymap.encode_elemsS xs l = (Keymap.encode_elems l xs).map (fun rs => (rs, l))) ∧
      (∀ l, Keymap.encode_linesS xs l =
        ((Keymap.encode_elems l xs) >>= fun rs => buildLines (indent_str l) rs).map
          (fun lines => (lines, l))) ∧
      (∀ l, Keymap.split_rowsS xs l =
        (Keymap.split_rows l xs).map (fun rows => (rows, l))))
    (R := fun kvs =>
      ∀ l, Keymap.encode_entriesS kvs l = (Keymap.encode_entries l kvs).map
        (fun ents => (ents.map (entryLine l), l)))
    ⟨fun _ => rfl, fun kvs h => by cases h⟩
    (fun b => ⟨fun _ => rfl, fun kvs h => by cases h⟩)
    (fun s => ⟨fun _ => rfl, fun kvs h => by cases h⟩)
    (fun n => ⟨fun _ => rfl, fun kvs h => by cases h⟩)
    (fun m e => ⟨fun _ => rfl, fun kvs h => by cases h⟩)
    (fun num den => ⟨fun _ => rfl, fun kvs h => by cases h⟩)
    ?hlist ?hdict ?hnl ?hcl ?hnd ?hcd
  · exact fun v => (H v).1
  case hlist =>
    intro xs hL
    refine ⟨?_, fun kvs h => by cases h⟩
    intro l
    by_cases h2l : l = 2
    · subst h2l
      simp only [Keymap.encodeS, Keymap.encode, if_pos rfl, hL.2.2 2]
      cases h1 : Keymap.split_rows 2 xs with
      | error e => rfl
      | ok rows => simp [rowsAssemble]
    · by_cases hprim : primitives_only_list xs
      · simp only [Keymap.encodeS, Keymap.encode, if_neg h2l, if_pos hprim, hL.1 l]
        cases h1 : Keymap.encode_elems l xs with
        | error e => rfl
        | ok rs =>
          simp only [emap_ok, ebind_ok]
          cases h2 : pyJoin ", " rs with
          | error e => simp [listInline, h2]
          | ok body => simp [listInline, h2]
      · simp only [Keymap.encodeS, Keymap.encode, if_neg h2l, if_neg hprim, hL.2.1 (l + 1)]
        cases h1 : Keymap.encode_elems (l + 1) xs with
        | error e => rfl
        | ok rs =>
          simp only [emap_ok, ebind_ok]
          cases h2 : buildLines (indent_str (l + 1)) rs with
          | error e =>
            simp only [listExpanded, h2]
            rfl
          | ok lines =>
            simp only [listExpanded, h2]
            simp
  case hdict =>
    intro kvs hD
    refine ⟨?_, fun kvs' h => by cases h; exact hD⟩
    intro l
    cases kvs with
    | nil => rfl
    | cons k v tl =>
      rw [keymap_encode_dict_cons l k v tl]
      simp only [Keymap.encodeS, hD (l + 1)]
      cases h1 : Keymap.encode_entries (l + 1) (.cons k v tl) with
      | error e => rfl
      | ok ents =>
        simp only [emap_ok, ebind_ok]
        rw [show entryLine (l + 1) = (fun kv =>
            (kv.1, indent_str (l + 1) ++ jsonQuote kv.1 ++ ": " ++ kv.2.fstr)) from rfl,
          sortPairs_map_snd (Keymap.sort_dict (l + 1))
            (fun kv => indent_str (l + 1) ++ jsonQuote kv.1 ++ ": " ++ kv.2.fstr) ents,
          List.map_map]
        simp [dictExpanded, Function.comp_def]
  case hnl => exact ⟨fun _ => rfl, fun _ => rfl, fun _ => rfl⟩
  case hcl =>
    intro v tl hV hL
    refine ⟨?_, ?_, ?_⟩
    · intro l
      simp only [Keymap.encode_elemsS, Keymap.encode_elems, hV.1 l]
      cases h1 : Keymap.encode l v with
      | error e => rfl
      | ok r =>
        simp only [emap_ok, ebind_ok, hL.1 l]
        cases h2 : Keymap.encode_elems l tl with
        | error e => rfl
        | ok rs => simp
    · intro l
      simp only [Keymap.encode_linesS, Keymap.encode_elems, hV.1 l]
      cases h1 : Keymap.encode l v with
      | error e => rfl
      | ok r =>
        simp only [emap_ok, ebind_ok, hL.2.1 l]
        cases h2 : r.asStr with
        | error e =>
          cases h3 : Keymap.encode_elems l tl with
          | error e2 => cases e; cases e2; simp [buildLines, h2]
          | ok rs => simp [buildLines, h2]
        | ok s =>
          cases h3 : Keymap.encode_elems l tl with
          | error e => simp [buildLines, h2]
          | ok rs =>
            simp only [emap_ok, ebind_ok, buildLines, h2]
            cases h4 : buildLines (indent_str l) rs with
            | error e => rfl
            | ok lines => simp
    · intro l
      by_cases hsent : v = .vstr "JSON_NEWLINE"
      · subst hsent
        rw [show Keymap.split_rowsS (.cons (.vstr "JSON_NEWLINE") tl) l = (do
            let (rs, l') ← Keymap.split_rowsS tl l
            Except.ok (([] : List String) :: rs, l')) from rfl]
        rw [show Keymap.split_rows l (.cons (.vstr "JSON_NEWLINE") tl) = (do
            let rs ← Keymap.split_rows l tl
            Except.ok (([] : List String) :: rs)) from rfl]
        rw [hL.2.2 l]
        cases h1 : Keymap.split_rows l tl with
        | error e => rfl
        | ok rows => simp
      · cases v with
        | vdict kvs =>
          cases kvs with
          | nil =>
            simp only [Keymap.split_rowsS, Keymap.split_rows, if_neg hsent, hL.2.2 l]
            cases h1 : Keymap.split_rows l tl with
            | error e => rfl
            | ok rows => cases rows <;> simp
          | cons k w wtl =>
            simp only [Keymap.split_rowsS, Keymap.split_rows, if_neg hsent,
              hV.2 (.cons k w wtl) rfl (l + 1)]
            rw [show Keymap.encode_entries (l + 1) (.cons k w wtl) =
              (do
                let r ← Keymap.encode (l + 1) w
                let ents ← Keymap.encode_entries (l + 1) wtl
                Except.ok ((k, r) :: ents)) from rfl]
            cases h1 : Keymap.encode (l + 1) w with
            | error e => rfl
            | ok r =>
              simp only [emap_ok, ebind_ok]
              cases h2 : Keymap.encode_entries (l + 1) wtl with
              | error e => rfl
              | ok ents =>
                simp only [emap_ok, ebind_ok, Nat.add_sub_cancel, hL.2.2 l]
                cases h3 : Keymap.split_rows l tl with
                | error e => rfl
                | ok rows =>
                  simp only [emap_ok, ebind_ok]
                  rw [show entryLine (l + 1) = (fun kv =>
                      (kv.1, indent_str (l + 1) ++ jsonQuote kv.1 ++ ": " ++ kv.2.fstr)) from rfl,
                    sortPairs_map_snd (Keymap.sort_dict (l + 1))
                      (fun kv => indent_str (l + 1) ++ jsonQuote kv.1 ++ ": " ++ kv.2.fstr)
                      ((k, r) :: ents),
                    List.map_map]
                  cases rows <;> simp [dictExpanded, Function.comp_def]
        | vnull =>
          simp only [Keymap.split_rowsS, Keymap.split_rows, if_neg hsent, hL.2.2 l]
          cases h1 : Keymap.split_rows l tl with
          | error e => rfl
          | ok rows => cases rows <;> simp
        | vbool b =>
          simp only [Keymap.split_rowsS, Keymap.split_rows, if_neg hsent, hL.2.2 l]
          cases h1 : Keymap.split_rows l tl with
          | error e => rfl
          | ok rows => cases rows <;> simp
        | vstr s =>
          simp only [Keymap.split_rowsS, Keymap.split_rows, if_neg hsent, hL.2.2 l]
          cases h1 : Keymap.split_rows l tl with
          | error e => rfl
          | ok rows => cases rows <;> simp
        | vint n =>
          simp only [Keymap.split_rowsS, Keymap.split_rows, if_neg hsent, hL.2.2 l]
          cases h1 : Keymap.split_rows l tl with
          | error e => rfl
          | ok rows => cases rows <;> simp
        | vdec m e =>
          simp only [Keymap.split_rowsS, Keymap.split_rows, if_neg hsent, hL.2.2 l]
          cases h1 : Keymap.split_rows l tl with
          | error e2 => rfl
          | ok rows => cases rows <;> simp
        | vfloat num den =>
          simp only [Keymap.split_rowsS, Keymap.split_rows, if_neg hsent, hL.2.2 l]
          cases h1 : Keymap.split_rows l tl with
          | error e => rfl
          | ok rows => cases rows <;> simp
        | vlist ys =>
          simp only [Keymap.split_rowsS, Keymap.split_rows, if_neg hsent, hL.2.2 l]
          cases h1 : Keymap.split_rows l tl with
          | error e => rfl
          | ok rows => cases rows <;> simp
  case hnd => exact fun _ => rfl
  case hcd =>
    intro k v tl hV hD l
    simp only [Keymap.encode_entriesS, Keymap.encode_entries, hV.1 l]
    cases h1 : Keymap.encode l v with
    | error e => rfl
    | ok r =>
      simp only [emap_ok, ebind_ok, hD l]
      cases h2 : Keymap.encode_entries l tl with
      | error e => rfl
      | ok ents => simp [entryLine]

/-- C9 (confirmed): for every container at every nesting depth, in both
schema printers, the indentation counter after a successful encode equals
its value before the call — every increment around recursive descent is
matched by a decrement, so depth never leaks across sibling calls.  (The
stateful encoders `Info.encodeS`/`Keymap.encodeS` thread
`self.indentation_level` exactly as the source mutates it.) -/
theorem c9_indentation_balanced :
    (∀ (v : Value) (l : Nat) (r : PyRet) (lfin : Nat),
      Info.encodeS v l = .ok (r, lfin) → lfin = l) ∧
    (∀ (v : Value) (l : Nat) (r : PyRet) (lfin : Nat),
      Keymap.encodeS v l = .ok (r, lfin) → lfin = l) := by
  constructor <;> intro v l r lfin h
  · rw [info_encodeS_eq v l] at h
    cases he : Info.encode l v with
    | error e => rw [he] at h; cases h
    | ok r₀ =>
      rw [he] at h
      simp only [emap_ok] at h
      injection h with hpair
      injection hpair with h1 h2
      exact h2.symm
  · rw [keymap_encodeS_eq v l] at h
    cases he : Keymap.encode l v with
    | error e => rw [he] at h; cases h
    | ok r₀ =>
      rw [he] at h
      simp only [emap_ok] at h
      injection h with hpair
      injection hpair with h1 h2
      exact h2.symm

theorem c9_indentation_balanced_witness : (0 : Nat) = 0 ∧ (0 : Nat) = 0 :=
  ⟨c9_indentation_balanced.1
      (.vdict (vdictOf [("a", .vlist (vlistOf [.vint 1, .vlist .nil]))])) 0
      (.pstr "\x7b\n    \"a\": [\n        1,\n        []\n    ]\n\x7d") 0 (by decide),
   c9_indentation_balanced.2
      (.vdict (vdictOf [("layers",
        .vlist (vlistOf [.vlist (vlistOf
          [.vstr "KC_A", .vstr "JSON_NEWLINE", .vstr "KC_B"])]))])) 0
      (.pstr ("\x7b\n    \"layers\": [\n                [\n" ++
        "                        \"KC_A\"\n                        \"KC_B\"\n" ++
        "                ]\n    ]\n\x7d")) 0 (by decide)⟩

/-! ## Claim C6: counterexample -/

/-- C6 (corrected), counterexample: scalar elements inside a keymap layer's
row-grouped sequence are *not* rendered by standard JSON rules — the code
wraps Python `str()` of the element in bare quotes (`f'"\x7bkey\x7d"'`).  A
string containing a quote is emitted unescaped (invalid JSON), and a
boolean/null element is emitted as the quoted Python literal `"True"` /
`"None"` instead of `true` / `null`. -/
theorem c6_row_rendering_counterexample :
    Keymap.encode_list 2 (vlistOf [.vstr "a\"b"]) =
      .ok ("        [\n                        \"a\"b\"\n                ]") ∧
    jsonQuote "a\"b" = "\"a\\\"b\"" ∧
    ("        [\n                        \"a\"b\"\n                ]") ≠
      ("        [\n                        \"a\\\"b\"\n                ]") ∧
    Keymap.encode_list 2 (vlistOf [.vbool true, .vnull]) =
      .ok ("        [\n                        \"True\", \"None\"\n                ]") ∧
    std_scalar (.vbool true) = "true" ∧ std_scalar .vnull = "null" := by
  decide

/-! ## Claim C7: counterexample -/

set_option maxRecDepth 400000 in
/-- C7 (corrected), counterexample: a non-whole `Decimal` is passed through
`float(obj)` (binary64), so the decimals `0.500000000000000000000000000001`
and `0.5` — distinct arbitrary-precision values — produce byte-identical
output `0.5`; the rendering therefore cannot be a representation that
round-trips to the same arbitrary-precision value.  Moreover at the root a
whole `Decimal` makes `encode` return the bare Python `int` 2, not text. -/
theorem c7_decimal_rendering_counterexample :
    Info.encode 0 (.vdict (vdictOf [("k", .vdec 500000000000000000000000000001 30)])) =
      .ok (.pstr "\x7b\n    \"k\": 0.5\n\x7d") ∧
    Info.encode 0 (.vdict (vdictOf [("k", .vdec 5 1)])) =
      .ok (.pstr "\x7b\n    \"k\": 0.5\n\x7d") ∧
    (Q.mk 500000000000000000000000000001 (10 ^ 30)).eqv (Q.mk 5 10) = false ∧
    Info.encode 0 (.vdec 20 1) = .ok (.pint 2) := by
  decide

/-! ## Decoding the printed text: whitespace and numbers -/

theorem skipWs_cons_not (c : Char) (cs : List Char) (h : wsChar c = false) :
    skipWs (c :: cs) = c :: cs := by
  simp [skipWs, h]

theorem skipWs_append_ws (w : List Char) (hw : w.all wsChar = true) (t : List Char) :
    skipWs (w ++ t) = skipWs t := by
  induction w with
  | nil => rfl
  | cons c cs ih =>
    simp only [List.all_cons, Bool.and_eq_true] at hw
    simpa [skipWs, hw.1] using ih hw.2

theorem skipWs_length : ∀ cs : List Char, (skipWs cs).length ≤ cs.length := by
  intro cs
  induction cs with
  | nil => simp [skipWs]
  | cons c cs ih =>
    by_cases h : wsChar c = true <;> simp [skipWs, h] <;> omega

theorem parseV_ws_lead (w : List Char) (hw : w.all wsChar = true) (fuel : Nat)
    (cs : List Char) : parseV fuel (w ++ cs) = parseV fuel cs := by
  cases fuel with
  | zero => rfl
  | succ f => simp only [parseV, skipWs_append_ws w hw]

theorem stopTok_ws (c : Char) (t : List Char) (h : wsChar c = true) :
    stopTok (c :: t) = true := by
  simp only [wsChar, Bool.or_eq_true, decide_eq_true_eq] at h
  rcases h with ((h | h) | h) | h <;> subst h <;> rfl

theorem stopTok_facts (c : Char) (t : List Char) (h : stopTok (c :: t) = true) :
    c.isDigit = false ∧ c ≠ '.' ∧ c ≠ 'e' ∧ c ≠ 'E' ∧ c ≠ '+' ∧ c ≠ '-' := by
  simp only [stopTok, Bool.not_eq_true', Bool.or_eq_false_iff, decide_eq_false_iff_not] at h
  exact ⟨h.1.1.1.1.1, h.1.1.1.1.2, h.1.1.1.2, h.1.1.2, h.1.2, h.2⟩

theorem stopTok_head_not_digit (rest : List Char) (h : stopTok rest = true) :
    rest.head?.all (fun c => !c.isDigit) = true := by
  cases rest with
  | nil => rfl
  | cons c t =>
    simp only [List.head?_cons, Option.all_some, Bool.not_eq_true']
    exact (stopTok_facts c t h).1

theorem digit_of_range (c : Char) (h1 : 48 ≤ c.toNat) (h2 : c.toNat ≤ 57) :
    c.isDigit = true := by
  simp only [Char.isDigit, Bool.and_eq_true, decide_eq_true_eq, Char.le_def]
  exact ⟨h1, h2⟩

theorem digit_range (c : Char) (h : c.isDigit = true) : 48 ≤ c.toNat ∧ c.toNat ≤ 57 := by
  simp only [Char.isDigit, Bool.and_eq_true, decide_eq_true_eq, Char.le_def] at h
  exact h

theorem char_eq_of_toNat (c d : Char) (h : c.toNat = d.toNat) : c = d :=
  Char.ext (by exact UInt32.toNat.inj h)

theorem takeDigits_exact : ∀ (ds rest : List Char), (∀ c ∈ ds, c.isDigit = true) →
    rest.head?.all (fun c => !c.isDigit) = true →
    takeDigits (ds ++ rest) = (ds, rest) := by
  intro ds
  induction ds with
  | nil =>
    intro rest _ hr
    cases rest with
    | nil => rfl
    | cons c t =>
      simp only [List.head?_cons, Option.all_some, Bool.not_eq_true'] at hr
      simp [takeDigits, hr]
  | cons d ds ih =>
    intro rest hds hr
    have hd : d.isDigit = true := hds d (by simp)
    simp only [List.cons_append, takeDigits, hd, if_true, List.append_eq]
    rw [ih rest (fun c hc => hds c (by simp [hc])) hr]

theorem digitsToNat_append : ∀ (xs ys : List Char) (a : Nat),
    digitsToNat (xs ++ ys) a = digitsToNat ys (digitsToNat xs a) := by
  intro xs
  induction xs with
  | nil => intro ys a; rfl
  | cons c cs ih => intro ys a; simp [digitsToNat, ih]

theorem natDigitsAux_acc : ∀ (fuel n : Nat) (acc : List Char),
    natDigitsAux fuel n acc = natDigitsAux fuel n [] ++ acc := by
  intro fuel
  induction fuel with
  | zero => intro n acc; rfl
  | succ f ih =>
    intro n acc
    by_cases h : n < 10
    · simp [natDigitsAux, h]
    · simp only [natDigitsAux, h, if_false]
      rw [ih (n / 10) (digitChar (n % 10) :: acc), ih (n / 10) [digitChar (n % 10)]]
      simp

theorem natDigitsAux_val : ∀ (fuel n : Nat), n < fuel →
    digitsToNat (natDigitsAux fuel n []) 0 = n := by
  intro fuel
  induction fuel with
  | zero => intro n h; omega
  | succ f ih =>
    intro n h
    by_cases h10 : n < 10
    · simp only [natDigitsAux, h10, if_true, digitsToNat]
      rw [digitChar_toNat n h10]
      omega
    · have hlt : n / 10 < n := Nat.div_lt_self (by omega) (by omega)
      simp only [natDigitsAux, h10, if_false]
      rw [natDigitsAux_acc f (n / 10) [digitChar (n % 10)], digitsToNat_append,
        ih (n / 10) (by omega)]
      simp only [digitsToNat]
      rw [digitChar_toNat (n % 10) (Nat.mod_lt n (by omega))]
      omega

theorem natDigitsAux_cons : ∀ (fuel n : Nat) (acc : List Char), n < fuel →
    ∃ d tl, natDigitsAux fuel n acc = d :: tl ∧ 48 ≤ d.toNat ∧ d.toNat ≤ 57 ∧
      (0 < n → d.toNat ≠ 48) := by
  intro fuel
  induction fuel with
  | zero => intro n acc h; omega
  | succ f ih =>
    intro n acc h
    by_cases h10 : n < 10
    · refine ⟨digitChar n, acc, by simp [natDigitsAux, h10], ?_, ?_, ?_⟩ <;>
        rw [digitChar_toNat n h10] <;> omega
    · have hlt : n / 10 < n := Nat.div_lt_self (by omega) (by omega)
      obtain ⟨d, tl, hd, h1, h2, h3⟩ :=
        ih (n / 10) (digitChar (n % 10) :: acc) (by omega)
      exact ⟨d, tl, by simp only [natDigitsAux, h10, if_false]; exact hd, h1, h2,
        fun _ => h3 (by omega)⟩

theorem natDigits_digits (n : Nat) : ∀ c ∈ natDigits n, c.isDigit = true :=
  fun c hc => digit_of_range c (natRepr_mem n c hc).1 (natRepr_mem n c hc).2

theorem parseNum_natPart (m : Nat) (rest : List Char) (hstop : stopTok rest = true) :
    takeDigits (natDigits m ++ rest) = (natDigits m, rest) :=
  takeDigits_exact (natDigits m) rest (natDigits_digits m) (stopTok_head_not_digit rest hstop)

theorem parseFrac_stop (neg : Bool) (ival : Nat) (rest : List Char)
    (hstop : stopTok rest = true) :
    parseFrac neg ival rest =
      some (.vint (if neg then -(ival : Int) else (ival : Int)), rest) := by
  cases rest with
  | nil => rfl
  | cons c t =>
    obtain ⟨_, hdot, he, hE, _, _⟩ := stopTok_facts c t hstop
    simp only [parseFrac, if_neg hdot, parseExpPart]
    rw [if_neg (by tauto : ¬(c = 'e' ∨ c = 'E'))]
    simp

theorem parseNum_intRepr (n : Int) (rest : List Char) (hstop : stopTok rest = true) :
    parseNum ((intRepr n).data ++ rest) = some (.vint n, rest) := by
  cases n with
  | ofNat m =>
    obtain ⟨d, tl, hd, h48, h57, hz⟩ := natDigitsAux_cons (m + 1) m [] (by omega)
    have hdd : natDigits m = d :: tl := hd
    have hneg : d ≠ '-' := by intro he; subst he; revert h48; decide
    have hguard : ¬(d = '0' ∧ tl ≠ []) := by
      rcases Nat.eq_zero_or_pos m with hm | hm
      · subst hm
        have h0 : natDigits 0 = ['0'] := rfl
        rw [h0] at hdd
        injection hdd with h1 h2
        intro hc
        exact hc.2 h2.symm
      · intro hc
        exact hz hm (by rw [hc.1]; rfl)
    have hrd : (intRepr (Int.ofNat m)).data = natDigits m := rfl
    rw [hrd, hdd, List.cons_append, parseNum]
    simp only [decide_eq_false hneg, if_neg hneg, ← List.cons_append, ← hdd,
      parseNum_natPart m rest hstop]
    rw [hdd]
    simp only [if_neg hguard, ← hdd]
    rw [show digitsToNat (natDigits m) 0 = m from natDigitsAux_val (m + 1) m (by omega),
      parseFrac_stop false m rest hstop]
    rfl
  | negSucc m =>
    obtain ⟨d, tl, hd, h48, h57, hz⟩ := natDigitsAux_cons (m + 2) (m + 1) [] (by omega)
    have hdd : natDigits (m + 1) = d :: tl := hd
    have hguard : ¬(d = '0' ∧ tl ≠ []) := by
      intro hc
      exact hz (by omega) (by rw [hc.1]; rfl)
    have hdata : (intRepr (Int.negSucc m)).data = '-' :: natDigits (m + 1) := rfl
    rw [hdata, List.cons_append, parseNum]
    simp only [eq_self_iff_true, if_true, decide_True, parseNum_natPart (m + 1) rest hstop]
    rw [hdd]
    simp only [if_neg hguard, ← hdd]
    rw [show digitsToNat (natDigits (m + 1)) 0 = m + 1 from
      natDigitsAux_val (m + 2) (m + 1) (by omega),
      parseFrac_stop true (m + 1) rest hstop]
    have hval : -((m + 1 : Nat) : Int) = Int.negSucc m := by
      rw [Int.negSucc_eq]
      push_cast
      ring
    simp only [if_true, hval]

theorem parseV_head_num (d : Char) (tl : List Char) (f : Nat)
    (hd : d.toNat = 45 ∨ (48 ≤ d.toNat ∧ d.toNat ≤ 57)) :
    parseV (f + 1) (d :: tl) = parseNum (d :: tl) := by
  have hws : wsChar d = false := by
    simp only [wsChar, Bool.or_eq_false_iff, decide_eq_false_iff_not]
    refine ⟨⟨⟨?_, ?_⟩, ?_⟩, ?_⟩ <;> intro he <;> subst he <;> revert hd <;> decide
  have hn : d ≠ 'n' := by intro he; subst he; revert hd; decide
  have ht : d ≠ 't' := by intro he; subst he; revert hd; decide
  have hf2 : d ≠ 'f' := by intro he; subst he; revert hd; decide
  have hq : d ≠ '"' := by intro he; subst he; revert hd; decide
  have hlb : d ≠ '[' := by intro he; subst he; revert hd; decide
  have hcb : d ≠ '\x7b' := by intro he; subst he; revert hd; decide
  have hnum : d = '-' ∨ d.isDigit = true := by
    rcases hd with h | h
    · exact Or.inl (char_eq_of_toNat d '-' (by rw [h]; rfl))
    · exact Or.inr (digit_of_range d h.1 h.2)
  simp only [parseV, skipWs_cons_not d tl hws, if_neg hn, if_neg ht, if_neg hf2,
    if_neg hq, if_neg hlb, if_neg hcb, if_pos hnum]

theorem parseV_intRepr (n : Int) (rest : List Char) (f : Nat) (hstop : stopTok rest = true) :
    parseV (f + 1) ((intRepr n).data ++ rest) = some (.vint n, rest) := by
  have hhead : ∃ d tl, (intRepr n).data = d :: tl ∧
      (d.toNat = 45 ∨ (48 ≤ d.toNat ∧ d.toNat ≤ 57)) := by
    cases n with
    | ofNat m =>
      obtain ⟨d, tl, hd, h48, h57, _⟩ := natDigitsAux_cons (m + 1) m [] (by omega)
      exact ⟨d, tl, hd, Or.inr ⟨h48, h57⟩⟩
    | negSucc m => exact ⟨'-', natDigits (m + 1), rfl, Or.inl rfl⟩
  obtain ⟨d, tl, hdt, hd⟩ := hhead
  rw [hdt, List.cons_append, parseV_head_num d (tl ++ rest) f hd, ← List.cons_append, ← hdt,
    parseNum_intRepr n rest hstop]

/-! ## Decoding the printed text: strings -/

theorem hexDig_hexChar (k : Nat) (h : k < 16) : isHexDig (hexChar k) = true := by
  interval_cases k <;> decide

theorem hexDigVal_hexChar (k : Nat) (h : k < 16) : hexDigVal (hexChar k) = k := by
  interval_cases k <;> decide

theorem hexQuad_hex4 (m : Nat) (hm : m < 65536) :
    hexQuad (hexChar (m / 4096 % 16)) (hexChar (m / 256 % 16)) (hexChar (m / 16 % 16))
      (hexChar (m % 16)) = some m := by
  have e1 := hexDig_hexChar (m / 4096 % 16) (Nat.mod_lt _ (by norm_num))
  have e2 := hexDig_hexChar (m / 256 % 16) (Nat.mod_lt _ (by norm_num))
  have e3 := hexDig_hexChar (m / 16 % 16) (Nat.mod_lt _ (by norm_num))
  have e4 := hexDig_hexChar (m % 16) (Nat.mod_lt _ (by norm_num))
  have v1 := hexDigVal_hexChar (m / 4096 % 16) (Nat.mod_lt _ (by norm_num))
  have v2 := hexDigVal_hexChar (m / 256 % 16) (Nat.mod_lt _ (by norm_num))
  have v3 := hexDigVal_hexChar (m / 16 % 16) (Nat.mod_lt _ (by norm_num))
  have v4 := hexDigVal_hexChar (m % 16) (Nat.mod_lt _ (by norm_num))
  rw [hexQuad, if_pos ⟨e1, e2, e3, e4⟩, v1, v2, v3, v4]
  congr 1
  omega

theorem strUnit_u_pair_step (x y : Nat) (tl : List Char) :
    strUnit ('\\' :: 'u' :: (hex4 x ++ ('\\' :: 'u' :: (hex4 y ++ tl)))) =
      (match hexQuad (hexChar (x / 4096 % 16)) (hexChar (x / 256 % 16))
          (hexChar (x / 16 % 16)) (hexChar (x % 16)) with
        | none => none
        | some n =>
          if 55296 ≤ n ∧ n ≤ 56319 then
            match hexQuad (hexChar (y / 4096 % 16)) (hexChar (y / 256 % 16))
                (hexChar (y / 16 % 16)) (hexChar (y % 16)) with
            | none => none
            | some m =>
              if 56320 ≤ m ∧ m ≤ 57343 then
                some (.chr (Char.ofNat (65536 + (n - 55296) * 1024 + (m - 56320))), tl)
              else none
          else if 56320 ≤ n ∧ n ≤ 57343 then none
          else some (.chr (Char.ofNat n), '\\' :: 'u' :: (hex4 y ++ tl))) := by
  simp only [hex4, List.cons_append, List.nil_append]
  rfl

theorem strUnit_u_pair (x y : Nat) (tl : List Char) (n m : Nat)
    (hx : hexQuad (hexChar (x / 4096 % 16)) (hexChar (x / 256 % 16))
      (hexChar (x / 16 % 16)) (hexChar (x % 16)) = some n)
    (hn : 55296 ≤ n ∧ n ≤ 56319)
    (hy : hexQuad (hexChar (y / 4096 % 16)) (hexChar (y / 256 % 16))
      (hexChar (y / 16 % 16)) (hexChar (y % 16)) = some m)
    (hm : 56320 ≤ m ∧ m ≤ 57343) :
    strUnit ('\\' :: 'u' :: (hex4 x ++ ('\\' :: 'u' :: (hex4 y ++ tl)))) =
      some (.chr (Char.ofNat (65536 + (n - 55296) * 1024 + (m - 56320))), tl) := by
  simp only [strUnit_u_pair_step, hx, hy]
  rw [if_pos hn, if_pos hm]

theorem strUnit_escChar (c : Char) (tl : List Char) :
    strUnit (escChar c ++ tl) = some (.chr c, tl) := by
  by_cases h1 : c = '"'
  · subst h1; rfl
  by_cases h2 : c = '\\'
  · subst h2; rfl
  by_cases h3 : c = '\n'
  · subst h3; rfl
  by_cases h4 : c = '\r'
  · subst h4; rfl
  by_cases h5 : c = '\t'
  · subst h5; rfl
  by_cases h6 : c.toNat = 8
  · have hc : c = Char.ofNat 8 := char_eq_of_toNat c _ (by rw [h6]; rfl)
    subst hc; rfl
  by_cases h7 : c.toNat = 12
  · have hc : c = Char.ofNat 12 := char_eq_of_toNat c _ (by rw [h7]; rfl)
    subst hc; rfl
  by_cases h8 : c.toNat < 32 ∨ 126 < c.toNat
  · have hb : (decide (c.toNat < 32) || decide (126 < c.toNat)) = true := by
      rcases h8 with h | h <;> simp [h]
    have hval : c.toNat < 55296 ∨ (57343 < c.toNat ∧ c.toNat < 1114112) := by
      have hv := c.valid
      rcases hv with h | ⟨ha, hb2⟩
      · exact Or.inl h
      · exact Or.inr ⟨ha, hb2⟩
    by_cases h9 : c.toNat < 65536
    · rw [show escChar c = '\\' :: 'u' :: hex4 c.toNat by
        simp only [escChar, if_neg h1, if_neg h2, if_neg h3, if_neg h4,
          if_neg h5, if_neg h6, if_neg h7, hb, if_true, if_pos h9]]
      simp only [hex4, List.cons_append, List.nil_append]
      simp only [strUnit, reduceIte, hexQuad_hex4 c.toNat h9]
      rw [if_neg (by omega : ¬(55296 ≤ c.toNat ∧ c.toNat ≤ 56319)),
        if_neg (by omega : ¬(56320 ≤ c.toNat ∧ c.toNat ≤ 57343)), Char.ofNat_toNat,
        if_neg (by decide : ¬('\\' : Char) = '"')]
    · rw [show escChar c = ('\\' :: 'u' :: hex4 (55296 + (c.toNat - 65536) / 1024))
          ++ ('\\' :: 'u' :: hex4 (56320 + (c.toNat - 65536) % 1024)) by
        simp only [escChar, if_neg h1, if_neg h2, if_neg h3, if_neg h4,
          if_neg h5, if_neg h6, if_neg h7, hb, if_true, if_neg h9]]
      have hv2 : c.toNat - 65536 < 1048576 := by omega
      rw [show (('\\' :: 'u' :: hex4 (55296 + (c.toNat - 65536) / 1024))
          ++ ('\\' :: 'u' :: hex4 (56320 + (c.toNat - 65536) % 1024))) ++ tl =
          '\\' :: 'u' :: (hex4 (55296 + (c.toNat - 65536) / 1024)
          ++ ('\\' :: 'u' :: (hex4 (56320 + (c.toNat - 65536) % 1024) ++ tl))) by
        simp [List.cons_append, List.append_assoc]]
      rw [strUnit_u_pair _ _ tl _ _
        (hexQuad_hex4 (55296 + (c.toNat - 65536) / 1024) (by omega)) (by omega)
        (hexQuad_hex4 (56320 + (c.toNat - 65536) % 1024) (by omega)) (by omega)]
      rw [show 65536 + (55296 + (c.toNat - 65536) / 1024 - 55296) * 1024 +
          (56320 + (c.toNat - 65536) % 1024 - 56320) = c.toNat by omega, Char.ofNat_toNat]
  · push_neg at h8
    rw [show escChar c = [c] by
      simp only [escChar, if_neg h1, if_neg h2, if_neg h3, if_neg h4,
        if_neg h5, if_neg h6, if_neg h7]
      rw [if_neg (by simp; omega)]]
    rw [List.singleton_append]
    simp only [strUnit]
    rw [if_neg h1, if_neg h2, if_neg (by omega : ¬c.toNat < 32)]

theorem escChar_ne_nil (c : Char) : 1 ≤ (escChar c).length := by
  simp only [escChar]
  split_ifs <;> simp [hex4]

theorem flatten_escChar_len (cs : List Char) :
    cs.length ≤ ((cs.map escChar).flatten).length := by
  induction cs with
  | nil => simp
  | cons c cs ih =>
    simp only [List.map_cons, List.flatten_cons, List.length_append, List.length_cons]
    have := escChar_ne_nil c
    omega

theorem parseStrN_jsonQuote (cs : List Char) : ∀ (fuel : Nat) (tl : List Char),
    cs.length + 1 ≤ fuel →
    parseStrN fuel ((cs.map escChar).flatten ++ '"' :: tl) = some (cs, tl) := by
  induction cs with
  | nil =>
    intro fuel tl hf
    obtain ⟨f, rfl⟩ : ∃ f, fuel = f + 1 := ⟨fuel - 1, by omega⟩
    simp only [List.map_nil, List.flatten_nil, List.nil_append]
    rfl
  | cons c cs ih =>
    intro fuel tl hf
    obtain ⟨f, rfl⟩ : ∃ f, fuel = f + 1 := ⟨fuel - 1, by omega⟩
    simp only [List.map_cons, List.flatten_cons, List.append_assoc]
    simp only [parseStrN, strUnit_escChar]
    rw [ih f tl (by simp at hf; omega)]

theorem parseStr_jsonQuote (cs : List Char) (tl : List Char) :
    parseStr ((cs.map escChar).flatten ++ '"' :: tl) = some (cs, tl) := by
  rw [parseStr]
  apply parseStrN_jsonQuote
  have := flatten_escChar_len cs
  simp only [List.length_append, List.length_cons]
  omega

theorem parseV_vstr (s : String) (tl : List Char) (f : Nat) :
    parseV (f + 1) ((jsonQuote s).data ++ tl) = some (.vstr s, tl) := by
  have hd : (jsonQuote s).data = '"' :: ((s.data.map escChar).flatten ++ ['"']) := rfl
  rw [hd, List.cons_append, List.append_assoc, List.singleton_append]
  rw [show parseV (f + 1) ('"' :: ((s.data.map escChar).flatten ++ '"' :: tl)) =
      match parseStr ((s.data.map escChar).flatten ++ '"' :: tl) with
      | some p => some (.vstr ⟨p.1⟩, p.2)
      | none => none by
    simp only [parseV, skipWs_cons_not '"' _ (by rfl)]
    rw [if_neg (by decide : ¬('"' : Char) = 'n'), if_neg (by decide : ¬('"' : Char) = 't'),
      if_neg (by decide : ¬('"' : Char) = 'f'), if_pos trivial]]
  rw [parseStr_jsonQuote s.data tl]

theorem parseV_vnull (tl : List Char) (f : Nat) :
    parseV (f + 1) ("null".data ++ tl) = some (.vnull, tl) := by
  rw [show ("null".data ++ tl) = 'n' :: 'u' :: 'l' :: 'l' :: tl from rfl]
  simp only [parseV, skipWs_cons_not 'n' _ (by rfl)]
  rw [if_pos trivial]

theorem parseV_vbool (b : Bool) (tl : List Char) (f : Nat) :
    parseV (f + 1) ((std_scalar (.vbool b)).data ++ tl) = some (.vbool b, tl) := by
  cases b
  · rw [show ((std_scalar (.vbool false)).data ++ tl) =
      'f' :: 'a' :: 'l' :: 's' :: 'e' :: tl from rfl]
    simp only [parseV, skipWs_cons_not 'f' _ (by rfl)]
    rw [if_neg (by decide : ¬('f' : Char) = 'n'), if_neg (by decide : ¬('f' : Char) = 't'),
      if_pos trivial]
  · rw [show ((std_scalar (.vbool true)).data ++ tl) = 't' :: 'r' :: 'u' :: 'e' :: tl from rfl]
    simp only [parseV, skipWs_cons_not 't' _ (by rfl)]
    rw [if_neg (by decide : ¬('t' : Char) = 'n'), if_pos trivial]

/-! ## The parser consumes input: fuel `2·length + 2` always suffices -/

theorem strUnit_len : ∀ (cs : List Char) (tok : StrTok) (rest : List Char),
    strUnit cs = some (tok, rest) → rest.length < cs.length := by
  intro cs tok rest h
  cases cs with
  | nil => simp [strUnit] at h
  | cons c cs =>
    simp only [strUnit] at h
    repeat' split at h
    all_goals
      first
        | (simp only [Option.some.injEq, Prod.mk.injEq] at h
           obtain ⟨h1, h2⟩ := h
           subst h2
           simp only [List.length_cons]
           omega)
        | simp at h

theorem parseStrN_len : ∀ (fuel : Nat) (cs out rest : List Char),
    parseStrN fuel cs = some (out, rest) → rest.length < cs.length := by
  intro fuel
  induction fuel with
  | zero => intro cs out rest h; simp [parseStrN] at h
  | succ f ih =>
    intro cs out rest h
    rw [parseStrN] at h
    cases hu : strUnit cs with
    | none => rw [hu] at h; simp at h
    | some p =>
      obtain ⟨tok, r1⟩ := p
      rw [hu] at h
      cases tok with
      | close =>
        have h2 : some (([] : List Char), r1) = some (out, rest) := h
        simp only [Option.some.injEq, Prod.mk.injEq] at h2
        obtain ⟨h3, h4⟩ := h2
        subst h4
        exact strUnit_len cs _ _ hu
      | chr ch =>
        have h2 : (match parseStrN f r1 with
            | some p => some (ch :: p.1, p.2)
            | none => none) = some (out, rest) := h
        cases hp : parseStrN f r1 with
        | none => rw [hp] at h2; simp at h2
        | some q =>
          rw [hp] at h2
          have h3 : some (ch :: q.1, q.2) = some (out, rest) := h2
          simp only [Option.some.injEq, Prod.mk.injEq] at h3
          obtain ⟨h4, h5⟩ := h3
          subst h5
          have t1 := ih r1 q.1 q.2 (by rw [hp])
          have t2 := strUnit_len cs _ _ hu
          omega

theorem parseStr_len (cs out rest : List Char) (h : parseStr cs = some (out, rest)) :
    rest.length < cs.length :=
  parseStrN_len _ _ _ _ h

theorem takeDigits_len : ∀ cs : List Char,
    (takeDigits cs).1.length + (takeDigits cs).2.length = cs.length := by
  intro cs
  induction cs with
  | nil => rfl
  | cons c cs ih =>
    by_cases h : c.isDigit = true <;> simp [takeDigits, h] <;> omega

theorem expDigitsCore_len (neg : Bool) (ival : Nat) (frac : List Char) (epos : Bool)
    (cs0 : List Char) (v : Value) (rest : List Char)
    (h : (match (takeDigits cs0).1 with
          | [] => none
          | e0 :: etl => some (mkFloat neg ival frac epos (digitsToNat (e0 :: etl) 0),
              (takeDigits cs0).2)) = some (v, rest)) :
    rest.length ≤ cs0.length ∧ sizeV v = 1 := by
  cases hds : (takeDigits cs0).1 with
  | nil => rw [hds] at h; simp at h
  | cons e0 etl =>
    rw [hds] at h
    have h2 : some (mkFloat neg ival frac epos (digitsToNat (e0 :: etl) 0),
        (takeDigits cs0).2) = some (v, rest) := h
    simp only [Option.some.injEq, Prod.mk.injEq] at h2
    obtain ⟨h3, h4⟩ := h2
    subst h4
    have := takeDigits_len cs0
    refine ⟨by omega, ?_⟩
    rw [← h3]
    simp [mkFloat, sizeV]

theorem parseExpDigits_len (neg : Bool) (ival : Nat) (frac : List Char) (cs : List Char)
    (v : Value) (rest : List Char) (h : parseExpDigits neg ival frac cs = some (v, rest)) :
    rest.length ≤ cs.length ∧ sizeV v = 1 := by
  cases cs with
  | nil => exact expDigitsCore_len neg ival frac (!false) [] v rest h
  | cons c t =>
    simp only [parseExpDigits] at h
    by_cases h1 : c = '-' ∨ c = '+'
    · rw [if_pos h1] at h
      have := expDigitsCore_len neg ival frac (!decide (c = '-')) t v rest h
      simp only [List.length_cons]
      exact ⟨by omega, this.2⟩
    · rw [if_neg h1] at h
      exact expDigitsCore_len neg ival frac (!decide (c = '-')) (c :: t) v rest h

theorem parseExpPart_len (isF neg : Bool) (ival : Nat) (frac : List Char) (cs : List Char)
    (v : Value) (rest : List Char) (h : parseExpPart isF neg ival frac cs = some (v, rest)) :
    rest.length ≤ cs.length ∧ sizeV v = 1 := by
  cases cs with
  | nil =>
    simp only [parseExpPart] at h
    split at h <;>
      (simp only [Option.some.injEq, Prod.mk.injEq] at h
       obtain ⟨h1, h2⟩ := h
       subst h2
       refine ⟨by simp, ?_⟩
       rw [← h1]
       simp [mkFloat, sizeV])
  | cons c t =>
    simp only [parseExpPart] at h
    split at h
    · have := parseExpDigits_len neg ival frac t v rest h
      simp only [List.length_cons]
      omega
    · split at h <;>
        (simp only [Option.some.injEq, Prod.mk.injEq] at h
         obtain ⟨h1, h2⟩ := h
         subst h2
         refine ⟨by simp, ?_⟩
         rw [← h1]
         simp [mkFloat, sizeV])

theorem parseFrac_len (neg : Bool) (ival : Nat) (cs : List Char) (v : Value)
    (rest : List Char) (h : parseFrac neg ival cs = some (v, rest)) :
    rest.length ≤ cs.length ∧ sizeV v = 1 := by
  cases cs with
  | nil => exact parseExpPart_len false neg ival [] [] v rest h
  | cons c t =>
    simp only [parseFrac] at h
    split at h
    · split at h
      · simp at h
      · have := parseExpPart_len true neg ival _ (takeDigits t).2 v rest (by
          rename_i heq
          exact heq ▸ h)
        have := takeDigits_len t
        simp only [List.length_cons]
        omega
    · exact parseExpPart_len _ _ _ _ _ _ _ h

theorem parseNum_len (cs : List Char) (v : Value) (rest : List Char)
    (h : parseNum cs = some (v, rest)) :
    rest.length < cs.length ∧ sizeV v = 1 := by
  cases cs with
  | nil => simp [parseNum] at h
  | cons c t =>
    simp only [parseNum] at h
    split at h
    · simp at h
    · rename_i d0 dtl hds
      split at h
      · simp at h
      · by_cases hm : c = '-'
        · rw [if_pos hm] at h
          have hf := parseFrac_len _ _ _ _ _ h
          have ht := takeDigits_len t
          rw [if_pos hm] at hds
          have hlen : (takeDigits t).1.length = dtl.length + 1 := by rw [hds]; simp
          simp only [List.length_cons]
          omega
        · rw [if_neg hm] at h
          have hf := parseFrac_len _ _ _ _ _ h
          have ht := takeDigits_len (c :: t)
          rw [if_neg hm] at hds
          have hlen : (takeDigits (c :: t)).1.length = dtl.length + 1 := by rw [hds]; simp
          simp only [List.length_cons] at ht ⊢
          omega

/-- Any successful parse output has size bounded by twice the consumed
input, so `decode`'s fuel `2·length + 2` dominates the recursion depth. -/
theorem parse_size : ∀ fuel : Nat,
    (∀ cs v rest, parseV fuel cs = some (v, rest) →
      sizeV v ≤ 2 * (cs.length - rest.length) ∧ rest.length ≤ cs.length) ∧
    (∀ cs vs rest, parseElems fuel cs = some (vs, rest) →
      sizeL vs + 1 ≤ 2 * (cs.length - rest.length) ∧ rest.length ≤ cs.length) ∧
    (∀ cs kvs rest, parseMembers fuel cs = some (kvs, rest) →
      sizeD kvs + 1 ≤ 2 * (cs.length - rest.length) ∧ rest.length ≤ cs.length) := by
  intro fuel
  induction fuel with
  | zero =>
    refine ⟨?_, ?_, ?_⟩ <;> intro cs x rest h <;>
      simp [parseV, parseElems, parseMembers] at h
  | succ f ih =>
    obtain ⟨ihV, ihE, ihM⟩ := ih
    refine ⟨?_, ?_, ?_⟩
    · intro cs v rest h
      rw [parseV] at h
      split at h
      · simp at h
      · rename_i c r hsk
        have hl : r.length + 1 ≤ cs.length := by
          have := skipWs_length cs
          rw [hsk] at this
          simpa using this
        by_cases hn : c = 'n'
        · rw [if_pos hn] at h
          split at h
          · simp only [Option.some.injEq, Prod.mk.injEq] at h
            obtain ⟨h1, h2⟩ := h
            subst h1
            subst h2
            rename_i rr _
            simp only [sizeV, List.length_cons] at *
            omega
          · simp at h
        · rw [if_neg hn] at h
          by_cases ht : c = 't'
          · rw [if_pos ht] at h
            split at h
            · simp only [Option.some.injEq, Prod.mk.injEq] at h
              obtain ⟨h1, h2⟩ := h
              subst h1
              subst h2
              simp only [sizeV, List.length_cons] at *
              omega
            · simp at h
          · rw [if_neg ht] at h
            by_cases hf2 : c = 'f'
            · rw [if_pos hf2] at h
              split at h
              · simp only [Option.some.injEq, Prod.mk.injEq] at h
                obtain ⟨h1, h2⟩ := h
                subst h1
                subst h2
                simp only [sizeV, List.length_cons] at *
                omega
              · simp at h
            · rw [if_neg hf2] at h
              by_cases hq : c = '"'
              · rw [if_pos hq] at h
                split at h
                · rename_i p hps
                  simp only [Option.some.injEq, Prod.mk.injEq] at h
                  obtain ⟨h1, h2⟩ := h
                  subst h1
                  subst h2
                  have := parseStr_len r p.1 p.2 (by rw [hps])
                  simp only [sizeV, List.length_cons] at *
                  omega
                · simp at h
              · rw [if_neg hq] at h
                by_cases hlb : c = '['
                · rw [if_pos hlb] at h
                  split at h
                  · simp at h
                  · rename_i d r2 hsk2
                    have hl2 : r2.length + 1 ≤ r.length := by
                      have := skipWs_length r
                      rw [hsk2] at this
                      simpa using this
                    by_cases hd : d = ']'
                    · rw [if_pos hd] at h
                      simp only [Option.some.injEq, Prod.mk.injEq] at h
                      obtain ⟨h1, h2⟩ := h
                      subst h1
                      subst h2
                      simp only [sizeV, sizeL, List.length_cons] at *
                      omega
                    · rw [if_neg hd] at h
                      split at h
                      · rename_i v1 r3 hv1
                        split at h
                        · rename_i vs1 r4 he1
                          simp only [Option.some.injEq, Prod.mk.injEq] at h
                          obtain ⟨h1, h2⟩ := h
                          subst h1
                          subst h2
                          have t1 := ihV (d :: r2) v1 r3 (by rw [hv1])
                          have t2 := ihE r3 vs1 r4 (by rw [he1])
                          simp only [sizeV, sizeL, List.length_cons] at *
                          omega
                        · simp at h
                      · simp at h
                · rw [if_neg hlb] at h
                  by_cases hcb : c = '\x7b'
                  · rw [if_pos hcb] at h
                    split at h
                    · simp at h
                    · rename_i d r2 hsk2
                      have hl2 : r2.length + 1 ≤ r.length := by
                        have := skipWs_length r
                        rw [hsk2] at this
                        simpa using this
                      by_cases hd : d = '\x7d'
                      · rw [if_pos hd] at h
                        simp only [Option.some.injEq, Prod.mk.injEq] at h
                        obtain ⟨h1, h2⟩ := h
                        subst h1
                        subst h2
                        simp only [sizeV, sizeD, List.length_cons] at *
                        omega
                      · rw [if_neg hd] at h
                        by_cases hdq : d = '"'
                        · rw [if_pos hdq] at h
                          split at h
                          · rename_i kp hps
                            have hk := parseStr_len r2 kp.1 kp.2 (by rw [hps])
                            split at h
                            · rename_i r3 hsk3
                              have hl3 : r3.length + 1 ≤ kp.2.length := by
                                have := skipWs_length kp.2
                                rw [hsk3] at this
                                simpa using this
                              split at h
                              · rename_i v1 r4 hv1
                                split at h
                                · rename_i kvs1 r5 hm1
                                  simp only [Option.some.injEq, Prod.mk.injEq] at h
                                  obtain ⟨h1, h2⟩ := h
                                  subst h1
                                  subst h2
                                  have t1 := ihV r3 v1 r4 (by rw [hv1])
                                  have t2 := ihM r4 kvs1 r5 (by rw [hm1])
                                  simp only [sizeV, sizeD, List.length_cons] at *
                                  omega
                                · simp at h
                              · simp at h
                            · simp at h
                          · simp at h
                        · rw [if_neg hdq] at h
                          simp at h
                  · rw [if_neg hcb] at h
                    by_cases hnum : c = '-' ∨ c.isDigit = true
                    · rw [if_pos hnum] at h
                      have := parseNum_len (c :: r) v rest h
                      simp only [List.length_cons] at *
                      omega
                    · rw [if_neg hnum] at h
                      simp at h
    · intro cs vs rest h
      rw [parseElems] at h
      split at h
      · simp at h
      · rename_i c r hsk
        have hl : r.length + 1 ≤ cs.length := by
          have := skipWs_length cs
          rw [hsk] at this
          simpa using this
        by_cases hrb : c = ']'
        · rw [if_pos hrb] at h
          simp only [Option.some.injEq, Prod.mk.injEq] at h
          obtain ⟨h1, h2⟩ := h
          subst h1
          subst h2
          simp only [sizeL] at *
          omega
        · rw [if_neg hrb] at h
          by_cases hc : c = ','
          · rw [if_pos hc] at h
            split at h
            · rename_i v1 r1 hv1
              split at h
              · rename_i vs1 r2e he1
                simp only [Option.some.injEq, Prod.mk.injEq] at h
                obtain ⟨h1, h2⟩ := h
                subst h1
                subst h2
                have t1 := ihV r v1 r1 (by rw [hv1])
                have t2 := ihE r1 vs1 r2e (by rw [he1])
                simp only [sizeL, List.length_cons] at *
                omega
              · simp at h
            · simp at h
          · rw [if_neg hc] at h
            simp at h
    · intro cs kvs rest h
      rw [parseMembers] at h
      split at h
      · simp at h
      · rename_i c r hsk
        have hl : r.length + 1 ≤ cs.length := by
          have := skipWs_length cs
          rw [hsk] at this
          simpa using this
        by_cases hrb : c = '\x7d'
        · rw [if_pos hrb] at h
          simp only [Option.some.injEq, Prod.mk.injEq] at h
          obtain ⟨h1, h2⟩ := h
          subst h1
          subst h2
          simp only [sizeD] at *
          omega
        · rw [if_neg hrb] at h
          by_cases hc : c = ','
          · rw [if_pos hc] at h
            split at h
            · rename_i r1 hsk2
              have hl2 : r1.length + 1 ≤ r.length := by
                have := skipWs_length r
                rw [hsk2] at this
                simpa using this
              split at h
              · rename_i kp hps
                have hk := parseStr_len r1 kp.1 kp.2 (by rw [hps])
                split at h
                · rename_i r3 hsk3
                  have hl3 : r3.length + 1 ≤ kp.2.length := by
                    have := skipWs_length kp.2
                    rw [hsk3] at this
                    simpa using this
                  split at h
                  · rename_i v1 r4 hv1
                    split at h
                    · rename_i kvs1 r5 hm1
                      simp only [Option.some.injEq, Prod.mk.injEq] at h
                      obtain ⟨h1, h2⟩ := h
                      subst h1
                      subst h2
                      have t1 := ihV r3 v1 r4 (by rw [hv1])
                      have t2 := ihM r4 kvs1 r5 (by rw [hm1])
                      simp only [sizeD, List.length_cons] at *
                      omega
                    · simp at h
                  · simp at h
                · simp at h
              · simp at h
            · simp at h
          · rw [if_neg hc] at h
            simp at h

/-! ## Round-trip of the Config-Document Printer: infrastructure -/

/-- The per-value round-trip property at every level: on good input, a
successful encode parses back — in any continuation that cannot extend a
number literal — to the normalised value. -/
def RTV (v : Value) : Prop :=
  ∀ (l : Nat) (r : PyRet), goodV v = true → Info.encode l v = .ok r →
    ∀ (rest : List Char) (fuel : Nat), stopTok rest = true →
      sizeV (normV l v) ≤ fuel →
      parseV fuel (r.fstr.data ++ rest) = some (normV l v, rest)

theorem toList_vdictOf : ∀ ps : List (String × Value), (vdictOf ps).toList = ps := by
  intro ps
  induction ps with
  | nil => rfl
  | cons p tl ih => cases p; simp [vdictOf, VDict.toList, ih]

theorem normD_toList (l : Nat) : ∀ kvs : VDict,
    (normD l kvs).toList = kvs.toList.map (fun kv => (kv.1, normV l kv.2)) := by
  intro kvs
  induction kvs using VDict.indOnD with
  | hnil => rfl
  | hcons k v tl ih => simp [normD, VDict.toList, ih]

theorem sizeD_vdictOf : ∀ ps : List (String × Value),
    sizeD (vdictOf ps) = (ps.map (fun kv => sizeV kv.2 + 1)).sum := by
  intro ps
  induction ps with
  | nil => rfl
  | cons p tl ih => cases p; simp [vdictOf, sizeD, ih]; omega

theorem encode_elems_eq (l : Nat) : ∀ (xs : VList) (rs : List PyRet),
    Info.encode_elems l xs = .ok rs →
    rs = xs.toList.map (fun v => getOk (Info.encode l v)) ∧
    ∀ v ∈ xs.toList, Info.encode l v = .ok (getOk (Info.encode l v)) := by
  intro xs
  induction xs using VList.indOnL with
  | hnil =>
    intro rs h
    simp only [Info.encode_elems] at h
    injection h with h1
    subst h1
    exact ⟨rfl, by simp [VList.toList]⟩
  | hcons v tl ih =>
    intro rs h
    rw [Info.encode_elems] at h
    cases hv : Info.encode l v with
    | error e => rw [hv] at h; exact absurd h (by simp)
    | ok r =>
      rw [hv] at h
      rw [ebind_ok] at h
      cases he : Info.encode_elems l tl with
      | error e => rw [he] at h; exact absurd h (by simp)
      | ok rs2 =>
        rw [he] at h
        rw [ebind_ok] at h
        injection h with h1
        subst h1
        obtain ⟨ih1, ih2⟩ := ih rs2 he
        refine ⟨?_, ?_⟩
        · rw [ih1]
          simp [VList.toList, hv, getOk]
        · intro w hw
          rcases List.mem_cons.mp hw with rfl | hw2
          · rw [hv]; rfl
          · exact ih2 w hw2

theorem encode_entries_eq (l : Nat) : ∀ (kvs : VDict) (ents : List (String × PyRet)),
    Info.encode_entries l kvs = .ok ents →
    ents = kvs.toList.map (fun kv => (kv.1, getOk (Info.encode l kv.2))) ∧
    ∀ kv ∈ kvs.toList, Info.encode l kv.2 = .ok (getOk (Info.encode l kv.2)) := by
  intro kvs
  induction kvs using VDict.indOnD with
  | hnil =>
    intro ents h
    simp only [Info.encode_entries] at h
    injection h with h1
    subst h1
    exact ⟨rfl, by simp [VDict.toList]⟩
  | hcons k v tl ih =>
    intro ents h
    rw [Info.encode_entries] at h
    cases hv : Info.encode l v with
    | error e => rw [hv] at h; exact absurd h (by simp)
    | ok r =>
      rw [hv] at h
      rw [ebind_ok] at h
      cases he : Info.encode_entries l tl with
      | error e => rw [he] at h; exact absurd h (by simp)
      | ok rs2 =>
        rw [he] at h
        rw [ebind_ok] at h
        injection h with h1
        subst h1
        obtain ⟨ih1, ih2⟩ := ih rs2 he
        refine ⟨?_, ?_⟩
        · rw [ih1]
          simp [VDict.toList, hv, getOk]
        · intro kv hkv
          rcases List.mem_cons.mp hkv with rfl | hkv2
          · rw [hv]; rfl
          · exact ih2 kv hkv2

theorem pyJoin_ok_pstr (sep : String) : ∀ (rs : List PyRet) (body : String),
    pyJoin sep rs = .ok body → ∃ ss : List String, rs = ss.map .pstr := by
  intro rs
  induction rs with
  | nil => intro body _; exact ⟨[], rfl⟩
  | cons r tl ih =>
    intro body h
    cases tl with
    | nil =>
      cases r with
      | pstr s => exact ⟨[s], rfl⟩
      | pint n => exact absurd h (by simp [pyJoin, PyRet.asStr])
      | pfloat q => exact absurd h (by simp [pyJoin, PyRet.asStr])
    | cons r2 tl2 =>
      cases r with
      | pint n => exact absurd h (by simp [pyJoin, PyRet.asStr])
      | pfloat q => exact absurd h (by simp [pyJoin, PyRet.asStr])
      | pstr s =>
        have h2 : (PyRet.asStr (.pstr s) >>= fun s0 =>
            pyJoin sep (r2 :: tl2) >>= fun tlb => Except.ok (s0 ++ sep ++ tlb)) =
            Except.ok body := h
        rw [PyRet.asStr, ebind_ok] at h2
        cases hj : pyJoin sep (r2 :: tl2) with
        | error e => rw [hj] at h2; exact absurd h2 (by simp)
        | ok body2 =>
          obtain ⟨ss, hss⟩ := ih body2 hj
          exact ⟨s :: ss, by simp [hss]⟩

theorem buildLines_ok_pstr (ind : String) : ∀ (rs : List PyRet) (lines : List String),
    buildLines ind rs = .ok lines → ∃ ss : List String, rs = ss.map .pstr := by
  intro rs
  induction rs with
  | nil => intro lines _; exact ⟨[], rfl⟩
  | cons r tl ih =>
    intro lines h
    rw [buildLines] at h
    cases r with
    | pint n => exact absurd h (by simp [PyRet.asStr])
    | pfloat q => exact absurd h (by simp [PyRet.asStr])
    | pstr s =>
      rw [PyRet.asStr, ebind_ok] at h
      cases hb : buildLines ind tl with
      | error e => rw [hb] at h; exact absurd h (by simp)
      | ok lines2 =>
        obtain ⟨ss, hss⟩ := ih lines2 hb
        exact ⟨s :: ss, by simp [hss]⟩

theorem intercalate_data (sep : String) : ∀ (s : String) (ss : List String),
    (String.intercalate sep (s :: ss)).data =
      s.data ++ (ss.map (fun t => sep.data ++ t.data)).flatten := by
  intro s ss
  induction ss generalizing s with
  | nil => simp [show String.intercalate sep [s] = s from rfl]
  | cons b tl ih =>
    rw [intercalate_cons sep s (b :: tl) (by simp)]
    simp only [String.data_append, List.map_cons, List.flatten_cons, ih b]
    simp [List.append_assoc]

theorem stopTok_chunks (b : Char) (hb : stopTok [b] = true) :
    ∀ (chunks : List (List Char)) (closew : List Char), closew.all wsChar = true →
    (∀ ch ∈ chunks, ∃ t, ch = ',' :: t) →
    ∀ rest : List Char,
      stopTok (chunks.flatten ++ (closew ++ b :: rest)) = true := by
  intro chunks closew hclose hch rest
  cases chunks with
  | nil =>
    simp only [List.flatten_nil, List.nil_append]
    cases closew with
    | nil =>
      simp only [List.nil_append]
      simpa [stopTok] using hb
    | cons w ws =>
      simp only [List.all_cons, Bool.and_eq_true] at hclose
      exact stopTok_ws w _ hclose.1
  | cons ch chs =>
    obtain ⟨t, ht⟩ := hch ch (by simp)
    subst ht
    simp only [List.flatten_cons, List.cons_append]
    rfl

theorem parse_elems_block (l : Nat) (sepw : List Char) (hsep : sepw.all wsChar = true)
    (closew : List Char) (hclose : closew.all wsChar = true) :
    ∀ (xs : VList) (ss : List String),
      (∀ v ∈ xs.toList, RTV v) → goodL xs = true →
      Info.encode_elems l xs = .ok (ss.map .pstr) →
      ∀ (rest : List Char) (fuel : Nat), stopTok rest = true →
        sizeL (normL l xs) + 1 ≤ fuel →
        parseElems fuel
          ((ss.map (fun t => (',' :: sepw) ++ t.data)).flatten ++ (closew ++ ']' :: rest)) =
          some (normL l xs, rest) := by
  intro xs
  induction xs using VList.indOnL with
  | hnil =>
    intro ss hrt hg he rest fuel hstop hfuel
    have hss : ss = [] := by
      cases ss with
      | nil => rfl
      | cons a tl =>
        rw [show Info.encode_elems l .nil = .ok [] from rfl] at he
        injection he with h1
        exact absurd h1 (by simp)
    subst hss
    obtain ⟨f, rfl⟩ : ∃ f, fuel = f + 1 := ⟨fuel - 1, by omega⟩
    simp only [List.map_nil, List.flatten_nil, List.nil_append]
    simp only [parseElems, skipWs_append_ws closew hclose, skipWs_cons_not ']' _ (by rfl)]
    rw [if_pos trivial]
    rfl
  | hcons v tl ih =>
    intro ss hrt hg he rest fuel hstop hfuel
    rw [Info.encode_elems] at he
    cases hv : Info.encode l v with
    | error e => rw [hv] at he; exact absurd he (by simp)
    | ok r =>
      rw [hv, ebind_ok] at he
      cases he2 : Info.encode_elems l tl with
      | error e => rw [he2] at he; exact absurd he (by simp)
      | ok rs =>
        rw [he2, ebind_ok] at he
        injection he with he3
        cases ss with
        | nil => exact absurd he3 (by simp)
        | cons s0 ss2 =>
          simp only [List.map_cons, List.cons.injEq] at he3
          obtain ⟨hr, hrs⟩ := he3
          subst hr
          subst hrs
          simp only [goodL, Bool.and_eq_true] at hg
          simp only [normL, sizeL] at hfuel ⊢
          obtain ⟨f, rfl⟩ : ∃ f, fuel = f + 1 := ⟨fuel - 1, by omega⟩
          simp only [List.map_cons, List.flatten_cons, List.cons_append, List.append_assoc]
          simp only [parseElems, skipWs_cons_not ',' _ (by rfl)]
          rw [if_neg (by decide : ¬(',' : Char) = ']'), if_pos trivial]
          have hstop2 : stopTok ((ss2.map (fun t => (',' :: sepw) ++ t.data)).flatten ++
              (closew ++ ']' :: rest)) = true := by
            apply stopTok_chunks ']' (by rfl) _ closew hclose _ rest
            intro ch hch
            simp only [List.mem_map] at hch
            obtain ⟨t, _, rfl⟩ := hch
            exact ⟨sepw ++ t.data, by simp⟩
          have hvP := hrt v (by simp [VList.toList]) l (.pstr s0) hg.1 hv
            ((ss2.map (fun t => (',' :: sepw) ++ t.data)).flatten ++ (closew ++ ']' :: rest))
            f hstop2 (by omega)
          have hIH := ih ss2 (fun w hw => hrt w (by simp [VList.toList, hw])) hg.2 he2
            rest f hstop (by omega)
          rw [parseV_ws_lead sepw hsep f _]
          simp only [PyRet.fstr, List.cons_append] at hvP hIH
          simp only [hvP, hIH]

theorem parseV_sp (f : Nat) (cs : List Char) : parseV f (' ' :: cs) = parseV f cs :=
  parseV_ws_lead [' '] (by rfl) f cs

theorem parse_members_block (l : Nat) (sepw : List Char) (hsep : sepw.all wsChar = true)
    (closew : List Char) (hclose : closew.all wsChar = true) :
    ∀ (ts : List (String × Value × PyRet)),
      (∀ t ∈ ts, RTV t.2.1 ∧ goodV t.2.1 = true ∧ Info.encode l t.2.1 = .ok t.2.2) →
      ∀ (rest : List Char) (fuel : Nat), stopTok rest = true →
        (ts.map (fun t => sizeV (normV l t.2.1) + 1)).sum + 1 ≤ fuel →
        parseMembers fuel
          ((ts.map (fun t => (',' :: sepw) ++ ((jsonQuote t.1).data ++ ':' :: ' ' ::
            t.2.2.fstr.data))).flatten ++ (closew ++ '\x7d' :: rest)) =
          some (vdictOf (ts.map (fun t => (t.1, normV l t.2.1))), rest) := by
  intro ts
  induction ts with
  | nil =>
    intro hrt rest fuel hstop hfuel
    obtain ⟨f, rfl⟩ : ∃ f, fuel = f + 1 := ⟨fuel - 1, by omega⟩
    simp only [List.map_nil, List.flatten_nil, List.nil_append]
    simp only [parseMembers, skipWs_append_ws closew hclose, skipWs_cons_not '\x7d' _ (by rfl)]
    rw [if_pos trivial]
    rfl
  | cons t ts ih =>
    intro hrt rest fuel hstop hfuel
    obtain ⟨hrtv, hgv, hev⟩ := hrt t (by simp)
    simp only [List.map_cons, List.sum_cons] at hfuel
    obtain ⟨f, rfl⟩ : ∃ f, fuel = f + 1 := ⟨fuel - 1, by omega⟩
    simp only [List.map_cons, List.flatten_cons, List.cons_append, List.append_assoc]
    simp only [parseMembers, skipWs_cons_not ',' _ (by rfl)]
    rw [if_neg (by decide : ¬(',' : Char) = '\x7d'), if_pos trivial]
    rw [skipWs_append_ws sepw hsep]
    have hqd : (jsonQuote t.1).data = '"' :: ((t.1.data.map escChar).flatten ++ ['"']) := rfl
    rw [hqd]
    simp only [List.cons_append, List.append_assoc, List.singleton_append]
    rw [skipWs_cons_not '"' _ (by rfl)]
    have hstop2 : stopTok ((ts.map (fun t => (',' :: sepw) ++ ((jsonQuote t.1).data ++
        ':' :: ' ' :: t.2.2.fstr.data))).flatten ++ (closew ++ '\x7d' :: rest)) = true := by
      apply stopTok_chunks '\x7d' (by rfl) _ closew hclose _ rest
      intro ch hch
      simp only [List.mem_map] at hch
      obtain ⟨u, _, rfl⟩ := hch
      exact ⟨sepw ++ ((jsonQuote u.1).data ++ ':' :: ' ' :: u.2.2.fstr.data), by simp⟩
    have hkey := parseStr_jsonQuote t.1.data
      (':' :: ' ' :: (t.2.2.fstr.data ++ ((ts.map (fun t => (',' :: sepw) ++
        ((jsonQuote t.1).data ++ ':' :: ' ' :: t.2.2.fstr.data))).flatten ++
        (closew ++ '\x7d' :: rest))))
    have hvP := hrtv l t.2.2 hgv hev
      ((ts.map (fun t => (',' :: sepw) ++ ((jsonQuote t.1).data ++ ':' :: ' ' ::
        t.2.2.fstr.data))).flatten ++ (closew ++ '\x7d' :: rest)) f hstop2 (by omega)
    have hIH := ih (fun u hu => hrt u (by simp [hu])) rest f hstop (by omega)
    simp only [List.cons_append, List.append_assoc, List.nil_append] at hkey hvP hIH ⊢
    simp only [hkey]
    simp only [skipWs_cons_not ':' _ (by rfl)]
    simp only [parseV_sp, hvP, hIH]
    rfl

theorem num_head_facts (d : Char) (hd : d.toNat = 45 ∨ (48 ≤ d.toNat ∧ d.toNat ≤ 57)) :
    wsChar d = false ∧ d ≠ ']' ∧ d ≠ '\x7d' := by
  refine ⟨?_, ?_, ?_⟩
  · simp only [wsChar, Bool.or_eq_false_iff, decide_eq_false_iff_not]
    refine ⟨⟨⟨?_, ?_⟩, ?_⟩, ?_⟩ <;> intro he <;> subst he <;> revert hd <;> decide
  · intro he; subst he; revert hd; decide
  · intro he; subst he; revert hd; decide

theorem intRepr_head (n : Int) : ∃ d t, (intRepr n).data = d :: t ∧
    (d.toNat = 45 ∨ (48 ≤ d.toNat ∧ d.toNat ≤ 57)) := by
  cases n with
  | ofNat m =>
    obtain ⟨d, t, hd, h48, h57, _⟩ := natDigitsAux_cons (m + 1) m [] (by omega)
    exact ⟨d, t, hd, Or.inr ⟨h48, h57⟩⟩
  | negSucc m => exact ⟨'-', natDigits (m + 1), rfl, Or.inl rfl⟩

theorem string_lbrack : ∀ s : String, ("[" ++ s).data = '[' :: s.data := by
  intro s; rfl

theorem string_lbrace : ∀ s : String, ("\x7b" ++ s).data = '\x7b' :: s.data := by
  intro s; rfl

/-- The first character of any rendered good value: never whitespace, never
a closing bracket. -/
theorem encode_head (l : Nat) (v : Value) (r : PyRet) (hg : goodV v = true)
    (he : Info.encode l v = .ok r) :
    ∃ d t, r.fstr.data = d :: t ∧ wsChar d = false ∧ d ≠ ']' ∧ d ≠ '\x7d' := by
  cases v with
  | vnull =>
    rw [show Info.encode l .vnull = .ok (.pstr "null") from rfl] at he
    injection he with h1
    subst h1
    exact ⟨'n', _, rfl, by decide, by decide, by decide⟩
  | vbool b =>
    rw [show Info.encode l (.vbool b) = .ok (.pstr (std_scalar (.vbool b))) from rfl] at he
    injection he with h1
    subst h1
    cases b
    · exact ⟨'f', _, rfl, by decide, by decide, by decide⟩
    · exact ⟨'t', _, rfl, by decide, by decide, by decide⟩
  | vstr s =>
    rw [show Info.encode l (.vstr s) = .ok (.pstr (jsonQuote s)) from rfl] at he
    injection he with h1
    subst h1
    exact ⟨'"', _, rfl, by decide, by decide, by decide⟩
  | vint n =>
    rw [show Info.encode l (.vint n) = .ok (.pstr (intRepr n)) from rfl] at he
    injection he with h1
    subst h1
    obtain ⟨d, t, hd, hfacts⟩ := intRepr_head n
    obtain ⟨w1, w2, w3⟩ := num_head_facts d hfacts
    exact ⟨d, t, hd, w1, w2, w3⟩
  | vdec m e =>
    rw [show Info.encode l (.vdec m e) = .ok (encode_decimal m e) from rfl] at he
    injection he with h1
    subst h1
    rw [show goodV (.vdec m e) = (Q.mk m (10 ^ e)).isWhole from rfl] at hg
    rw [encode_decimal, if_pos hg]
    obtain ⟨d, t, hd, hfacts⟩ := intRepr_head (Q.mk m (10 ^ e)).trunc
    obtain ⟨w1, w2, w3⟩ := num_head_facts d hfacts
    exact ⟨d, t, hd, w1, w2, w3⟩
  | vfloat num den => exact absurd hg (by simp [goodV])
  | vlist xs =>
    rw [Info.encode] at he
    by_cases hprim : primitives_only_list xs = true
    · rw [if_pos hprim] at he
      cases hel : Info.encode_elems l xs with
      | error e => rw [hel] at he; exact absurd he (by simp)
      | ok rs =>
        rw [hel, ebind_ok] at he
        cases hli : listInline rs with
        | error e => rw [hli] at he; exact absurd he (by simp)
        | ok s =>
          rw [hli, ebind_ok] at he
          injection he with h1
          subst h1
          rw [listInline] at hli
          cases hpj : pyJoin ", " rs with
          | error e => rw [hpj] at hli; exact absurd hli (by simp)
          | ok body =>
            rw [hpj, ebind_ok] at hli
            injection hli with h2
            subst h2
            refine ⟨'[', (body ++ "]").data, ?_, by decide, by decide, by decide⟩
            rw [show ("[" ++ body ++ "]") = "[" ++ (body ++ "]") from
              (String.append_assoc _ _ _)]
            exact string_lbrack _
    · rw [if_neg hprim] at he
      cases hel : Info.encode_elems (l + 1) xs with
      | error e => rw [hel] at he; exact absurd he (by simp)
      | ok rs =>
        rw [hel, ebind_ok] at he
        cases hle : listExpanded l rs with
        | error e => rw [hle] at he; exact absurd he (by simp)
        | ok s =>
          rw [hle, ebind_ok] at he
          injection he with h1
          subst h1
          rw [listExpanded] at hle
          cases hbl : buildLines (indent_str (l + 1)) rs with
          | error e => rw [hbl] at hle; exact absurd hle (by simp)
          | ok lines =>
            rw [hbl, ebind_ok] at hle
            injection hle with h2
            subst h2
            exact ⟨'[', _, rfl, by decide, by decide, by decide⟩
  | vdict kvs =>
    cases kvs with
    | nil =>
      rw [show Info.encode l (.vdict .nil) = .ok (.pstr "\x7b\x7d") from rfl] at he
      injection he with h1
      subst h1
      exact ⟨'\x7b', _, rfl, by decide, by decide, by decide⟩
    | cons k v tl =>
      by_cases hl4 : l = 4
      · subst hl4
        rw [info_encode_dict_cons4] at he
        cases hen : Info.encode_entries 4 (.cons k v tl) with
        | error e => rw [hen] at he; exact absurd he (by simp)
        | ok ents =>
          rw [hen] at he
          injection he with h1
          subst h1
          exact ⟨'\x7b', _, rfl, by decide, by decide, by decide⟩
      · rw [info_encode_dict_cons l k v tl hl4] at he
        cases hen : Info.encode_entries (l + 1) (.cons k v tl) with
        | error e => rw [hen] at he; exact absurd he (by simp)
        | ok ents =>
          rw [hen] at he
          injection he with h1
          subst h1
          exact ⟨'\x7b', _, rfl, by decide, by decide, by decide⟩

theorem indent_ws (k : Nat) : (indent_str k).data.all wsChar = true := by
  simp only [indent_str, List.all_eq_true]
  intro c hc
  rw [List.eq_of_mem_replicate hc]
  rfl

theorem rtv_null : RTV .vnull := by
  intro l r hg he rest fuel hstop hfuel
  rw [show Info.encode l .vnull = .ok (.pstr "null") from rfl] at he
  injection he with h1
  subst h1
  rw [show sizeV (normV l .vnull) = 1 from rfl] at hfuel
  obtain ⟨f, rfl⟩ : ∃ f, fuel = f + 1 := ⟨fuel - 1, by omega⟩
  exact parseV_vnull rest f

theorem rtv_bool (b : Bool) : RTV (.vbool b) := by
  intro l r hg he rest fuel hstop hfuel
  rw [show Info.encode l (.vbool b) = .ok (.pstr (std_scalar (.vbool b))) from rfl] at he
  injection he with h1
  subst h1
  rw [show sizeV (normV l (.vbool b)) = 1 from rfl] at hfuel
  obtain ⟨f, rfl⟩ : ∃ f, fuel = f + 1 := ⟨fuel - 1, by omega⟩
  exact parseV_vbool b rest f

theorem rtv_str (s : String) : RTV (.vstr s) := by
  intro l r hg he rest fuel hstop hfuel
  rw [show Info.encode l (.vstr s) = .ok (.pstr (jsonQuote s)) from rfl] at he
  injection he with h1
  subst h1
  rw [show sizeV (normV l (.vstr s)) = 1 from rfl] at hfuel
  obtain ⟨f, rfl⟩ : ∃ f, fuel = f + 1 := ⟨fuel - 1, by omega⟩
  exact parseV_vstr s rest f

theorem rtv_int (n : Int) : RTV (.vint n) := by
  intro l r hg he rest fuel hstop hfuel
  rw [show Info.encode l (.vint n) = .ok (.pstr (intRepr n)) from rfl] at he
  injection he with h1
  subst h1
  rw [show sizeV (normV l (.vint n)) = 1 from rfl] at hfuel
  obtain ⟨f, rfl⟩ : ∃ f, fuel = f + 1 := ⟨fuel - 1, by omega⟩
  exact parseV_intRepr n rest f hstop

theorem rtv_dec (m : Int) (e : Nat) : RTV (.vdec m e) := by
  intro l r hg he rest fuel hstop hfuel
  rw [show goodV (.vdec m e) = (Q.mk m (10 ^ e)).isWhole from rfl] at hg
  rw [show Info.encode l (.vdec m e) = .ok (encode_decimal m e) from rfl] at he
  injection he with h1
  subst h1
  rw [encode_decimal, if_pos hg]
  rw [show normV l (.vdec m e) = if (Q.mk m (10 ^ e)).isWhole then
    .vint ((Q.mk m (10 ^ e)).trunc) else .vfloat (roundB64 ⟨m, 10 ^ e⟩).num
      (roundB64 ⟨m, 10 ^ e⟩).den from rfl] at hfuel ⊢
  rw [if_pos hg] at hfuel ⊢
  rw [show sizeV (.vint ((Q.mk m (10 ^ e)).trunc)) = 1 from rfl] at hfuel
  obtain ⟨f, rfl⟩ : ∃ f, fuel = f + 1 := ⟨fuel - 1, by omega⟩
  exact parseV_intRepr _ rest f hstop

theorem rtv_float (num : Int) (den : Nat) : RTV (.vfloat num den) := by
  intro l r hg
  exact absurd hg (by simp [goodV])

theorem skipWs_cons_ws (c : Char) (h : wsChar c = true) (t : List Char) :
    skipWs (c :: t) = skipWs t := by
  simp [skipWs, h]

theorem parseV_lbrack_step (f : Nat) (cs : List Char) :
    parseV (f + 1) ('[' :: cs) =
      (match skipWs cs with
      | [] => none
      | d :: r2 =>
        if d = ']' then some (.vlist .nil, r2)
        else
          match parseV f (d :: r2) with
          | some (v, r3) =>
            match parseElems f r3 with
            | some (vs, r4) => some (.vlist (.cons v vs), r4)
            | none => none
          | none => none) := by
  simp only [parseV, skipWs_cons_not '[' _ (by rfl)]
  rw [if_neg (by decide : ¬('[' : Char) = 'n'), if_neg (by decide : ¬('[' : Char) = 't'),
    if_neg (by decide : ¬('[' : Char) = 'f'), if_neg (by decide : ¬('[' : Char) = '"'),
    if_pos trivial]

theorem parseV_lbrace_step (f : Nat) (cs : List Char) :
    parseV (f + 1) ('\x7b' :: cs) =
      (match skipWs cs with
      | [] => none
      | d :: r2 =>
        if d = '\x7d' then some (.vdict .nil, r2)
        else if d = '"' then
          match parseStr r2 with
          | some kp =>
            match skipWs kp.2 with
            | ':' :: r3 =>
              match parseV f r3 with
              | some (v, r4) =>
                match parseMembers f r4 with
                | some (kvs, r5) => some (.vdict (.cons ⟨kp.1⟩ v kvs), r5)
                | none => none
              | none => none
            | _ => none
          | none => none
        else none) := by
  simp only [parseV, skipWs_cons_not '\x7b' _ (by rfl)]
  rw [if_neg (by decide : ¬('\x7b' : Char) = 'n'), if_neg (by decide : ¬('\x7b' : Char) = 't'),
    if_neg (by decide : ¬('\x7b' : Char) = 'f'), if_neg (by decide : ¬('\x7b' : Char) = '"'),
    if_neg (by decide : ¬('\x7b' : Char) = '['), if_pos trivial]

theorem goodD_values (kvs : VDict) (hg : goodD kvs = true) :
    ∀ kv ∈ kvs.toList, goodV kv.2 = true := by
  induction kvs using VDict.indOnD with
  | hnil => intro kv h; cases h
  | hcons k v tl ih =>
    intro kv hkv
    simp only [goodD, Bool.and_eq_true] at hg
    rcases List.mem_cons.mp hkv with rfl | h2
    · exact hg.1.2
    · exact ih hg.2 kv h2

/-- Parsing a whole rendered dict: opening brace, first `"key": value`, then
the remaining members as a `parse_members_block`. -/
theorem parse_dict_head (l' : Nat) (openw sepw closew : List Char)
    (hopen : openw.all wsChar = true) (hsep : sepw.all wsChar = true)
    (hclose : closew.all wsChar = true)
    (t0 : String × Value × PyRet) (ts : List (String × Value × PyRet))
    (hts : ∀ t ∈ t0 :: ts, RTV t.2.1 ∧ goodV t.2.1 = true ∧ Info.encode l' t.2.1 = .ok t.2.2) :
    ∀ (rest : List Char) (fuel : Nat), stopTok rest = true →
      ((t0 :: ts).map (fun t => sizeV (normV l' t.2.1) + 1)).sum + 1 ≤ fuel →
      parseV fuel ('\x7b' :: (openw ++ ((jsonQuote t0.1).data ++ ':' :: ' ' ::
        (t0.2.2.fstr.data ++
          ((ts.map (fun t => (',' :: sepw) ++ ((jsonQuote t.1).data ++ ':' :: ' ' ::
            t.2.2.fstr.data))).flatten ++ (closew ++ '\x7d' :: rest)))))) =
        some (.vdict (vdictOf ((t0 :: ts).map (fun t => (t.1, normV l' t.2.1)))), rest) := by
  intro rest fuel hstop hfuel
  obtain ⟨hrtv, hgv, hev⟩ := hts t0 (by simp)
  simp only [List.map_cons, List.sum_cons] at hfuel
  obtain ⟨f, rfl⟩ : ∃ f, fuel = f + 1 := ⟨fuel - 1, by omega⟩
  rw [parseV_lbrace_step]
  rw [skipWs_append_ws openw hopen]
  have hqd : (jsonQuote t0.1).data = '"' :: ((t0.1.data.map escChar).flatten ++ ['"']) := rfl
  rw [hqd]
  simp only [List.cons_append, List.append_assoc, List.singleton_append]
  have hstop2 : stopTok ((ts.map (fun t => (',' :: sepw) ++ ((jsonQuote t.1).data ++
      ':' :: ' ' :: t.2.2.fstr.data))).flatten ++ (closew ++ '\x7d' :: rest)) = true := by
    apply stopTok_chunks '\x7d' (by rfl) _ closew hclose _ rest
    intro ch hch
    simp only [List.mem_map] at hch
    obtain ⟨u, _, rfl⟩ := hch
    exact ⟨sepw ++ ((jsonQuote u.1).data ++ ':' :: ' ' :: u.2.2.fstr.data), by simp⟩
  have hkey := parseStr_jsonQuote t0.1.data
    (':' :: ' ' :: (t0.2.2.fstr.data ++ ((ts.map (fun t => (',' :: sepw) ++
      ((jsonQuote t.1).data ++ ':' :: ' ' :: t.2.2.fstr.data))).flatten ++
      (closew ++ '\x7d' :: rest))))
  have hvP := hrtv l' t0.2.2 hgv hev
    ((ts.map (fun t => (',' :: sepw) ++ ((jsonQuote t.1).data ++ ':' :: ' ' ::
      t.2.2.fstr.data))).flatten ++ (closew ++ '\x7d' :: rest)) f hstop2 (by omega)
  have hIH := parse_members_block l' sepw hsep closew hclose ts
    (fun u hu => hts u (by simp [hu])) rest f hstop (by omega)
  simp only [List.cons_append, List.append_assoc, List.nil_append] at hkey hvP hIH ⊢
  simp only [skipWs_cons_not '"' _ (by rfl)]
  rw [if_neg (by decide : ¬('"' : Char) = '\x7d'), if_pos trivial]
  simp only [hkey]
  simp only [skipWs_cons_not ':' _ (by rfl)]
  simp only [parseV_sp, hvP, hIH]
  rfl

/-- Sorting commutes with any transformation of the entries that keeps keys. -/
theorem sortPairs_map (rank : String → String) (f : String × α → String × β)
    (hf : ∀ kv, (f kv).1 = kv.1) (ents : List (String × α)) :
    sortPairs rank (ents.map f) = (sortPairs rank ents).map f := by
  rw [sortPairs, sortPairs]
  exact ssort_map _ _ f
    (fun a b => by
      show lexLe (rank (f a).1).data (rank (f b).1).data
        = lexLe (rank a.1).data (rank b.1).data
      rw [hf a, hf b]) ents

theorem rtv_list (xs : VList) (hxs : ∀ v ∈ xs.toList, RTV v) : RTV (.vlist xs) := by
  intro l r hg he rest fuel hstop hfuel
  rw [show goodV (.vlist xs) = goodL xs from rfl] at hg
  rw [Info.encode] at he
  by_cases hprim : primitives_only_list xs = true
  · rw [if_pos hprim] at he
    cases hel : Info.encode_elems l xs with
    | error e => rw [hel] at he; exact absurd he (by simp)
    | ok rs =>
    rw [hel, ebind_ok] at he
    cases hli : listInline rs with
    | error e => rw [hli] at he; exact absurd he (by simp)
    | ok s =>
    rw [hli, ebind_ok] at he
    injection he with h1
    subst h1
    rw [listInline] at hli
    cases hpj : pyJoin ", " rs with
    | error e => rw [hpj] at hli; exact absurd hli (by simp)
    | ok body =>
    rw [hpj, ebind_ok] at hli
    injection hli with h2
    subst h2
    obtain ⟨ss, rfl⟩ := pyJoin_ok_pstr ", " rs body hpj
    rw [pyJoin_pstr ", " ss] at hpj
    injection hpj with h3
    subst h3
    simp only [PyRet.fstr]
    simp only [normV] at hfuel ⊢
    rw [if_pos hprim] at hfuel ⊢
    cases xs with
    | nil =>
      have hss : ss = [] := by
        rw [show Info.encode_elems l .nil = .ok [] from rfl] at hel
        injection hel with h4
        cases ss with
        | nil => rfl
        | cons a tl => exact absurd h4 (by simp)
      subst hss
      rw [show sizeV (Value.vlist (normL l .nil)) = 2 from rfl] at hfuel
      obtain ⟨f, rfl⟩ : ∃ f, fuel = f + 1 := ⟨fuel - 1, by omega⟩
      rw [show ("[" ++ String.intercalate ", " [] ++ "]").data ++ rest
          = '[' :: ']' :: rest from rfl]
      simp only [parseV_lbrack_step, skipWs_cons_not ']' _ (by rfl)]
      rw [if_pos trivial]
      rfl
    | cons v tl =>
      rw [Info.encode_elems] at hel
      cases hv : Info.encode l v with
      | error e => rw [hv] at hel; exact absurd hel (by simp)
      | ok r0 =>
      rw [hv, ebind_ok] at hel
      cases he2 : Info.encode_elems l tl with
      | error e => rw [he2] at hel; exact absurd hel (by simp)
      | ok rs2 =>
      rw [he2, ebind_ok] at hel
      injection hel with h4
      cases ss with
      | nil => exact absurd h4 (by simp)
      | cons s0 ss2 =>
      simp only [List.map_cons, List.cons.injEq] at h4
      obtain ⟨h5, h6⟩ := h4
      subst h5
      subst h6
      simp only [goodL, Bool.and_eq_true] at hg
      obtain ⟨hg1, hg2⟩ := hg
      simp only [normL, sizeV, sizeL] at hfuel ⊢
      obtain ⟨f, rfl⟩ : ∃ f, fuel = f + 1 := ⟨fuel - 1, by omega⟩
      obtain ⟨d, t0, hd, hw1, hne1, _⟩ := encode_head l v (.pstr s0) hg1 hv
      have hd2 : s0.data = d :: t0 := hd
      have hstopX : stopTok ((ss2.map (fun t => (',' :: [' ']) ++ t.data)).flatten
          ++ ([] ++ ']' :: rest)) = true := by
        apply stopTok_chunks ']' (by rfl) _ [] (by rfl) _ rest
        intro ch hch
        simp only [List.mem_map] at hch
        obtain ⟨u, _, rfl⟩ := hch
        exact ⟨[' '] ++ u.data, by simp⟩
      simp only [List.nil_append] at hstopX
      have hvP := hxs v (by simp [VList.toList]) l (.pstr s0) hg1 hv
        ((ss2.map (fun t => (',' :: [' ']) ++ t.data)).flatten ++ (']' :: rest))
        f hstopX (by omega)
      have hIH := parse_elems_block l [' '] (by rfl) [] (by rfl) tl ss2
        (fun w hw => hxs w (by simp [VList.toList, hw])) hg2 he2 rest f hstop (by omega)
      simp only [List.nil_append] at hIH
      simp only [PyRet.fstr] at hvP
      rw [hd2, List.cons_append d t0] at hvP
      have hdata : ("[" ++ String.intercalate ", " (s0 :: ss2) ++ "]").data ++ rest
          = '[' :: (d :: (t0 ++ ((ss2.map (fun t => (',' :: [' ']) ++ t.data)).flatten
            ++ (']' :: rest)))) := by
        rw [show ("[" ++ String.intercalate ", " (s0 :: ss2) ++ "]")
            = "[" ++ (String.intercalate ", " (s0 :: ss2) ++ "]") from
          String.append_assoc _ _ _]
        rw [string_lbrack]
        simp only [String.data_append]
        rw [intercalate_data ", " s0 ss2]
        rw [show (fun t : String => (", ").data ++ t.data)
            = (fun t : String => (',' :: [' ']) ++ t.data) from rfl]
        rw [hd2]
        simp only [List.cons_append, List.append_assoc, List.singleton_append,
          List.nil_append]
      rw [hdata]
      simp only [parseV_lbrack_step, skipWs_cons_not d _ hw1]
      rw [if_neg hne1]
      simp only [hvP, hIH]
  · rw [if_neg hprim] at he
    cases hel : Info.encode_elems (l + 1) xs with
    | error e => rw [hel] at he; exact absurd he (by simp)
    | ok rs =>
    rw [hel, ebind_ok] at he
    cases hle : listExpanded l rs with
    | error e => rw [hle] at he; exact absurd he (by simp)
    | ok s =>
    rw [hle, ebind_ok] at he
    injection he with h1
    subst h1
    rw [listExpanded] at hle
    cases hbl : buildLines (indent_str (l + 1)) rs with
    | error e => rw [hbl] at hle; exact absurd hle (by simp)
    | ok lines =>
    rw [hbl, ebind_ok] at hle
    injection hle with h2
    subst h2
    obtain ⟨ss, rfl⟩ := buildLines_ok_pstr (indent_str (l + 1)) rs lines hbl
    rw [buildLines_pstr (indent_str (l + 1)) ss] at hbl
    injection hbl with h3
    subst h3
    simp only [PyRet.fstr]
    simp only [normV] at hfuel ⊢
    rw [if_neg hprim] at hfuel ⊢
    cases xs with
    | nil => exact absurd rfl hprim
    | cons v tl =>
      rw [Info.encode_elems] at hel
      cases hv : Info.encode (l + 1) v with
      | error e => rw [hv] at hel; exact absurd hel (by simp)
      | ok r0 =>
      rw [hv, ebind_ok] at hel
      cases he2 : Info.encode_elems (l + 1) tl with
      | error e => rw [he2] at hel; exact absurd hel (by simp)
      | ok rs2 =>
      rw [he2, ebind_ok] at hel
      injection hel with h4
      cases ss with
      | nil => exact absurd h4 (by simp)
      | cons s0 ss2 =>
      simp only [List.map_cons, List.cons.injEq] at h4
      obtain ⟨h5, h6⟩ := h4
      subst h5
      subst h6
      simp only [goodL, Bool.and_eq_true] at hg
      obtain ⟨hg1, hg2⟩ := hg
      simp only [normL, sizeV, sizeL] at hfuel ⊢
      obtain ⟨f, rfl⟩ : ∃ f, fuel = f + 1 := ⟨fuel - 1, by omega⟩
      obtain ⟨d, t0, hd, hw1, hne1, _⟩ := encode_head (l + 1) v (.pstr s0) hg1 hv
      have hd2 : s0.data = d :: t0 := hd
      have hsepw : ('\n' :: (indent_str (l + 1)).data).all wsChar = true := by
        simp only [List.all_cons, Bool.and_eq_true]
        exact ⟨rfl, indent_ws (l + 1)⟩
      have hclosew : ('\n' :: (indent_str l).data).all wsChar = true := by
        simp only [List.all_cons, Bool.and_eq_true]
        exact ⟨rfl, indent_ws l⟩
      have hstopX : stopTok
          ((ss2.map (fun t => (',' :: ('\n' :: (indent_str (l + 1)).data)) ++ t.data)).flatten
            ++ (('\n' :: (indent_str l).data) ++ ']' :: rest)) = true := by
        apply stopTok_chunks ']' (by rfl) _ _ hclosew _ rest
        intro ch hch
        simp only [List.mem_map] at hch
        obtain ⟨u, _, rfl⟩ := hch
        exact ⟨('\n' :: (indent_str (l + 1)).data) ++ u.data, by simp⟩
      have hvP := hxs v (by simp [VList.toList]) (l + 1) (.pstr s0) hg1 hv
        ((ss2.map (fun t => (',' :: ('\n' :: (indent_str (l + 1)).data)) ++ t.data)).flatten
          ++ (('\n' :: (indent_str l).data) ++ ']' :: rest))
        f hstopX (by omega)
      have hIH := parse_elems_block (l + 1) ('\n' :: (indent_str (l + 1)).data) hsepw
        ('\n' :: (indent_str l).data) hclosew tl ss2
        (fun w hw => hxs w (by simp [VList.toList, hw])) hg2 he2 rest f hstop (by omega)
      simp only [PyRet.fstr] at hvP
      rw [hd2, List.cons_append d t0] at hvP
      have hdata : ("[\n" ++ String.intercalate ",\n"
          ((s0 :: ss2).map (fun t => indent_str (l + 1) ++ t)) ++ "\n" ++ indent_str l
          ++ "]").data ++ rest
          = '[' :: '\n' :: ((indent_str (l + 1)).data ++ (d :: (t0 ++
            ((ss2.map (fun t => (',' :: ('\n' :: (indent_str (l + 1)).data)) ++ t.data)).flatten
              ++ (('\n' :: (indent_str l).data) ++ ']' :: rest))))) := by
        simp only [String.data_append, List.map_cons]
        rw [intercalate_data ",\n" (indent_str (l + 1) ++ s0)
          (ss2.map (fun t => indent_str (l + 1) ++ t))]
        rw [List.map_map]
        rw [show ((fun t : String => (",\n").data ++ t.data)
              ∘ (fun t : String => indent_str (l + 1) ++ t))
            = (fun t : String => (',' :: ('\n' :: (indent_str (l + 1)).data)) ++ t.data)
          from rfl]
        rw [show (indent_str (l + 1) ++ s0).data
            = (indent_str (l + 1)).data ++ s0.data from rfl]
        rw [hd2]
        simp only [List.cons_append, List.append_assoc, List.singleton_append,
          List.nil_append]
      rw [hdata]
      simp only [parseV_lbrack_step]
      rw [skipWs_cons_ws '\n' (by rfl) _]
      rw [skipWs_append_ws (indent_str (l + 1)).data (indent_ws (l + 1))]
      simp only [skipWs_cons_not d _ hw1]
      rw [if_neg hne1]
      simp only [hvP, hIH]

set_option maxHeartbeats 1000000 in
theorem rtv_dict (kvs : VDict) (hkv : ∀ kv ∈ kvs.toList, RTV kv.2) : RTV (.vdict kvs) := by
  intro l r hg he rest fuel hstop hfuel
  rw [show goodV (.vdict kvs) = goodD kvs from rfl] at hg
  cases kvs with
  | nil =>
    rw [show Info.encode l (.vdict .nil) = .ok (.pstr "\x7b\x7d") from rfl] at he
    injection he with h1
    subst h1
    have hn : normV l (.vdict VDict.nil) = .vdict .nil := by
      rw [normV]
      split
      · rfl
      · rfl
    rw [hn] at hfuel ⊢
    rw [show sizeV (Value.vdict VDict.nil) = 2 from rfl] at hfuel
    obtain ⟨f, rfl⟩ : ∃ f, fuel = f + 1 := ⟨fuel - 1, by omega⟩
    rw [show (PyRet.fstr (.pstr "\x7b\x7d")).data ++ rest = '\x7b' :: '\x7d' :: rest from rfl]
    simp only [parseV_lbrace_step, skipWs_cons_not '\x7d' _ (by rfl)]
    rw [if_pos trivial]
  | cons k v tl =>
    by_cases hl4 : l = 4
    · subst hl4
      rw [info_encode_dict_cons4] at he
      cases hen : Info.encode_entries 4 (.cons k v tl) with
      | error e => rw [hen] at he; exact absurd he (by simp)
      | ok ents =>
      rw [hen] at he
      injection he with h1
      subst h1
      obtain ⟨hentsEq, hok⟩ := encode_entries_eq 4 (.cons k v tl) ents hen
      subst hentsEq
      cases hSL : sortPairs id ((VDict.cons k v tl).toList) with
      | nil =>
        have hperm : List.Perm (sortPairs id ((VDict.cons k v tl).toList))
            ((VDict.cons k v tl).toList) := ssort_perm _ _
        rw [hSL] at hperm
        have hlen := hperm.length_eq
        simp [VDict.toList] at hlen
      | cons p0 SL2 =>
      have hmem : ∀ kv ∈ p0 :: SL2, kv ∈ (VDict.cons k v tl).toList := by
        intro kv hkvm
        have hperm : List.Perm (sortPairs id ((VDict.cons k v tl).toList))
            ((VDict.cons k v tl).toList) := ssort_perm _ _
        rw [hSL] at hperm
        exact hperm.mem_iff.mp hkvm
      have hts : ∀ t ∈ ((p0.1, p0.2, getOk (Info.encode 4 p0.2)) ::
          SL2.map (fun kv => (kv.1, kv.2, getOk (Info.encode 4 kv.2)))),
          RTV t.2.1 ∧ goodV t.2.1 = true ∧ Info.encode 4 t.2.1 = .ok t.2.2 := by
        intro t ht
        have ht2 : t ∈ (p0 :: SL2).map
            (fun kv => (kv.1, kv.2, getOk (Info.encode 4 kv.2))) := ht
        simp only [List.mem_map] at ht2
        obtain ⟨kv, hkvm, rfl⟩ := ht2
        have hkvL := hmem kv hkvm
        exact ⟨hkv kv hkvL, goodD_values _ hg kv hkvL, hok kv hkvL⟩
      have hnorm : normV 4 (.vdict (.cons k v tl))
          = .vdict (vdictOf ((p0 :: SL2).map (fun kv => (kv.1, normV 4 kv.2)))) := by
        rw [normV, if_pos rfl, sortD, normD_toList]
        rw [sortPairs_map id (fun kv => (kv.1, normV 4 kv.2)) (fun kv => rfl) _]
        rw [hSL]
      rw [hnorm] at hfuel
      rw [show sizeV (Value.vdict (vdictOf ((p0 :: SL2).map
          (fun kv => (kv.1, normV 4 kv.2)))))
          = sizeD (vdictOf ((p0 :: SL2).map (fun kv => (kv.1, normV 4 kv.2)))) + 2
        from rfl] at hfuel
      rw [sizeD_vdictOf] at hfuel
      have hsum : (((p0 :: SL2).map (fun kv => (kv.1, normV 4 kv.2))).map
          (fun kv => sizeV kv.2 + 1)).sum
          = (((p0.1, p0.2, getOk (Info.encode 4 p0.2)) ::
            SL2.map (fun kv => (kv.1, kv.2, getOk (Info.encode 4 kv.2)))).map
              (fun t => sizeV (normV 4 t.2.1) + 1)).sum := by
        simp only [List.map_cons, List.map_map]
        rfl
      rw [hsum] at hfuel
      have hdata : (dictInline4 (((VDict.cons k v tl).toList).map
          (fun kv => (kv.1, getOk (Info.encode 4 kv.2))))).data ++ rest
          = '\x7b' :: ([' '] ++ ((jsonQuote p0.1).data ++ ':' :: ' ' ::
            ((getOk (Info.encode 4 p0.2)).fstr.data ++
              (((SL2.map (fun kv => (kv.1, kv.2, getOk (Info.encode 4 kv.2)))).map
                (fun t => (',' :: [' ']) ++ ((jsonQuote t.1).data ++ ':' :: ' ' ::
                  t.2.2.fstr.data))).flatten ++ ([' '] ++ '\x7d' :: rest))))) := by
        rw [dictInline4]
        rw [sortPairs_map id (fun kv => (kv.1, getOk (Info.encode 4 kv.2)))
          (fun kv => rfl) _]
        rw [hSL]
        simp only [List.map_cons, List.map_map, String.data_append]
        rw [intercalate_data ", " _ _]
        simp only [String.data_append, Function.comp_def, List.map_map,
          List.cons_append, List.append_assoc, List.nil_append, List.singleton_append]
      have hvd : (p0 :: SL2).map (fun kv : String × Value => (kv.1, normV 4 kv.2))
          = ((p0.1, p0.2, getOk (Info.encode 4 p0.2)) ::
              SL2.map (fun kv => (kv.1, kv.2, getOk (Info.encode 4 kv.2)))).map
            (fun t => (t.1, normV 4 t.2.1)) := by
        simp only [List.map_cons, List.map_map]
        rfl
      simp only [PyRet.fstr]
      rw [hdata, hnorm, hvd]
      exact parse_dict_head 4 [' '] [' '] [' '] (by rfl) (by rfl) (by rfl)
        (p0.1, p0.2, getOk (Info.encode 4 p0.2))
        (SL2.map (fun kv => (kv.1, kv.2, getOk (Info.encode 4 kv.2))))
        hts rest fuel hstop (by omega)
    · rw [info_encode_dict_cons l k v tl hl4] at he
      cases hen : Info.encode_entries (l + 1) (.cons k v tl) with
      | error e => rw [hen] at he; exact absurd he (by simp)
      | ok ents =>
      rw [hen] at he
      injection he with h1
      subst h1
      obtain ⟨hentsEq, hok⟩ := encode_entries_eq (l + 1) (.cons k v tl) ents hen
      subst hentsEq
      cases hSL : sortPairs (Info.sort_dict (l + 1)) ((VDict.cons k v tl).toList) with
      | nil =>
        have hperm : List.Perm (sortPairs (Info.sort_dict (l + 1))
            ((VDict.cons k v tl).toList)) ((VDict.cons k v tl).toList) := ssort_perm _ _
        rw [hSL] at hperm
        have hlen := hperm.length_eq
        simp [VDict.toList] at hlen
      | cons p0 SL2 =>
      have hmem : ∀ kv ∈ p0 :: SL2, kv ∈ (VDict.cons k v tl).toList := by
        intro kv hkvm
        have hperm : List.Perm (sortPairs (Info.sort_dict (l + 1))
            ((VDict.cons k v tl).toList)) ((VDict.cons k v tl).toList) := ssort_perm _ _
        rw [hSL] at hperm
        exact hperm.mem_iff.mp hkvm
      have hts : ∀ t ∈ ((p0.1, p0.2, getOk (Info.encode (l + 1) p0.2)) ::
          SL2.map (fun kv => (kv.1, kv.2, getOk (Info.encode (l + 1) kv.2)))),
          RTV t.2.1 ∧ goodV t.2.1 = true ∧ Info.encode (l + 1) t.2.1 = .ok t.2.2 := by
        intro t ht
        have ht2 : t ∈ (p0 :: SL2).map
            (fun kv => (kv.1, kv.2, getOk (Info.encode (l + 1) kv.2))) := ht
        simp only [List.mem_map] at ht2
        obtain ⟨kv, hkvm, rfl⟩ := ht2
        have hkvL := hmem kv hkvm
        exact ⟨hkv kv hkvL, goodD_values _ hg kv hkvL, hok kv hkvL⟩
      have hnorm : normV l (.vdict (.cons k v tl))
          = .vdict (vdictOf ((p0 :: SL2).map (fun kv => (kv.1, normV (l + 1) kv.2)))) := by
        rw [normV, if_neg hl4, sortD, normD_toList]
        rw [sortPairs_map (Info.sort_dict (l + 1))
          (fun kv => (kv.1, normV (l + 1) kv.2)) (fun kv => rfl) _]
        rw [hSL]
      rw [hnorm] at hfuel
      rw [show sizeV (Value.vdict (vdictOf ((p0 :: SL2).map
          (fun kv => (kv.1, normV (l + 1) kv.2)))))
          = sizeD (vdictOf ((p0 :: SL2).map (fun kv => (kv.1, normV (l + 1) kv.2)))) + 2
        from rfl] at hfuel
      rw [sizeD_vdictOf] at hfuel
      have hsum : (((p0 :: SL2).map (fun kv => (kv.1, normV (l + 1) kv.2))).map
          (fun kv => sizeV kv.2 + 1)).sum
          = (((p0.1, p0.2, getOk (Info.encode (l + 1) p0.2)) ::
            SL2.map (fun kv => (kv.1, kv.2, getOk (Info.encode (l + 1) kv.2)))).map
              (fun t => sizeV (normV (l + 1) t.2.1) + 1)).sum := by
        simp only [List.map_cons, List.map_map]
        rfl
      rw [hsum] at hfuel
      have hsepw : ('\n' :: (indent_str (l + 1)).data).all wsChar = true := by
        simp only [List.all_cons, Bool.and_eq_true]
        exact ⟨rfl, indent_ws (l + 1)⟩
      have hclosew : ('\n' :: (indent_str l).data).all wsChar = true := by
        simp only [List.all_cons, Bool.and_eq_true]
        exact ⟨rfl, indent_ws l⟩
      have hdata : (dictExpanded (Info.sort_dict (l + 1)) l
          (((VDict.cons k v tl).toList).map
            (fun kv => (kv.1, getOk (Info.encode (l + 1) kv.2))))).data ++ rest
          = '\x7b' :: (('\n' :: (indent_str (l + 1)).data) ++ ((jsonQuote p0.1).data
            ++ ':' :: ' ' :: ((getOk (Info.encode (l + 1) p0.2)).fstr.data ++
              (((SL2.map (fun kv => (kv.1, kv.2, getOk (Info.encode (l + 1) kv.2)))).map
                (fun t => (',' :: ('\n' :: (indent_str (l + 1)).data)) ++
                  ((jsonQuote t.1).data ++ ':' :: ' ' :: t.2.2.fstr.data))).flatten
                ++ (('\n' :: (indent_str l).data) ++ '\x7d' :: rest))))) := by
        rw [dictExpanded]
        rw [sortPairs_map (Info.sort_dict (l + 1))
          (fun kv => (kv.1, getOk (Info.encode (l + 1) kv.2))) (fun kv => rfl) _]
        rw [hSL]
        simp only [List.map_cons, List.map_map, String.data_append]
        rw [intercalate_data ",\n" _ _]
        simp only [String.data_append, Function.comp_def, List.map_map,
          List.cons_append, List.append_assoc, List.nil_append, List.singleton_append]
      have hvd : (p0 :: SL2).map (fun kv : String × Value => (kv.1, normV (l + 1) kv.2))
          = ((p0.1, p0.2, getOk (Info.encode (l + 1) p0.2)) ::
              SL2.map (fun kv => (kv.1, kv.2, getOk (Info.encode (l + 1) kv.2)))).map
            (fun t => (t.1, normV (l + 1) t.2.1)) := by
        simp only [List.map_cons, List.map_map]
        rfl
      simp only [PyRet.fstr]
      rw [hdata, hnorm, hvd]
      exact parse_dict_head (l + 1) ('\n' :: (indent_str (l + 1)).data)
        ('\n' :: (indent_str (l + 1)).data) ('\n' :: (indent_str l).data)
        hsepw hsepw hclosew
        (p0.1, p0.2, getOk (Info.encode (l + 1) p0.2))
        (SL2.map (fun kv => (kv.1, kv.2, getOk (Info.encode (l + 1) kv.2))))
        hts rest fuel hstop (by omega)


/-- Round-trip property for every document: the heart of the claim about
`decode (encode v)`. -/
theorem info_roundtrip : ∀ v, RTV v := by
  refine mutualIndV (P := RTV) (Q := fun xs => ∀ v ∈ xs.toList, RTV v)
    (R := fun kvs => ∀ kv ∈ kvs.toList, RTV kv.2)
    rtv_null rtv_bool rtv_str rtv_int rtv_dec rtv_float
    rtv_list rtv_dict ?_ ?_ ?_ ?_
  · intro v hv
    cases hv
  · intro v tl hv htl w hw
    rcases List.mem_cons.mp hw with rfl | hw2
    · exact hv
    · exact htl w hw2
  · intro kv hkv
    cases hkv
  · intro k v tl hv htl kv hkv
    rcases List.mem_cons.mp hkv with rfl | hkv2
    · exact hv
    · exact htl kv hkv2

/-! ## Stability: re-encoding the decoded document is byte-identical -/

/-- Stability of the Config-Document Printer under normalisation: encoding
the round-trip image reproduces the original rendered text. -/
def STB (v : Value) : Prop :=
  ∀ (l : Nat) (r : PyRet), goodV v = true → Info.encode l v = .ok r →
    Info.encode l (normV l v) = .ok (.pstr r.fstr)

theorem is_container_normV (a : Nat) (v : Value) :
    is_container (normV a v) = is_container v := by
  cases v with
  | vdec m e =>
    rw [normV]
    split
    · rfl
    · rfl
  | vdict kvs =>
    rw [normV]
    split
    · rfl
    · rfl
  | vlist xs => rfl
  | vnull => rfl
  | vbool b => rfl
  | vstr s => rfl
  | vint n => rfl
  | vfloat num den => rfl

theorem primOnly_normL (a : Nat) : ∀ xs : VList,
    primitives_only_list (normL a xs) = primitives_only_list xs := by
  intro xs
  induction xs using VList.indOnL with
  | hnil => rfl
  | hcons v tl ih =>
    rw [normL]
    rw [show primitives_only_list (.cons (normV a v) (normL a tl))
        = (!is_container (normV a v) && primitives_only_list (normL a tl)) from rfl]
    rw [is_container_normV, ih]
    rfl

theorem sortPairs_sorted (rank : String → String) (ents : List (String × α)) :
    List.Pairwise (fun a b => lexLe (rank a.1).data (rank b.1).data = true)
      (sortPairs rank ents) := by
  rw [sortPairs]
  exact ssort_pairwise (fun a b => lexLe (rank a.1).data (rank b.1).data)
    (fun a b => lexLe_total _ _) (fun a b c => lexLe_trans _ _ _) ents

theorem sortPairs_fix (rank : String → String) (ents : List (String × α))
    (h : List.Pairwise (fun a b => lexLe (rank a.1).data (rank b.1).data = true) ents) :
    sortPairs rank ents = ents := by
  rw [sortPairs]
  exact ssort_fix _ ents h

theorem stb_null : STB .vnull := by
  intro l r hg he
  rw [show Info.encode l .vnull = .ok (.pstr "null") from rfl] at he
  injection he with h1
  subst h1
  rfl

theorem stb_bool (b : Bool) : STB (.vbool b) := by
  intro l r hg he
  rw [show Info.encode l (.vbool b) = .ok (.pstr (std_scalar (.vbool b))) from rfl] at he
  injection he with h1
  subst h1
  rfl

theorem stb_str (s : String) : STB (.vstr s) := by
  intro l r hg he
  rw [show Info.encode l (.vstr s) = .ok (.pstr (jsonQuote s)) from rfl] at he
  injection he with h1
  subst h1
  rfl

theorem stb_int (n : Int) : STB (.vint n) := by
  intro l r hg he
  rw [show Info.encode l (.vint n) = .ok (.pstr (intRepr n)) from rfl] at he
  injection he with h1
  subst h1
  rfl

theorem stb_dec (m : Int) (e : Nat) : STB (.vdec m e) := by
  intro l r hg he
  rw [show goodV (.vdec m e) = (Q.mk m (10 ^ e)).isWhole from rfl] at hg
  rw [show Info.encode l (.vdec m e) = .ok (encode_decimal m e) from rfl] at he
  injection he with h1
  subst h1
  rw [show normV l (.vdec m e) = if (Q.mk m (10 ^ e)).isWhole then
    .vint ((Q.mk m (10 ^ e)).trunc) else .vfloat (roundB64 ⟨m, 10 ^ e⟩).num
      (roundB64 ⟨m, 10 ^ e⟩).den from rfl]
  rw [if_pos hg]
  rw [encode_decimal, if_pos hg]
  rfl

theorem stb_float (num : Int) (den : Nat) : STB (.vfloat num den) := by
  intro l r hg
  exact absurd hg (by simp [goodV])

theorem stb_elems (a : Nat) : ∀ (xs : VList) (ss : List String),
    (∀ v ∈ xs.toList, STB v) → goodL xs = true →
    Info.encode_elems a xs = .ok (ss.map .pstr) →
    Info.encode_elems a (normL a xs) = .ok (ss.map .pstr) := by
  intro xs
  induction xs using VList.indOnL with
  | hnil =>
    intro ss _ _ he
    exact he
  | hcons v tl ih =>
    intro ss hstb hg he
    rw [Info.encode_elems] at he
    cases hv : Info.encode a v with
    | error e => rw [hv] at he; exact absurd he (by simp)
    | ok r0 =>
    rw [hv, ebind_ok] at he
    cases he2 : Info.encode_elems a tl with
    | error e => rw [he2] at he; exact absurd he (by simp)
    | ok rs2 =>
    rw [he2, ebind_ok] at he
    injection he with h4
    cases ss with
    | nil => exact absurd h4 (by simp)
    | cons s0 ss2 =>
    simp only [List.map_cons, List.cons.injEq] at h4
    obtain ⟨h5, h6⟩ := h4
    subst h5
    subst h6
    simp only [goodL, Bool.and_eq_true] at hg
    have hv2 := hstb v (by simp [VList.toList]) a (.pstr s0) hg.1 hv
    have hih := ih ss2 (fun w hw => hstb w (by simp [VList.toList, hw])) hg.2 he2
    rw [show normL a (.cons v tl) = .cons (normV a v) (normL a tl) from rfl]
    rw [Info.encode_elems, hv2, ebind_ok, hih, ebind_ok]
    rfl

theorem stb_list (xs : VList) (hxs : ∀ v ∈ xs.toList, STB v) : STB (.vlist xs) := by
  intro l r hg he
  rw [show goodV (.vlist xs) = goodL xs from rfl] at hg
  rw [Info.encode] at he
  by_cases hprim : primitives_only_list xs = true
  · rw [if_pos hprim] at he
    cases hel : Info.encode_elems l xs with
    | error e => rw [hel] at he; exact absurd he (by simp)
    | ok rs =>
    rw [hel, ebind_ok] at he
    cases hli : listInline rs with
    | error e => rw [hli] at he; exact absurd he (by simp)
    | ok s =>
    rw [hli, ebind_ok] at he
    injection he with h1
    subst h1
    have hallp : ∃ ss : List String, rs = ss.map .pstr := by
      rw [listInline] at hli
      cases hpj : pyJoin ", " rs with
      | error e => rw [hpj] at hli; exact absurd hli (by simp)
      | ok body => exact pyJoin_ok_pstr ", " rs body hpj
    obtain ⟨ss, rfl⟩ := hallp
    rw [show normV l (.vlist xs)
        = .vlist (normL (if primitives_only_list xs then l else l + 1) xs) from rfl]
    rw [if_pos hprim]
    rw [Info.encode, primOnly_normL, if_pos hprim]
    rw [stb_elems l xs ss hxs hg hel, ebind_ok, hli, ebind_ok]
    rfl
  · rw [if_neg hprim] at he
    cases hel : Info.encode_elems (l + 1) xs with
    | error e => rw [hel] at he; exact absurd he (by simp)
    | ok rs =>
    rw [hel, ebind_ok] at he
    cases hle : listExpanded l rs with
    | error e => rw [hle] at he; exact absurd he (by simp)
    | ok s =>
    rw [hle, ebind_ok] at he
    injection he with h1
    subst h1
    have hallp : ∃ ss : List String, rs = ss.map .pstr := by
      rw [listExpanded] at hle
      cases hbl : buildLines (indent_str (l + 1)) rs with
      | error e => rw [hbl] at hle; exact absurd hle (by simp)
      | ok lines => exact buildLines_ok_pstr (indent_str (l + 1)) rs lines hbl
    obtain ⟨ss, rfl⟩ := hallp
    rw [show normV l (.vlist xs)
        = .vlist (normL (if primitives_only_list xs then l else l + 1) xs) from rfl]
    rw [if_neg hprim]
    rw [Info.encode, primOnly_normL, if_neg hprim]
    rw [stb_elems (l + 1) xs ss hxs hg hel, ebind_ok, hle, ebind_ok]
    rfl

theorem encode_entries_map (a : Nat) :
    ∀ (qs : List (String × Value)) (g : String × Value → String × Value)
      (F : String × Value → PyRet),
    (∀ q ∈ qs, Info.encode a (g q).2 = .ok (F q)) →
    Info.encode_entries a (vdictOf (qs.map g))
      = .ok (qs.map (fun q => ((g q).1, F q))) := by
  intro qs g F
  induction qs with
  | nil => intro _; rfl
  | cons q tl ih =>
    intro hF
    rw [show vdictOf ((q :: tl).map g)
        = .cons (g q).1 (g q).2 (vdictOf (tl.map g)) from rfl]
    rw [Info.encode_entries, hF q (by simp), ebind_ok,
      ih (fun q2 hq2 => hF q2 (by simp [hq2])), ebind_ok]
    rfl

theorem stb_dict (kvs : VDict) (hkv : ∀ kv ∈ kvs.toList, STB kv.2) : STB (.vdict kvs) := by
  intro l r hg he
  rw [show goodV (.vdict kvs) = goodD kvs from rfl] at hg
  cases kvs with
  | nil =>
    rw [show Info.encode l (.vdict .nil) = .ok (.pstr "\x7b\x7d") from rfl] at he
    injection he with h1
    subst h1
    have hn : normV l (.vdict VDict.nil) = .vdict .nil := by
      rw [normV]
      split
      · rfl
      · rfl
    rw [hn]
    rfl
  | cons k v tl =>
    by_cases hl4 : l = 4
    · subst hl4
      rw [info_encode_dict_cons4] at he
      cases hen : Info.encode_entries 4 (.cons k v tl) with
      | error e => rw [hen] at he; exact absurd he (by simp)
      | ok ents =>
      rw [hen] at he
      injection he with h1
      subst h1
      obtain ⟨hentsEq, hok⟩ := encode_entries_eq 4 (.cons k v tl) ents hen
      subst hentsEq
      cases hSL : sortPairs id ((VDict.cons k v tl).toList) with
      | nil =>
        have hperm : List.Perm (sortPairs id ((VDict.cons k v tl).toList))
            ((VDict.cons k v tl).toList) := ssort_perm _ _
        rw [hSL] at hperm
        have hlen := hperm.length_eq
        simp [VDict.toList] at hlen
      | cons p0 SL2 =>
      have hmem : ∀ kv ∈ p0 :: SL2, kv ∈ (VDict.cons k v tl).toList := by
        intro kv hkvm
        have hperm : List.Perm (sortPairs id ((VDict.cons k v tl).toList))
            ((VDict.cons k v tl).toList) := ssort_perm _ _
        rw [hSL] at hperm
        exact hperm.mem_iff.mp hkvm
      have hnorm : normV 4 (.vdict (.cons k v tl))
          = .vdict (vdictOf ((p0 :: SL2).map (fun kv => (kv.1, normV 4 kv.2)))) := by
        rw [normV, if_pos rfl, sortD, normD_toList]
        rw [sortPairs_map id (fun kv => (kv.1, normV 4 kv.2)) (fun kv => rfl) _]
        rw [hSL]
      rw [hnorm]
      rw [show Value.vdict (vdictOf ((p0 :: SL2).map (fun kv => (kv.1, normV 4 kv.2))))
          = Value.vdict (.cons p0.1 (normV 4 p0.2)
            (vdictOf (SL2.map (fun kv => (kv.1, normV 4 kv.2))))) from rfl]
      rw [info_encode_dict_cons4]
      have hE := encode_entries_map 4 (p0 :: SL2) (fun kv => (kv.1, normV 4 kv.2))
        (fun q => .pstr (getOk (Info.encode 4 q.2)).fstr)
        (fun q hq => hkv q (hmem q hq) 4 (getOk (Info.encode 4 q.2))
          (goodD_values _ hg q (hmem q hq)) (hok q (hmem q hq)))
      have hE2 : Info.encode_entries 4 (.cons p0.1 (normV 4 p0.2)
          (vdictOf (SL2.map (fun kv => (kv.1, normV 4 kv.2)))))
          = .ok ((p0 :: SL2).map (fun q : String × Value =>
            (q.1, (.pstr (getOk (Info.encode 4 q.2)).fstr : PyRet)))) := hE
      rw [hE2]
      simp only [Except.map]
      have hsorted : List.Pairwise
          (fun a b => lexLe (id a.1).data (id b.1).data = true) (p0 :: SL2) := by
        have h0 := sortPairs_sorted id ((VDict.cons k v tl).toList)
        rw [hSL] at h0
        exact h0
      have hstr : dictInline4 ((p0 :: SL2).map (fun q : String × Value =>
          (q.1, (.pstr (getOk (Info.encode 4 q.2)).fstr : PyRet))))
          = dictInline4 (((VDict.cons k v tl).toList).map
            (fun kv => (kv.1, getOk (Info.encode 4 kv.2)))) := by
        rw [dictInline4, dictInline4]
        rw [sortPairs_map id (fun q : String × Value =>
          (q.1, (.pstr (getOk (Info.encode 4 q.2)).fstr : PyRet))) (fun q => rfl) (p0 :: SL2)]
        rw [sortPairs_map id (fun kv => (kv.1, getOk (Info.encode 4 kv.2)))
          (fun q => rfl) _]
        rw [hSL]
        rw [sortPairs_fix id (p0 :: SL2) hsorted]
        rw [List.map_map, List.map_map]
        rfl
      rw [hstr]
      rfl
    · rw [info_encode_dict_cons l k v tl hl4] at he
      cases hen : Info.encode_entries (l + 1) (.cons k v tl) with
      | error e => rw [hen] at he; exact absurd he (by simp)
      | ok ents =>
      rw [hen] at he
      injection he with h1
      subst h1
      obtain ⟨hentsEq, hok⟩ := encode_entries_eq (l + 1) (.cons k v tl) ents hen
      subst hentsEq
      cases hSL : sortPairs (Info.sort_dict (l + 1)) ((VDict.cons k v tl).toList) with
      | nil =>
        have hperm : List.Perm (sortPairs (Info.sort_dict (l + 1))
            ((VDict.cons k v tl).toList)) ((VDict.cons k v tl).toList) := ssort_perm _ _
        rw [hSL] at hperm
        have hlen := hperm.length_eq
        simp [VDict.toList] at hlen
      | cons p0 SL2 =>
      have hmem : ∀ kv ∈ p0 :: SL2, kv ∈ (VDict.cons k v tl).toList := by
        intro kv hkvm
        have hperm : List.Perm (sortPairs (Info.sort_dict (l + 1))
            ((VDict.cons k v tl).toList)) ((VDict.cons k v tl).toList) := ssort_perm _ _
        rw [hSL] at hperm
        exact hperm.mem_iff.mp hkvm
      have hnorm : normV l (.vdict (.cons k v tl))
          = .vdict (vdictOf ((p0 :: SL2).map (fun kv => (kv.1, normV (l + 1) kv.2)))) := by
        rw [normV, if_neg hl4, sortD, normD_toList]
        rw [sortPairs_map (Info.sort_dict (l + 1))
          (fun kv => (kv.1, normV (l + 1) kv.2)) (fun kv => rfl) _]
        rw [hSL]
      rw [hnorm]
      rw [show Value.vdict (vdictOf ((p0 :: SL2).map (fun kv => (kv.1, normV (l + 1) kv.2))))
          = Value.vdict (.cons p0.1 (normV (l + 1) p0.2)
            (vdictOf (SL2.map (fun kv => (kv.1, normV (l + 1) kv.2))))) from rfl]
      rw [info_encode_dict_cons l p0.1 (normV (l + 1) p0.2)
        (vdictOf (SL2.map (fun kv => (kv.1, normV (l + 1) kv.2)))) hl4]
      have hE := encode_entries_map (l + 1) (p0 :: SL2)
        (fun kv => (kv.1, normV (l + 1) kv.2))
        (fun q => .pstr (getOk (Info.encode (l + 1) q.2)).fstr)
        (fun q hq => hkv q (hmem q hq) (l + 1) (getOk (Info.encode (l + 1) q.2))
          (goodD_values _ hg q (hmem q hq)) (hok q (hmem q hq)))
      have hE2 : Info.encode_entries (l + 1) (.cons p0.1 (normV (l + 1) p0.2)
          (vdictOf (SL2.map (fun kv => (kv.1, normV (l + 1) kv.2)))))
          = .ok ((p0 :: SL2).map (fun q : String × Value =>
            (q.1, (.pstr (getOk (Info.encode (l + 1) q.2)).fstr : PyRet)))) := hE
      rw [hE2]
      simp only [Except.map]
      have hsorted : List.Pairwise (fun a b =>
          lexLe (Info.sort_dict (l + 1) a.1).data (Info.sort_dict (l + 1) b.1).data = true)
          (p0 :: SL2) := by
        have h0 := sortPairs_sorted (Info.sort_dict (l + 1)) ((VDict.cons k v tl).toList)
        rw [hSL] at h0
        exact h0
      have hstr : dictExpanded (Info.sort_dict (l + 1)) l ((p0 :: SL2).map
          (fun q : String × Value =>
            (q.1, (.pstr (getOk (Info.encode (l + 1) q.2)).fstr : PyRet))))
          = dictExpanded (Info.sort_dict (l + 1)) l (((VDict.cons k v tl).toList).map
            (fun kv => (kv.1, getOk (Info.encode (l + 1) kv.2)))) := by
        rw [dictExpanded, dictExpanded]
        rw [sortPairs_map (Info.sort_dict (l + 1)) (fun q : String × Value =>
          (q.1, (.pstr (getOk (Info.encode (l + 1) q.2)).fstr : PyRet)))
          (fun q => rfl) (p0 :: SL2)]
        rw [sortPairs_map (Info.sort_dict (l + 1))
          (fun kv => (kv.1, getOk (Info.encode (l + 1) kv.2))) (fun q => rfl) _]
        rw [hSL]
        rw [sortPairs_fix (Info.sort_dict (l + 1)) (p0 :: SL2) hsorted]
        rw [List.map_map, List.map_map]
        rfl
      rw [hstr]
      rfl

/-- Every good document's encoding is a fixed point of encode-then-decode. -/
theorem info_stable : ∀ v, STB v := by
  refine mutualIndV (P := STB) (Q := fun xs => ∀ v ∈ xs.toList, STB v)
    (R := fun kvs => ∀ kv ∈ kvs.toList, STB kv.2)
    stb_null stb_bool stb_str stb_int stb_dec stb_float
    stb_list stb_dict ?_ ?_ ?_ ?_
  · intro v hv
    cases hv
  · intro v tl hv htl w hw
    rcases List.mem_cons.mp hw with rfl | hw2
    · exact hv
    · exact htl w hw2
  · intro kv hkv
    cases hkv
  · intro k v tl hv htl kv hkv
    rcases List.mem_cons.mp hkv with rfl | hkv2
    · exact hv
    · exact htl kv hkv2

/-! ## Python `==` on the decoded document: canonical-form equality -/

theorem string_eq_of_data (a b : String) (h : a.data = b.data) : a = b := by
  cases a
  cases b
  exact congrArg String.mk h

theorem lexLt_of_le_ne (a b : List Char) (hle : lexLe a b = true) (hne : a ≠ b) :
    lexLt a b = true := by
  rcases lexLt_trichotomy a b with h | h | h
  · exact h
  · exact absurd h hne
  · simp only [lexLe, Bool.not_eq_true'] at hle
    exact absurd h (by simp [hle])

theorem keyMemD_false (k : String) : ∀ d : VDict, keyMemD k d = false →
    ∀ kv ∈ d.toList, k ≠ kv.1 := by
  intro d
  induction d using VDict.indOnD with
  | hnil => intro _ kv h; cases h
  | hcons k2 v2 tl ih =>
    intro hm kv hkv
    simp only [keyMemD, Bool.or_eq_false_iff, decide_eq_false_iff_not] at hm
    rcases List.mem_cons.mp hkv with rfl | h2
    · exact hm.1
    · exact ih hm.2 kv h2

theorem goodD_keys : ∀ kvs : VDict, goodD kvs = true →
    List.Pairwise (fun a b : String × Value => a.1 ≠ b.1) kvs.toList := by
  intro kvs
  induction kvs using VDict.indOnD with
  | hnil => intro _; exact List.Pairwise.nil
  | hcons k v tl ih =>
    intro hg
    simp only [goodD, Bool.and_eq_true, Bool.not_eq_true'] at hg
    refine List.pairwise_cons.mpr ⟨?_, ih hg.2⟩
    intro kv hkv
    exact keyMemD_false k tl hg.1.1 kv hkv

/-- Two strictly sorted lists that are permutations of each other coincide. -/
theorem sorted_perm_eq {α : Type} (lt : α → α → Bool)
    (asym : ∀ a b, lt a b = true → lt b a = false) :
    ∀ (l1 l2 : List α), List.Perm l1 l2 →
      List.Pairwise (fun a b => lt a b = true) l1 →
      List.Pairwise (fun a b => lt a b = true) l2 → l1 = l2 := by
  intro l1
  induction l1 with
  | nil =>
    intro l2 hp _ _
    exact hp.nil_eq
  | cons a t1 ih =>
    intro l2 hp h1 h2
    cases l2 with
    | nil => exact absurd hp.eq_nil (by simp)
    | cons b t2 =>
      rcases List.pairwise_cons.mp h1 with ⟨ha1, ht1⟩
      rcases List.pairwise_cons.mp h2 with ⟨hb2, ht2⟩
      by_cases hab : a = b
      · subst hab
        rw [ih t2 hp.cons_inv ht1 ht2]
      · have ha2 : a ∈ b :: t2 := hp.subset (by simp)
        have ha2' : a ∈ t2 := by
          rcases List.mem_cons.mp ha2 with h | h
          · exact absurd h hab
          · exact h
        have hba : lt b a = true := hb2 a ha2'
        have hb1 : b ∈ a :: t1 := hp.symm.subset (by simp)
        have hb1' : b ∈ t1 := by
          rcases List.mem_cons.mp hb1 with h | h
          · exact absurd h.symm hab
          · exact h
        have hab2 : lt a b = true := ha1 b hb1'
        exact absurd hba (by simp [asym a b hab2])

theorem keys_pairwise_map (f : String × Value → String × Value)
    (hf : ∀ kv, (f kv).1 = kv.1) (L : List (String × Value))
    (h : List.Pairwise (fun a b : String × Value => a.1 ≠ b.1) L) :
    List.Pairwise (fun a b : String × Value => a.1 ≠ b.1) (L.map f) := by
  refine List.Pairwise.map f ?_ h
  intro a b hab
  rw [hf a, hf b]
  exact hab

theorem keys_pairwise_sortPairs (rank : String → String) (L : List (String × Value))
    (h : List.Pairwise (fun a b : String × Value => a.1 ≠ b.1) L) :
    List.Pairwise (fun a b : String × Value => a.1 ≠ b.1) (sortPairs rank L) := by
  have hperm : List.Perm (sortPairs rank L) L := ssort_perm _ _
  exact (hperm.pairwise_iff (fun h12 => Ne.symm h12)).mpr h

/-- A raw-key sort of entries with pairwise distinct keys is strictly sorted. -/
theorem sortPairs_strict (ents : List (String × Value))
    (hnd : List.Pairwise (fun a b : String × Value => a.1 ≠ b.1) ents) :
    List.Pairwise (fun a b : String × Value => lexLt a.1.data b.1.data = true)
      (sortPairs id ents) := by
  have hle := sortPairs_sorted id ents
  have hne := keys_pairwise_sortPairs id ents hnd
  have hcomb := hle.and hne
  exact hcomb.imp (fun h => lexLt_of_le_ne _ _ h.1
    (fun hd => h.2 (string_eq_of_data _ _ hd)))

theorem canonD_toList : ∀ kvs : VDict,
    (canonD kvs).toList = kvs.toList.map (fun kv => (kv.1, canonV kv.2)) := by
  intro kvs
  induction kvs using VDict.indOnD with
  | hnil => rfl
  | hcons k v tl ih => simp [canonD, VDict.toList, ih]

theorem dnormD_toList : ∀ kvs : VDict,
    (dnormD kvs).toList = kvs.toList.map (fun kv => (kv.1, dnormV kv.2)) := by
  intro kvs
  induction kvs using VDict.indOnD with
  | hnil => rfl
  | hcons k v tl ih => simp [dnormD, VDict.toList, ih]

theorem sortD_congr (rank : String → String) (d1 d2 : VDict)
    (h : sortPairs rank d1.toList = sortPairs rank d2.toList) :
    sortD rank d1 = sortD rank d2 := by
  rw [sortD, sortD, h]

theorem canon_norm_L (a : Nat) : ∀ xs : VList,
    (∀ v ∈ xs.toList, ∀ b, goodV v = true → canonV (normV b v) = canonV (dnormV v)) →
    goodL xs = true → canonL (normL a xs) = canonL (dnormL xs) := by
  intro xs
  induction xs using VList.indOnL with
  | hnil => intro _ _; rfl
  | hcons v tl ih =>
    intro hP hg
    simp only [goodL, Bool.and_eq_true] at hg
    rw [normL, dnormL]
    rw [show canonL (VList.cons (normV a v) (normL a tl))
        = .cons (canonV (normV a v)) (canonL (normL a tl)) from rfl]
    rw [show canonL (VList.cons (dnormV v) (dnormL tl))
        = .cons (canonV (dnormV v)) (canonL (dnormL tl)) from rfl]
    rw [hP v (by simp [VList.toList]) a hg.1]
    rw [ih (fun w hw => hP w (by simp [VList.toList, hw])) hg.2]

/-- The dict case of the canonical-equality induction, uniform over the rank
and encoding level the printer uses at this depth. -/
theorem canon_dict_core (rank : String → String) (a : Nat) (kvs : VDict)
    (hR : ∀ kv ∈ kvs.toList, ∀ b, goodV kv.2 = true →
      canonV (normV b kv.2) = canonV (dnormV kv.2))
    (hg : goodD kvs = true) :
    canonV (.vdict (sortD rank (normD a kvs))) = canonV (.vdict (dnormD kvs)) := by
  rw [show canonV (.vdict (sortD rank (normD a kvs)))
      = .vdict (sortD id (canonD (sortD rank (normD a kvs)))) from rfl]
  rw [show canonV (.vdict (dnormD kvs)) = .vdict (sortD id (canonD (dnormD kvs))) from rfl]
  have key : sortD id (canonD (sortD rank (normD a kvs))) = sortD id (canonD (dnormD kvs)) := by
    apply sortD_congr
    rw [canonD_toList, canonD_toList]
    rw [show (sortD rank (normD a kvs)).toList
        = sortPairs rank ((normD a kvs).toList) from toList_vdictOf _]
    rw [normD_toList, dnormD_toList]
    rw [sortPairs_map rank (fun kv => (kv.1, normV a kv.2)) (fun kv => rfl) _]
    rw [List.map_map, List.map_map]
    have hperm0 : List.Perm (sortPairs rank kvs.toList) kvs.toList := ssort_perm _ _
    have hmc : (sortPairs rank kvs.toList).map
        ((fun kv : String × Value => (kv.1, canonV kv.2))
          ∘ (fun kv : String × Value => (kv.1, normV a kv.2)))
        = (sortPairs rank kvs.toList).map
          (fun kv : String × Value => (kv.1, canonV (dnormV kv.2))) := by
      apply List.map_congr_left
      intro kv hkv
      have hkv2 := hperm0.mem_iff.mp hkv
      show (kv.1, canonV (normV a kv.2)) = (kv.1, canonV (dnormV kv.2))
      rw [hR kv hkv2 a (goodD_values kvs hg kv hkv2)]
    rw [hmc]
    have hdf : kvs.toList.map
        ((fun kv : String × Value => (kv.1, canonV kv.2))
          ∘ (fun kv : String × Value => (kv.1, dnormV kv.2)))
        = kvs.toList.map (fun kv : String × Value => (kv.1, canonV (dnormV kv.2))) := rfl
    rw [hdf]
    apply sorted_perm_eq (fun p q : String × Value => lexLt p.1.data q.1.data)
      (fun p q h => lexLt_asymm _ _ h)
    · exact (ssort_perm _ _).trans
        ((hperm0.map _).trans (ssort_perm _ _).symm)
    · exact sortPairs_strict _ (keys_pairwise_map
        (fun kv : String × Value => (kv.1, canonV (dnormV kv.2))) (fun kv => rfl) _
        (keys_pairwise_sortPairs rank _ (goodD_keys kvs hg)))
    · exact sortPairs_strict _ (keys_pairwise_map
        (fun kv : String × Value => (kv.1, canonV (dnormV kv.2))) (fun kv => rfl) _
        (goodD_keys kvs hg))
  rw [key]

/-- The decoded document equals the documented lossy transform of the input
up to Python `==` (canonical forms coincide). -/
theorem canon_eq : ∀ v : Value, ∀ l : Nat, goodV v = true →
    canonV (normV l v) = canonV (dnormV v) := by
  refine mutualIndV
    (P := fun v => ∀ l, goodV v = true → canonV (normV l v) = canonV (dnormV v))
    (Q := fun xs => ∀ v ∈ xs.toList, ∀ l, goodV v = true →
      canonV (normV l v) = canonV (dnormV v))
    (R := fun kvs => ∀ kv ∈ kvs.toList, ∀ l, goodV kv.2 = true →
      canonV (normV l kv.2) = canonV (dnormV kv.2))
    ?_ ?_ ?_ ?_ ?_ ?_ ?_ ?_ ?_ ?_ ?_ ?_
  · intro l _; rfl
  · intro b l _; rfl
  · intro s l _; rfl
  · intro n l _; rfl
  · intro m e l _; rfl
  · intro num den l hg; exact absurd hg (by simp [goodV])
  · intro xs hQ l hg
    rw [show goodV (.vlist xs) = goodL xs from rfl] at hg
    rw [show normV l (.vlist xs)
        = .vlist (normL (if primitives_only_list xs then l else l + 1) xs) from rfl]
    rw [show dnormV (.vlist xs) = .vlist (dnormL xs) from rfl]
    rw [show canonV (.vlist (normL (if primitives_only_list xs then l else l + 1) xs))
        = .vlist (canonL (normL (if primitives_only_list xs then l else l + 1) xs)) from rfl]
    rw [show canonV (.vlist (dnormL xs)) = .vlist (canonL (dnormL xs)) from rfl]
    rw [canon_norm_L (if primitives_only_list xs then l else l + 1) xs hQ hg]
  · intro kvs hR l hg
    rw [show goodV (.vdict kvs) = goodD kvs from rfl] at hg
    rw [show dnormV (.vdict kvs) = .vdict (dnormD kvs) from rfl]
    by_cases hl4 : l = 4
    · subst hl4
      rw [show normV 4 (.vdict kvs) = .vdict (sortD id (normD 4 kvs)) from rfl]
      exact canon_dict_core id 4 kvs hR hg
    · rw [normV, if_neg hl4]
      exact canon_dict_core (Info.sort_dict (l + 1)) (l + 1) kvs hR hg
  · intro v hv
    cases hv
  · intro v tl hv htl w hw
    rcases List.mem_cons.mp hw with rfl | hw2
    · exact hv
    · exact htl w hw2
  · intro kv hkv
    cases hkv
  · intro k v tl hv htl kv hkv
    rcases List.mem_cons.mp hkv with rfl | hkv2
    · exact hv
    · exact htl kv hkv2

/-! ## Claim C1: decode (encode v) and the stable fixed point -/

/-- `json.loads` of the Config-Document Printer's output, at the fuel
`decode` actually uses: the parser consumes at most the printed text. -/
theorem info_decode (v : Value) (s : String) (hg : goodV v = true)
    (he : Info.encode 0 v = .ok (.pstr s)) : decode s = some (normV 0 v) := by
  have h1 := info_roundtrip v 0 (.pstr s) hg he [] (sizeV (normV 0 v)) rfl (le_refl _)
  rw [List.append_nil] at h1
  have hbound : sizeV (normV 0 v) ≤ 2 * s.length + 2 := by
    have h2 := ((parse_size (sizeV (normV 0 v))).1 _ _ _ h1).1
    have h2b : sizeV (normV 0 v) ≤ 2 * (s.data.length - ([] : List Char).length) := h2
    simp only [List.length_nil, Nat.sub_zero] at h2b
    have hsl : s.data.length = s.length := rfl
    omega
  have h3 := info_roundtrip v 0 (.pstr s) hg he [] (2 * s.length + 2) rfl hbound
  rw [List.append_nil] at h3
  have h4 : parseV (2 * s.length + 2) s.data = some (normV 0 v, []) := h3
  simp only [decode, h4]
  rfl

/-- C1, counterexample: the claim ranges over every printer, but the
Keymap-Document Printer's `"JSON_NEWLINE"` sentinels are consumed as row
breaks, so decoding its output loses them: for the keymap document
`\x7b"layers": [["KC_A", "JSON_NEWLINE"]]\x7d` — which contains only finite
scalars and containers and no decimal at all — `decode (encode v)` yields
`\x7b"layers": [["KC_A"]]\x7d`, which is not `==` to the input (nor to any
whole-decimal relaxation of it). -/
theorem c1_roundtrip_counterexample :
    Keymap.encode 0 (.vdict (.cons "layers"
        (.vlist (.cons (.vlist (.cons (.vstr "KC_A") (.cons (.vstr "JSON_NEWLINE") .nil)))
          .nil)) .nil))
      = .ok (.pstr ("\x7b\n    \"layers\": [\n                [\n" ++
        "                        \"KC_A\"\n                        \n" ++
        "                ]\n    ]\n\x7d")) ∧
    decode ("\x7b\n    \"layers\": [\n                [\n" ++
        "                        \"KC_A\"\n                        \n" ++
        "                ]\n    ]\n\x7d")
      = some (.vdict (.cons "layers"
        (.vlist (.cons (.vlist (.cons (.vstr "KC_A") .nil)) .nil)) .nil)) ∧
    goodV (.vdict (.cons "layers"
        (.vlist (.cons (.vlist (.cons (.vstr "KC_A") (.cons (.vstr "JSON_NEWLINE") .nil)))
          .nil)) .nil)) = true ∧
    canonV (.vdict (.cons "layers"
        (.vlist (.cons (.vlist (.cons (.vstr "KC_A") .nil)) .nil)) .nil))
      ≠ canonV (dnormV (.vdict (.cons "layers"
        (.vlist (.cons (.vlist (.cons (.vstr "KC_A") (.cons (.vstr "JSON_NEWLINE") .nil)))
          .nil)) .nil))) := by
  decide

/-- C1 (corrected): for the Config-Document Printer the round trip holds.
For every document of finite scalars and containers (no floats, whole
decimals, distinct dict keys) whose `encode` at the root returns text `s`:
`decode s` succeeds, the decoded tree is `==` (canonical forms equal) to
the input with the one documented lossy transform applied — whole decimals
come back as the integers they equal — and re-encoding the decoded tree
returns the byte-identical text `s`.  The decoded tree itself is `normV 0 v`:
the input with whole decimals replaced and every dict in the emitted
(rank-sorted) order. -/
theorem c1_roundtrip_amended (v : Value) (s : String)
    (hg : goodV v = true) (he : Info.encode 0 v = .ok (.pstr s)) :
    decode s = some (normV 0 v) ∧
    canonV (normV 0 v) = canonV (dnormV v) ∧
    Info.encode 0 (normV 0 v) = .ok (.pstr s) :=
  ⟨info_decode v s hg he, canon_eq v 0 hg, info_stable v 0 (.pstr s) hg he⟩

/-- C1, witness: a concrete config document with a nested dict and a whole
decimal (`Decimal("2.0")` under key `"zz"`), rendered, decoded and
re-rendered. -/
theorem c1_roundtrip_amended_witness :
    goodV (.vdict (.cons "manufacturer" (.vstr "X") (.cons "zz" (.vdec 20 1) .nil))) = true ∧
    Info.encode 0 (.vdict (.cons "manufacturer" (.vstr "X") (.cons "zz" (.vdec 20 1) .nil)))
      = .ok (.pstr "\x7b\n    \"manufacturer\": \"X\",\n    \"zz\": 2\n\x7d") ∧
    (decode "\x7b\n    \"manufacturer\": \"X\",\n    \"zz\": 2\n\x7d"
      = some (normV 0 (.vdict (.cons "manufacturer" (.vstr "X")
        (.cons "zz" (.vdec 20 1) .nil)))) ∧
    canonV (normV 0 (.vdict (.cons "manufacturer" (.vstr "X")
        (.cons "zz" (.vdec 20 1) .nil))))
      = canonV (dnormV (.vdict (.cons "manufacturer" (.vstr "X")
        (.cons "zz" (.vdec 20 1) .nil)))) ∧
    Info.encode 0 (normV 0 (.vdict (.cons "manufacturer" (.vstr "X")
        (.cons "zz" (.vdec 20 1) .nil))))
      = .ok (.pstr "\x7b\n    \"manufacturer\": \"X\",\n    \"zz\": 2\n\x7d")) :=
  ⟨by decide, by decide,
   c1_roundtrip_amended
     (.vdict (.cons "manufacturer" (.vstr "X") (.cons "zz" (.vdec 20 1) .nil)))
     "\x7b\n    \"manufacturer\": \"X\",\n    \"zz\": 2\n\x7d"
     (by decide) (by decide)⟩

/-! ## Claim C6: standard scalar rendering, and the keymap-row deviation -/

/-- C6 (corrected): string, boolean and null scalars follow standard JSON
textual rules in the base `encode` used by the Config-Document Printer —
the emitted string literal even parses back under the strict JSON string
grammar (escapes of quote, backslash and control characters included) —
but inside a keymap layer's row-grouped sequence a scalar is rendered as
`f'"\x7bstr(obj)\x7d"'`: the Python `str()` of the value wrapped in raw
quotes, with no JSON escaping (and `True`/`None` instead of `true`/`null`). -/
theorem c6_scalar_rendering_amended :
    (∀ (l : Nat) (s : String), Info.encode l (.vstr s) = .ok (.pstr (jsonQuote s))) ∧
    (∀ (s : String) (tl : List Char) (f : Nat),
      parseV (f + 1) ((jsonQuote s).data ++ tl) = some (.vstr s, tl)) ∧
    (∀ l : Nat, Info.encode l (.vbool true) = .ok (.pstr "true") ∧
      Info.encode l (.vbool false) = .ok (.pstr "false") ∧
      Info.encode l .vnull = .ok (.pstr "null")) ∧
    (∀ (l : Nat) (s : String) (tlx : VList) (rs : List (List String)),
      s ≠ "JSON_NEWLINE" → Keymap.split_rows l tlx = .ok rs →
      Keymap.split_rows l (.cons (.vstr s) tlx) =
        (match rs with
        | row :: rows => .ok ((("\"" ++ s ++ "\"") :: row) :: rows)
        | [] => .ok [["\"" ++ s ++ "\""]])) ∧
    (∀ (l : Nat) (tlx : VList) (rs : List (List String)),
      Keymap.split_rows l tlx = .ok rs →
      Keymap.split_rows l (.cons (.vbool true) tlx) =
        (match rs with
        | row :: rows => .ok (("\"True\"" :: row) :: rows)
        | [] => .ok [["\"True\""]])) := by
  refine ⟨fun l s => rfl, parseV_vstr, fun l => ⟨rfl, rfl, rfl⟩, ?_, ?_⟩
  · intro l s tlx rs hne hsp
    have hnev : (Value.vstr s) ≠ (Value.vstr "JSON_NEWLINE") := by
      intro hc
      cases hc
      exact hne rfl
    simp only [Keymap.split_rows]
    rw [if_neg hnev]
    rw [hsp, ebind_ok]
    cases rs with
    | nil => rfl
    | cons row rows => rfl
  · intro l tlx rs hsp
    have hnev : (Value.vbool true) ≠ (Value.vstr "JSON_NEWLINE") := by
      intro hc
      cases hc
    simp only [Keymap.split_rows]
    rw [if_neg hnev]
    rw [hsp, ebind_ok]
    cases rs with
    | nil => rfl
    | cons row rows => rfl

/-- C6, witness: the escaped string `a"b` renders as `"a\"b"` and parses
back; a keymap row renders `"x"` raw. -/
theorem c6_scalar_rendering_amended_witness :
    Info.encode 3 (.vstr "a\"b") = .ok (.pstr (jsonQuote "a\"b")) ∧
    parseV 1 ((jsonQuote "a\"b").data ++ [']']) = some (.vstr "a\"b", [']']) ∧
    Keymap.split_rows 2 (.cons (.vstr "x") .nil) = .ok [["\"x\""]] ∧
    Keymap.split_rows 2 (.cons (.vbool true) .nil) = .ok [["\"True\""]] :=
  ⟨c6_scalar_rendering_amended.1 3 "a\"b",
   c6_scalar_rendering_amended.2.1 "a\"b" [']'] 0,
   by
     have h := c6_scalar_rendering_amended.2.2.2.1 2 "x" .nil [[]] (by decide) rfl
     exact h,
   by
     have h := c6_scalar_rendering_amended.2.2.2.2 2 .nil [[]] rfl
     exact h⟩

end QMKV
